import Mathlib

/-!
# binsort: external merge sort of fixed-length binary records

A shallow embedding of `sortprocess.go` and theorems about it.

Conventions of the embedding.

* A byte is a `Fin 256`; a file's content and a Go byte slice are `List Byte`.
* An `*os.File` is its content together with its current offset (`File`).
  I/O never fails in the first embedding: its theorems are about runs in which
  no read, write, seek or open returns an error.  `fill`, `mergeBlocks` and
  `sortBlocks` are embedded a second time (`fillX`, `mergeBlocksX`,
  `sortBlocksX`) with failing reads, short or failing writes, the removal of the
  output file, and a check of every slice expression.
* Go `int`/`int64` values are natural numbers in `SortProcess` and below it.
  Every quantity computed there is bounded by twice the length of a file or by
  `BlockSize`, so 64-bit overflow needs files of at least `2^62` bytes and is
  left out; `RecordSize`, `KeyStart`, `KeyEnd` and `BlockSize` are taken
  non-negative.  In `main` the flag values are any `int` and the arithmetic
  wraps around (`wrapInt`).
* Loops whose trip count is not known in advance carry a fuel argument; the
  callers pass a bound computed from their arguments and `none` stands for a
  loop that did not finish within it.  The theorems prove `some`.
* `sort.Sort` belongs to the Go standard library, not to this repository: it
  is a parameter `srt`, constrained by `SortContract` (what the library
  documents: the data ends up ordered by `Less`, rearranged only through
  `Swap`; stability is not promised).  The one theorem about a second run
  also takes `SortKeepsOrder`: data already in order are left as they are.
-/

namespace Binsort

/-- One byte of a file or of a buffer. -/
abbrev Byte := Fin 256

/-- Configuration of a run (`type SortProcess struct`); the three path
fields do not take part in the computation on file contents. -/
structure SortProcess where
  RecordSize : Nat
  KeyStart : Nat
  KeyEnd : Nat
  BlockSize : Nat
  deriving DecidableEq, Repr

/-- An open file: content and current offset. -/
structure File where
  data : List Byte
  off : Nat
  deriving DecidableEq, Repr

/-- A freshly created (or truncated) file, as returned by `ioutil.TempFile`
and by `os.OpenFile` with `O_CREATE|O_WRONLY|O_TRUNC`. -/
def File.create : File := { data := [], off := 0 }

/-- Result of `os.Open` on a file holding `data`. -/
def File.openFile (data : List Byte) : File := { data := data, off := 0 }

/-- Sequential write `f.Write(b)`: the bytes go to the current offset, a gap
between the end of the file and the offset reads as zeros. -/
def File.Write (f : File) (b : List Byte) : File :=
  { data := f.data.take f.off ++ List.replicate (f.off - f.data.length) 0 ++ b
      ++ f.data.drop (f.off + b.length),
    off := f.off + b.length }

/-- Repositioning `f.Seek(off, os.SEEK_SET)`. -/
def File.Seek (f : File) (off : Nat) : File := { f with off := off }

/-- Positioned read `f.ReadAt(buf, off)` with `len(buf) = len`: the bytes
read; fewer than `len` of them means `io.EOF`.  The file offset is unchanged. -/
def File.ReadAt (f : File) (len off : Nat) : List Byte :=
  (f.data.drop off).take len

/-- Sequential read `io.ReadFull(f, buf)` with `len(buf) = len`: the bytes read
and the file advanced.  Fewer than `len` bytes means `io.EOF` (none read) or
`io.ErrUnexpectedEOF`. -/
def ioReadFull (f : File) (len : Nat) : List Byte × File :=
  let d := (f.data.drop f.off).take len
  (d, { f with off := f.off + d.length })

/-- Streaming copy `io.Copy(dst, src)`: everything from the offset of `src` to
its end is written to `dst`.  When `src` stands at its end or beyond, nothing
is read, no write is issued and `dst` stays as it is. -/
def ioCopy (dst src : File) : File :=
  if src.off < src.data.length then dst.Write (src.data.drop src.off) else dst

/-- Lexicographic comparison `bytes.Compare(a, b)` of unsigned bytes:
`-1`, `0` or `1`. -/
def bytesCompare : List Byte → List Byte → Int
  | [], [] => 0
  | [], _ :: _ => -1
  | _ :: _, [] => 1
  | a :: as, b :: bs =>
    if a < b then -1 else if b < a then 1 else bytesCompare as bs

/-- Go slice expression `s[lo:hi]` on a slice used within its length. -/
def slice (s : List Byte) (lo hi : Nat) : List Byte :=
  (s.drop lo).take (hi - lo)

/-! ## The cursor over one block (`mergeableBlock`) -/

/-- Cursor state (`type mergeableBlock struct`); the pointer `p` to the
configuration is passed to the methods instead. -/
structure mergeableBlock where
  buf : List Byte
  bufOffset : Nat
  pos : Nat
  posOffset : Nat
  size : Nat
  deriving DecidableEq, Repr

/-- Method `fill`: the cursor after the call and whether `io.EOF` was returned.
The read loop `for n < len(b.buf) && err == nil` is one `ReadAt`: a
`ReadAt` of an `*os.File` returns fewer bytes than asked only together with an
error, which ends the loop. -/
def mergeableBlock.fill (p : SortProcess) (file : File) (b : mergeableBlock) :
    mergeableBlock × Bool :=
  let b1 : mergeableBlock :=
    if b.bufOffset ≥ b.buf.length then
      let len := if b.posOffset + b.buf.length > b.size then b.size - b.posOffset
        else b.buf.length
      let d := file.ReadAt len (b.pos + b.posOffset)
      let n := d.length
      let n1 := n - n % p.RecordSize
      { b with buf := d.take n1, bufOffset := 0, posOffset := b.posOffset + n }
    else b
  (b1, decide (b1.buf.length = 0))

/-- Method `record`. -/
def mergeableBlock.record (p : SortProcess) (b : mergeableBlock) : List Byte :=
  slice b.buf b.bufOffset (b.bufOffset + p.RecordSize)

/-- Method `key`. -/
def mergeableBlock.key (p : SortProcess) (b : mergeableBlock) : List Byte :=
  slice b.buf (b.bufOffset + p.KeyStart) (b.bufOffset + p.KeyEnd)

/-- Method `next`. -/
def mergeableBlock.next (p : SortProcess) (b : mergeableBlock) : mergeableBlock :=
  { b with bufOffset := b.bufOffset + p.RecordSize }

/-! ## Merging two blocks (`mergeBlocks`) -/

/-- The inner loop `for i := 0; i < len(blocks);` of `mergeBlocks`: the blocks
still to visit, the blocks kept so far, and `less` as the index (in the kept
blocks) and the value of the cursor it points to.  A cursor at `io.EOF` is
removed from the slice. -/
def mergeBlocks.scan (p : SortProcess) (file : File) :
    List mergeableBlock → List mergeableBlock → Option (Nat × mergeableBlock) →
    List mergeableBlock × Option (Nat × mergeableBlock)
  | [], kept, less => (kept, less)
  | b :: rest, kept, less =>
    match b.fill p file with
    | (_, true) => mergeBlocks.scan p file rest kept less
    | (b1, false) =>
      let less1 : Option (Nat × mergeableBlock) :=
        match less with
        | none => some (kept.length, b1)
        | some (j, l) =>
          if bytesCompare (b1.key p) (l.key p) < 0 then some (kept.length, b1)
          else some (j, l)
      mergeBlocks.scan p file rest (kept ++ [b1]) less1

/-- The outer loop `for len(blocks) > 0` of `mergeBlocks`.  `out` is the output
buffer (`outOffset` is its length throughout), `outputSize` its capacity;
the result is the buffer and the output file when the loop ends. -/
def mergeBlocks.loop (p : SortProcess) (file : File) (outputSize : Nat) :
    Nat → List mergeableBlock → List Byte → File → Option (List Byte × File)
  | 0, _, _, _ => none
  | fuel + 1, blocks, out, outfile =>
    if blocks.length > 0 then
      match mergeBlocks.scan p file blocks [] none with
      | (blocks1, none) => mergeBlocks.loop p file outputSize fuel blocks1 out outfile
      | (blocks1, some (i, less)) =>
        let out1 := out ++ less.record p
        let blocks2 := blocks1.set i (less.next p)
        if out1.length = outputSize then
          mergeBlocks.loop p file outputSize fuel blocks2 [] (outfile.Write out1)
        else
          mergeBlocks.loop p file outputSize fuel blocks2 out1 outfile
    else some (out, outfile)

/-- Size of each of the two input buffers of `mergeBlocks`. -/
def inputSize (p : SortProcess) : Nat :=
  p.BlockSize / 4 - (p.BlockSize / 4) % p.RecordSize

/-- Capacity of the output buffer of `mergeBlocks`. -/
def outputSize (p : SortProcess) : Nat :=
  (p.BlockSize - inputSize p * 2) - (p.BlockSize - inputSize p * 2) % p.RecordSize

/-- The two cursors `mergeBlocks` starts from. -/
def mergeBlocks.init (p : SortProcess) (nthMerge mergeBlockSize : Nat) :
    List mergeableBlock :=
  [ { buf := List.replicate (inputSize p) 0, bufOffset := inputSize p,
      pos := nthMerge * 2 * mergeBlockSize, posOffset := 0, size := mergeBlockSize },
    { buf := List.replicate (inputSize p) 0, bufOffset := inputSize p,
      pos := nthMerge * 2 * mergeBlockSize + mergeBlockSize, posOffset := 0,
      size := mergeBlockSize } ]

/-- Function `mergeBlocks`: the output file after the call.  Every turn of the
outer loop but the last two emits one record of at least one byte out of at
most `2 * mergeBlockSize`, which bounds the turns. -/
def mergeBlocks (p : SortProcess) (infile outfile : File)
    (nthMerge mergeBlockSize : Nat) : Option File :=
  match mergeBlocks.loop p infile (outputSize p) (2 * mergeBlockSize + 2)
      (mergeBlocks.init p nthMerge mergeBlockSize) [] outfile with
  | none => none
  | some (out, outfile1) =>
    if out.length > 0 then some (outfile1.Write out) else some outfile1

/-! ## One merge pass (`mergePass`) -/

/-- The loop `for nthMerge := 0; nthMerge < blocks/2; nthMerge++` of
`mergePass`, with the number of turns left and the current `nthMerge`. -/
def mergePass.loop (p : SortProcess) (infile : File) (mergeBlockSize : Nat) :
    Nat → Nat → File → Option File
  | 0, _, outfile => some outfile
  | n + 1, nthMerge, outfile =>
    match mergeBlocks p infile outfile nthMerge mergeBlockSize with
    | none => none
    | some outfile1 => mergePass.loop p infile mergeBlockSize n (nthMerge + 1) outfile1

/-- Function `mergePass`: the output file after the pass. -/
def mergePass (p : SortProcess) (infile outfile : File)
    (mergeBlockSize blocks : Nat) : Option File :=
  match mergePass.loop p infile mergeBlockSize (blocks / 2) 0 outfile with
  | none => none
  | some outfile1 =>
    if blocks % 2 = 1 then
      let infile1 := infile.Seek (mergeBlockSize * (blocks - 1))
      let outfile2 := outfile1.Seek (mergeBlockSize * (blocks - 1))
      some (ioCopy outfile2 infile1)
    else some outfile1

/-! ## The merge engine (`merge`) -/

/-- What `merge` logs for a pass at verbosity 8: the number of blocks, their
size, and whether the pass is the last one. -/
structure PassLog where
  mergeBlocks : Nat
  mergeBlockSize : Nat
  lastOne : Bool
  deriving DecidableEq, Repr

/-- Function `renameOrCopy`: the content found under the new name afterwards.
The rename and the copy that replaces it leave the same content there. -/
def renameOrCopy (oldfile : File) : File :=
  { data := oldfile.data, off := 0 }

/-- The loop `for mergeBlockSize := ...; mergeBlockSize < size; mergeBlockSize *= 2`
of `merge`: the file under the output name when the loop ends, and the log. -/
def merge.loop (p : SortProcess) (size : Nat) :
    Nat → File → File → Nat → List PassLog → Option (File × List PassLog)
  | 0, _, _, _, _ => none
  | fuel + 1, infile, outfile, mergeBlockSize, log =>
    if mergeBlockSize < size then
      let mergeBlocks := size / mergeBlockSize + (if size % mergeBlockSize > 0 then 1 else 0)
      let lastOne := decide (mergeBlockSize * 2 ≥ size)
      let tmpfile := if lastOne then outfile else File.create
      match mergePass p infile tmpfile mergeBlockSize mergeBlocks with
      | none => none
      | some tmpfile1 =>
        merge.loop p size fuel tmpfile1 (if lastOne then tmpfile1 else outfile)
          (mergeBlockSize * 2) (log ++ [⟨mergeBlocks, mergeBlockSize, lastOne⟩])
    else some (outfile, log)

/-- Function `merge`: the file under the output name afterwards, and the log
of the passes run.  The block size at least doubles from a positive start, so
`size + 1` turns are enough. -/
def merge (p : SortProcess) (infile outfile : File) (size : Nat) :
    Option (File × List PassLog) :=
  if p.BlockSize ≥ size then some (renameOrCopy infile, [])
  else merge.loop p size (size + 1) infile outfile p.BlockSize []

/-! ## Sorting the blocks (`sortBlocks`, `sortableRecords`) -/

/-- Method `Len` of `sortableRecords`. -/
def sortableRecords.Len (p : SortProcess) (buf : List Byte) : Nat :=
  buf.length / p.RecordSize

/-- Method `Less` of `sortableRecords`. -/
def sortableRecords.Less (p : SortProcess) (buf : List Byte) (i j : Nat) : Bool :=
  let ki := slice buf (i * p.RecordSize + p.KeyStart) (i * p.RecordSize + p.KeyEnd)
  let kj := slice buf (j * p.RecordSize + p.KeyStart) (j * p.RecordSize + p.KeyEnd)
  decide (bytesCompare ki kj < 0)

/-- Go `copy(buf[off:off+len(src)], src)`. -/
def copyAt (buf : List Byte) (off : Nat) (src : List Byte) : List Byte :=
  buf.take off ++ src ++ buf.drop (off + src.length)

/-- Method `Swap` of `sortableRecords`: the buffer after the call. -/
def sortableRecords.Swap (p : SortProcess) (buf : List Byte) (i j : Nat) : List Byte :=
  let recordSize := p.RecordSize
  let tmp := slice buf (i * recordSize) (i * recordSize + recordSize)
  let buf1 := copyAt buf (i * recordSize)
    (slice buf (j * recordSize) (j * recordSize + recordSize))
  copyAt buf1 (j * recordSize) tmp

/-- The loop of `sortBlocks`: one turn reads a block, cuts it to whole
records, sorts it with `srt` (Go's `sort.Sort`) and writes it. -/
def sortBlocks.loop (srt : SortProcess → List Byte → List Byte) (p : SortProcess) :
    Nat → File → File → Nat → Option (File × Nat)
  | 0, _, _, _ => none
  | fuel + 1, infile, outfile, n =>
    let (d, infile1) := ioReadFull infile p.BlockSize
    let eof := decide (d.length < p.BlockSize)
    let nn := d.length
    let nn1 := if nn % p.RecordSize ≠ 0 then nn - nn % p.RecordSize else nn
    let buf := srt p (d.take nn1)
    let outfile1 := outfile.Write buf
    if eof then some (outfile1, n + nn1)
    else sortBlocks.loop srt p fuel infile1 outfile1 (n + nn1)

/-- Function `sortBlocks`: the file written and the byte count returned.  Every
turn but the last reads `BlockSize > 0` bytes, so one turn more than the bytes
left to read is enough. -/
def sortBlocks (srt : SortProcess → List Byte → List Byte) (p : SortProcess)
    (infile outfile : File) : Option (File × Nat) :=
  sortBlocks.loop srt p (infile.data.length - infile.off + 1) infile outfile 0

/-! ## The whole run (`Run`) -/

/-- Method `Run` on an input file holding `input`: the content of the output
file afterwards. -/
def Run (srt : SortProcess → List Byte → List Byte) (p : SortProcess)
    (input : List Byte) : Option (List Byte) :=
  let infile := File.openFile input
  let outfile := File.create
  match sortBlocks srt p infile outfile with
  | none => none
  | some (sorted, size) =>
    let outfile := File.create
    match merge p sorted outfile size with
    | none => none
    | some (result, _) => some result.data

/-! ## Vocabulary of the statements -/

/-- The first `n` consecutive `R`-byte pieces of `l`. -/
def toRecordsAux (R : Nat) : Nat → List Byte → List (List Byte)
  | 0, _ => []
  | n + 1, l => l.take R :: toRecordsAux R n (l.drop R)

/-- A file read as consecutive `R`-byte records; trailing bytes that do not
make a whole record are left out. -/
def toRecords (R : Nat) (l : List Byte) : List (List Byte) :=
  toRecordsAux R (l.length / R) l

/-- The key of a record: its byte window `[KeyStart, KeyEnd)`. -/
def recordKey (p : SortProcess) (r : List Byte) : List Byte :=
  slice r p.KeyStart p.KeyEnd

/-- Order of two records by key: byte-wise, unsigned, lexicographic. -/
def keyLE (p : SortProcess) (a b : List Byte) : Prop :=
  bytesCompare (recordKey p a) (recordKey p b) ≤ 0

instance keyLE.decidable (p : SortProcess) : DecidableRel (keyLE p) :=
  fun a b => inferInstanceAs (Decidable (bytesCompare (recordKey p a) (recordKey p b) ≤ 0))

/-- The records of `l` are in non-decreasing key order. -/
def SortedRecords (p : SortProcess) (l : List Byte) : Prop :=
  (toRecords p.RecordSize l).Sorted (keyLE p)

/-- Left-biased stable two-way merge of two lists of records: the head of the
first list goes first unless the head of the second has a strictly smaller
key. -/
def stableMerge (p : SortProcess) : List (List Byte) → List (List Byte) → List (List Byte)
  | [], ys => ys
  | x :: xs, [] => x :: xs
  | x :: xs, y :: ys =>
    if keyLE p x y then x :: stableMerge p xs (y :: ys)
    else y :: stableMerge p (x :: xs) ys

/-- The bytes of the left-biased stable merge of the records of two blocks. -/
def mergeSpec (p : SortProcess) (a b : List Byte) : List Byte :=
  (stableMerge p (toRecords p.RecordSize a) (toRecords p.RecordSize b)).flatten

/-- The `k`-th block of `m` bytes of a file, clipped to the end of the file. -/
def blockAt (m k : Nat) (l : List Byte) : List Byte :=
  (l.drop (k * m)).take m

/-- What the Go library documents of `sort.Sort`, for a `sortableRecords` over
a buffer of whole records: the buffer is rearranged through `Swap` only, so
it keeps its length and its records up to order (`Swap_foldl_perm`), and it
ends up in ascending order as determined by `Less`.  Nothing is said of records
with equal keys. -/
def SortContract (srt : SortProcess → List Byte → List Byte) : Prop :=
  ∀ (p : SortProcess) (buf : List Byte),
    0 < p.RecordSize → p.KeyStart ≤ p.KeyEnd → p.KeyEnd ≤ p.RecordSize →
    p.RecordSize ∣ buf.length →
      (srt p buf).length = buf.length ∧
      (toRecords p.RecordSize (srt p buf)).Perm (toRecords p.RecordSize buf) ∧
      ∀ i j, i < j → j < sortableRecords.Len p (srt p buf) →
        sortableRecords.Less p (srt p buf) j i = false

/-- A sort that meets `SortContract`: insertion sort of the records by key. -/
def insertionSortRecords (p : SortProcess) (buf : List Byte) : List Byte :=
  ((toRecords p.RecordSize buf).insertionSort (keyLE p)).flatten

/-- The part of its block a cursor has not read from the file yet. -/
def mergeableBlock.filePart (file : List Byte) (b : mergeableBlock) : List Byte :=
  (file.drop (b.pos + b.posOffset)).take (b.size - b.posOffset)

/-- What a cursor has yet to deliver: the unread end of its buffer, then the
part of its block still on file. -/
def mergeableBlock.remaining (file : List Byte) (b : mergeableBlock) : List Byte :=
  b.buf.drop b.bufOffset ++ b.filePart file

/-- Invariant of a cursor of `mergeBlocks` over a file of whole records, with
input buffers of `cap` bytes: everything is record-aligned, the read position
stays inside the block, and the buffer is shorter than `cap` only once the
block has been read to its end. -/
structure CursorInv (p : SortProcess) (file : List Byte) (cap : Nat)
    (b : mergeableBlock) : Prop where
  buf_dvd : p.RecordSize ∣ b.buf.length
  off_dvd : p.RecordSize ∣ b.bufOffset
  off_le : b.bufOffset ≤ b.buf.length
  pos_le : b.posOffset ≤ b.size
  size_dvd : p.RecordSize ∣ b.size
  posOffset_dvd : p.RecordSize ∣ b.posOffset
  pos_dvd : p.RecordSize ∣ b.pos
  full : b.buf.length = cap ∨ b.filePart file = []

/-! ## Results of loops -/

/-- The result of a loop that leaves `base` written or buffered. -/
def LoopResult (r : Option (List Byte × File)) (base : List Byte) : Prop :=
  ∃ out outfile, r = some (out, outfile) ∧ outfile.off = outfile.data.length ∧
    outfile.data ++ out = base

/-! ## Bounds that need no alignment -/

/-- What holds of a cursor of `mergeBlocks` over any file: the buffer is used
in whole records and the read position stays inside the block. -/
structure CursorBound (p : SortProcess) (b : mergeableBlock) : Prop where
  buf_dvd : p.RecordSize ∣ b.buf.length
  off_dvd : p.RecordSize ∣ b.bufOffset
  off_le : b.bufOffset ≤ b.buf.length
  pos_le : b.posOffset ≤ b.size

/-- An upper bound of the bytes a cursor can still deliver. -/
def mergeableBlock.budget (b : mergeableBlock) : Nat :=
  (b.buf.length - b.bufOffset) + (b.size - b.posOffset)

/-- Sum of the budgets of the cursors of a slice. -/
def totalBudget (blocks : List mergeableBlock) : Nat :=
  (blocks.map mergeableBlock.budget).sum

/-- What the inner loop keeps: every kept cursor stands on a record, and `less`
points to one of them. -/
def ScanPost (p : SortProcess) (kept : List mergeableBlock)
    (less : Option (Nat × mergeableBlock)) : Prop :=
  (∀ b ∈ kept, CursorBound p b ∧ b.bufOffset + p.RecordSize ≤ b.buf.length) ∧
  match less with
  | none => kept = []
  | some (j, l) => kept[j]? = some l

/-! ## Files as sequences of blocks -/

/-- The first `n` blocks of `c` bytes of a file, each replaced by its image
under `g`. -/
def blockwise (g : List Byte → List Byte) (c : Nat) : Nat → List Byte → List Byte
  | 0, _ => []
  | n + 1, l => g (l.take c) ++ blockwise g c n (l.drop c)

/-- The merge of the two halves of a block of `2 * m` bytes. -/
def mergePair (p : SortProcess) (m : Nat) (blk : List Byte) : List Byte :=
  mergeSpec p (blk.take m) (blk.drop m)

/-! ## Generations -/

/-- A generation of blocks of `m` bytes: a file of whole records in which every
block of `m` bytes (the last one clipped) is in non-decreasing key order. -/
def Generation (p : SortProcess) (m : Nat) (f : List Byte) : Prop :=
  p.RecordSize ∣ f.length ∧ ∀ k : Nat, SortedRecords p (blockAt m k f)

/-! ## A cursor on its own -/

/-- The records a cursor delivers when `fill`, `record` and `next` are repeated
until `fill` returns `io.EOF`; `none` when the fuel runs out first. -/
def mergeableBlock.drain (p : SortProcess) (file : File) :
    Nat → mergeableBlock → Option (List (List Byte))
  | 0, _ => none
  | fuel + 1, b =>
    match b.fill p file with
    | (_, true) => some []
    | (b1, false) =>
      match mergeableBlock.drain p file fuel (b1.next p) with
      | none => none
      | some rs => some (b1.record p :: rs)

/-- Invariant of a cursor over any file, with a buffer of `cap` bytes: the
buffer is used in whole records, the read position stays inside the block, and
until the block has been read to its end the buffer is full and whole records
are left to read. -/
structure CursorState (p : SortProcess) (file : List Byte) (cap : Nat)
    (b : mergeableBlock) : Prop where
  buf_dvd : p.RecordSize ∣ b.buf.length
  off_dvd : p.RecordSize ∣ b.bufOffset
  off_le : b.bufOffset ≤ b.buf.length
  pos_le : b.posOffset ≤ b.size
  full : b.filePart file = [] ∨ (p.RecordSize ∣ b.size - b.posOffset ∧ b.buf.length = cap)

/-- A cursor as `mergeBlocks` builds it: a buffer of `cap` bytes marked as used
up, at the start of the block of `size` bytes at offset `pos`. -/
def newCursor (cap pos size : Nat) : mergeableBlock :=
  { buf := List.replicate cap 0, bufOffset := cap, pos := pos, posOffset := 0, size := size }

/-! ## The passes of `merge`, told apart by where they write -/

/-- Number of blocks of `m` bytes needed to cover `size` bytes: `size / m`
rounded up. -/
def ceilDiv (size m : Nat) : Nat := (size + m - 1) / m

/-- What the passes of `merge` are said to do, written from that description
and not from the loop of `merge`: `K` passes of `mergePass` in a row, the block
size starting at `m` and doubling, each on the output of the one before; every
pass but the last writes to a freshly created temporary file, the last one to
`outfile`.  The result is the file under the output name afterwards. -/
def passesSpec (p : SortProcess) (size : Nat) : Nat → Nat → File → File → Option File
  | 0, _, _, outfile => some outfile
  | k + 1, m, infile, outfile =>
    match mergePass p infile (if k = 0 then outfile else File.create) m (ceilDiv size m) with
    | none => none
    | some t => passesSpec p size k (m * 2) t (if k = 0 then t else outfile)

/-! ## Calls on a cursor in any order -/

/-- A call of one of the two methods that change a cursor. -/
inductive CursorOp where
  | fill
  | next
  deriving DecidableEq, Repr

/-- The cursor after one call. -/
def mergeableBlock.call (p : SortProcess) (file : File) (b : mergeableBlock) :
    CursorOp → mergeableBlock
  | CursorOp.fill => (b.fill p file).1
  | CursorOp.next => b.next p

/-- The cursor after a sequence of calls. -/
def mergeableBlock.calls (p : SortProcess) (file : File) (b : mergeableBlock)
    (ops : List CursorOp) : mergeableBlock :=
  ops.foldl (mergeableBlock.call p file) b

/-! ## Errors, short writes and index checks

The definitions above leave out what the code does when a read or a write
fails and assume that every slice expression is in range.  The definitions of
this section embed `fill`, `mergeBlocks` and `sortBlocks` again: the operating
system is a `Device` that decides which reads fail and how many bytes a write
takes, and every slice expression is checked, an expression out of range
ending the call in a panic. -/

/-- A Go `error` value other than `nil`. -/
inductive GoError where
  | EOF
  | other
  deriving DecidableEq, Repr

/-- The operating system as `mergeBlocks` and `sortBlocks` meet it.
`readFails off`: a read at offset `off` of the input returns no byte and an
error other than `io.EOF`.  `write off b`: the pair `(n, err)` returned by
`Write(b)` on the output file standing at offset `off`; the first `n` bytes of
`b` are written.  What `(*os.File).Write` documents of the pair is
`Device.WriteContract`. -/
structure Device where
  readFails : Nat → Bool
  write : Nat → List Byte → Nat × Option GoError

/-- The operating system when nothing fails: no read fails and every write
takes all its bytes. -/
def Device.ok : Device :=
  { readFails := fun _ => false, write := fun _ b => (b.length, none) }

/-- How a call ends that does not run to its normal end: it returns an error, or
a slice expression (or a division) panics. -/
inductive Abort where
  | failed (e : GoError)
  | panicked
  deriving DecidableEq, Repr

/-- How a call of `mergeBlocks` ends: it returns `err`, leaving `outfile` and
having called `os.Remove(outfile.Name())` or not; or it panics; or the model
runs out of fuel. -/
inductive Outcome where
  | returned (err : Option GoError) (outfile : File) (removed : Bool)
  | panicked
  | outOfFuel
  deriving DecidableEq, Repr

/-- Method `fill` with read errors and index checks; `cap` is the capacity of
the buffer.  The reslice `b.buf[0 : b.size-b.posOffset]` is in range when
`0 ≤ b.size - b.posOffset ≤ cap`; `n % b.p.RecordSize` needs `RecordSize ≠ 0`;
a failed `ReadAt` makes `fill` return its error. -/
def mergeableBlock.fillX (p : SortProcess) (dev : Device) (file : File) (cap : Nat)
    (b : mergeableBlock) : Except Abort (mergeableBlock × Bool) :=
  if b.bufOffset ≥ b.buf.length then
    if b.posOffset + b.buf.length > b.size ∧
        ¬ (b.posOffset ≤ b.size ∧ b.size - b.posOffset ≤ cap) then
      Except.error Abort.panicked
    else
      let len := if b.posOffset + b.buf.length > b.size then b.size - b.posOffset
        else b.buf.length
      if 0 < len ∧ dev.readFails (b.pos + b.posOffset) = true then
        Except.error (Abort.failed GoError.other)
      else if p.RecordSize = 0 then Except.error Abort.panicked
      else
        let d := file.ReadAt len (b.pos + b.posOffset)
        let n := d.length
        let n1 := n - n % p.RecordSize
        let b1 : mergeableBlock :=
          { b with buf := d.take n1, bufOffset := 0, posOffset := b.posOffset + n }
        Except.ok (b1, decide (b1.buf.length = 0))
  else Except.ok (b, decide (b.buf.length = 0))

/-- Whether `record()` is called on a cursor that stands on a whole record of
its buffer. -/
def mergeableBlock.recordOK (p : SortProcess) (b : mergeableBlock) : Bool :=
  decide (b.bufOffset + p.RecordSize ≤ b.buf.length)

/-- Whether `key()` is called on a cursor that stands on a whole record of its
buffer, with a key window in range. -/
def mergeableBlock.keyOK (p : SortProcess) (b : mergeableBlock) : Bool :=
  decide (b.bufOffset + p.RecordSize ≤ b.buf.length ∧ p.KeyStart ≤ p.KeyEnd ∧
    b.bufOffset + p.KeyEnd ≤ b.buf.length)

/-- The inner loop of `mergeBlocks` with read errors and index checks. -/
def mergeBlocks.scanX (p : SortProcess) (dev : Device) (file : File) (cap : Nat) :
    List mergeableBlock → List mergeableBlock → Option (Nat × mergeableBlock) →
    Except Abort (List mergeableBlock × Option (Nat × mergeableBlock))
  | [], kept, less => Except.ok (kept, less)
  | b :: rest, kept, less =>
    match b.fillX p dev file cap with
    | Except.error a => Except.error a
    | Except.ok (_, true) => mergeBlocks.scanX p dev file cap rest kept less
    | Except.ok (b1, false) =>
      match less with
      | none => mergeBlocks.scanX p dev file cap rest (kept ++ [b1]) (some (kept.length, b1))
      | some (j, l) =>
        if b1.keyOK p && l.keyOK p then
          mergeBlocks.scanX p dev file cap rest (kept ++ [b1])
            (if bytesCompare (b1.key p) (l.key p) < 0 then some (kept.length, b1)
              else some (j, l))
        else Except.error Abort.panicked

/-- The outer loop of `mergeBlocks` with errors and index checks: either the
call ends inside the loop, or the loop ends with the buffer and the output
file.  A failed `fill` returns its error as it is; a write that is short or
returns an error removes the output file and returns the error of the write. -/
def mergeBlocks.loopX (p : SortProcess) (dev : Device) (file : File)
    (cap outputSize : Nat) :
    Nat → List mergeableBlock → List Byte → File → Except Outcome (List Byte × File)
  | 0, _, _, _ => Except.error Outcome.outOfFuel
  | fuel + 1, blocks, out, outfile =>
    if blocks.length > 0 then
      match mergeBlocks.scanX p dev file cap blocks [] none with
      | Except.error Abort.panicked => Except.error Outcome.panicked
      | Except.error (Abort.failed e) => Except.error (Outcome.returned (some e) outfile false)
      | Except.ok (blocks1, none) =>
        mergeBlocks.loopX p dev file cap outputSize fuel blocks1 out outfile
      | Except.ok (blocks1, some (i, less)) =>
        if less.recordOK p && decide (out.length + p.RecordSize ≤ outputSize) then
          let out1 := out ++ less.record p
          let blocks2 := blocks1.set i (less.next p)
          if out1.length = outputSize then
            let w := dev.write outfile.off out1
            let outfile1 := outfile.Write (out1.take w.1)
            if w.1 ≠ out1.length ∨ w.2 ≠ none then
              Except.error (Outcome.returned w.2 outfile1 true)
            else mergeBlocks.loopX p dev file cap outputSize fuel blocks2 [] outfile1
          else mergeBlocks.loopX p dev file cap outputSize fuel blocks2 out1 outfile
        else Except.error Outcome.panicked
    else Except.ok (out, outfile)

/-- Function `mergeBlocks` with errors and index checks. -/
def mergeBlocksX (p : SortProcess) (dev : Device) (infile outfile : File)
    (nthMerge mergeBlockSize : Nat) : Outcome :=
  if p.RecordSize = 0 then Outcome.panicked
  else
    match mergeBlocks.loopX p dev infile (inputSize p) (outputSize p)
        (2 * mergeBlockSize + 2) (mergeBlocks.init p nthMerge mergeBlockSize) [] outfile with
    | Except.error o => o
    | Except.ok (out, outfile1) =>
      if out.length > 0 then
        let w := dev.write outfile1.off out
        let outfile2 := outfile1.Write (out.take w.1)
        if w.1 ≠ out.length ∨ w.2 ≠ none then Outcome.returned w.2 outfile2 true
        else Outcome.returned none outfile2 false
      else Outcome.returned none outfile1 false

/-- The loop of `sortBlocks` with errors: a read that fails with an error other
than the two end-of-file errors, and a write that takes fewer bytes than the
block has, each make `sortBlocks` return an error of its own making. -/
def sortBlocks.loopX (srt : SortProcess → List Byte → List Byte) (p : SortProcess)
    (dev : Device) : Nat → File → File → Nat → Option (Except GoError (File × Nat))
  | 0, _, _, _ => none
  | fuel + 1, infile, outfile, n =>
    if 0 < p.BlockSize ∧ dev.readFails infile.off = true then
      some (Except.error GoError.other)
    else
      let (d, infile1) := ioReadFull infile p.BlockSize
      let eof := decide (d.length < p.BlockSize)
      let nn := d.length
      let nn1 := if nn % p.RecordSize ≠ 0 then nn - nn % p.RecordSize else nn
      let buf := srt p (d.take nn1)
      let w := dev.write outfile.off buf
      let outfile1 := outfile.Write (buf.take w.1)
      if w.1 ≠ buf.length then some (Except.error GoError.other)
      else if eof then some (Except.ok (outfile1, n + nn1))
      else sortBlocks.loopX srt p dev fuel infile1 outfile1 (n + nn1)

/-- The operating system when the read at offset `k` of the input fails and
nothing else does. -/
def Device.readFailsAt (k : Nat) : Device :=
  { readFails := fun off => decide (off = k), write := fun _ b => (b.length, none) }

/-- The operating system when the write at offset `k` of the output takes `n`
bytes and returns the error `e`, and nothing else fails. -/
def Device.writeAt (k n : Nat) (e : GoError) : Device :=
  { readFails := fun _ => false,
    write := fun off b => if off = k then (n, some e) else (b.length, none) }

/-- The value a Go `int` takes when the exact result of an operation is `x`:
arithmetic on `int` wraps around in two's complement, here on 64 bits. -/
def wrapInt (x : Int) : Int := (x + 2 ^ 63) % 2 ^ 64 - 2 ^ 63

/-- What `flag.Parse` leaves: the values of the four integer flags (each within
the range of `int`, `0` when the flag is not given) and the number of
arguments that are not flags. -/
structure Flags where
  size : Int
  offset : Int
  length : Int
  blockSize : Int
  nargs : Nat
  deriving DecidableEq, Repr

/-- The `int` fields of the `SortProcess` that `main` hands to `Run`. -/
structure Config where
  RecordSize : Int
  KeyStart : Int
  KeyEnd : Int
  BlockSize : Int
  deriving DecidableEq, Repr

/-- The local variable `*blockRecordSize` of `main` when `BlockSize` is computed
from it. -/
def main.blockRecordSize (f : Flags) : Int :=
  let b := if f.blockSize = 0 then (1 <<< 20 : Int) / f.size else f.blockSize
  if b < 4 then 4 else b

/-- Function `main` up to the call of `Run`: the configuration handed to `Run`,
or `none` when `main` ends in `argError`. -/
def main (f : Flags) : Option Config :=
  if f.nargs < 1 then none
  else if f.nargs < 2 then none
  else if f.size ≤ 0 then none
  else if f.offset < 0 ∨ f.length < 0 then none
  else if wrapInt (f.offset + f.length) > f.size then none
  else
    let keyLen := if f.length = 0 then wrapInt (f.size - f.offset) else f.length
    some { RecordSize := f.size, KeyStart := f.offset,
           KeyEnd := wrapInt (f.offset + keyLen),
           BlockSize := wrapInt (main.blockRecordSize f * f.size) }

/-! ## Bytes and records -/

theorem bytesCompare_neg (a : List Byte) : ∀ b : List Byte,
    bytesCompare a b = - bytesCompare b a := by
  induction a with
  | nil => intro b; cases b <;> simp [bytesCompare]
  | cons x xs ih =>
    intro b
    cases b with
    | nil => simp [bytesCompare]
    | cons y ys =>
      simp only [bytesCompare]
      by_cases h1 : x < y
      · have h2 : ¬ y < x := lt_asymm h1
        simp [h1, h2]
      · by_cases h2 : y < x
        · simp [h1, h2]
        · simp [h1, h2, ih ys]

theorem bytesCompare_trans (a : List Byte) : ∀ b c : List Byte,
    bytesCompare a b ≤ 0 → bytesCompare b c ≤ 0 → bytesCompare a c ≤ 0 := by
  induction a with
  | nil => intro b c _ _; cases c <;> simp [bytesCompare]
  | cons x xs ih =>
    intro b c hab hbc
    cases b with
    | nil => simp [bytesCompare] at hab
    | cons y ys =>
      cases c with
      | nil => simp [bytesCompare] at hbc
      | cons z zs =>
        simp only [bytesCompare] at hab hbc ⊢
        split_ifs at hab hbc ⊢ <;>
          first
            | omega
            | exact ih _ _ hab hbc
            | (exfalso; simp only [Fin.lt_def, not_lt, Fin.le_def] at *; omega)

theorem keyLE_total (p : SortProcess) (a b : List Byte) : keyLE p a b ∨ keyLE p b a := by
  unfold keyLE
  have h := bytesCompare_neg (recordKey p a) (recordKey p b)
  omega

theorem keyLE_trans (p : SortProcess) {a b c : List Byte}
    (h1 : keyLE p a b) (h2 : keyLE p b c) : keyLE p a c :=
  bytesCompare_trans _ _ _ h1 h2

theorem keyLE_refl (p : SortProcess) (a : List Byte) : keyLE p a a := by
  rcases keyLE_total p a a with h | h <;> exact h

/-- The comparison `mergeBlocks` and `Less` make, in terms of `keyLE`. -/
theorem compare_lt_iff_not_keyLE (p : SortProcess) (a b : List Byte) :
    bytesCompare (recordKey p b) (recordKey p a) < 0 ↔ ¬ keyLE p a b := by
  unfold keyLE
  have h := bytesCompare_neg (recordKey p a) (recordKey p b)
  omega

theorem toRecordsAux_length (R : Nat) : ∀ (n : Nat) (l : List Byte),
    (toRecordsAux R n l).length = n := by
  intro n
  induction n with
  | zero => intro l; rfl
  | succ n ih => intro l; simp [toRecordsAux, ih]

theorem toRecords_length (R : Nat) (l : List Byte) :
    (toRecords R l).length = l.length / R := toRecordsAux_length R _ l

theorem toRecords_nil (R : Nat) : toRecords R [] = [] := by
  simp [toRecords, toRecordsAux]

theorem toRecords_cons {R : Nat} (hR : 0 < R) (r l : List Byte) (hr : r.length = R) :
    toRecords R (r ++ l) = r :: toRecords R l := by
  unfold toRecords
  have h1 : (r ++ l).length / R = l.length / R + 1 := by
    rw [List.length_append, hr, Nat.add_comm, Nat.add_div_right _ hR]
  rw [h1, toRecordsAux]
  have h2 : (r ++ l).take R = r := by
    rw [← hr]; exact List.take_left _ _
  have h3 : (r ++ l).drop R = l := by
    rw [← hr]; exact List.drop_left _ _
  rw [h2, h3]

theorem toRecords_of_lt {R : Nat} (l : List Byte) (h : l.length < R) :
    toRecords R l = [] := by
  unfold toRecords
  rw [Nat.div_eq_of_lt h]; rfl

/-- A list of whole records and the records it is made of. -/
theorem aligned_iff_flatten {R : Nat} (_hR : 0 < R) (l : List Byte) :
    R ∣ l.length ↔ ∃ L : List (List Byte), (∀ r ∈ L, r.length = R) ∧ l = L.flatten := by
  constructor
  · rintro ⟨k, hk⟩
    induction k generalizing l with
    | zero =>
      refine ⟨[], by simp, ?_⟩
      simpa using hk
    | succ k ih =>
      have hlen : (l.drop R).length = R * k := by
        rw [List.length_drop, hk, Nat.mul_succ]; omega
      obtain ⟨L, hL, hl⟩ := ih (l.drop R) hlen
      refine ⟨l.take R :: L, ?_, ?_⟩
      · intro r hr
        rcases List.mem_cons.mp hr with h | h
        · rw [h, List.length_take, hk, Nat.mul_succ]; omega
        · exact hL r h
      · rw [List.flatten_cons, ← hl, List.take_append_drop]
  · rintro ⟨L, hL, rfl⟩
    induction L with
    | nil => simp
    | cons r L ih =>
      rw [List.flatten_cons, List.length_append, hL r (List.mem_cons_self _ _)]
      exact Dvd.dvd.add (dvd_refl R) (ih (fun x hx => hL x (List.mem_cons_of_mem _ hx)))

theorem toRecords_flatten {R : Nat} (hR : 0 < R) (L : List (List Byte))
    (hL : ∀ r ∈ L, r.length = R) : toRecords R L.flatten = L := by
  induction L with
  | nil => simp [toRecords_nil]
  | cons r L ih =>
    rw [List.flatten_cons, toRecords_cons hR r _ (hL r (List.mem_cons_self _ _)),
      ih (fun x hx => hL x (List.mem_cons_of_mem _ hx))]

theorem flatten_toRecords {R : Nat} (hR : 0 < R) (l : List Byte) (h : R ∣ l.length) :
    (toRecords R l).flatten = l := by
  obtain ⟨L, hL, rfl⟩ := (aligned_iff_flatten hR l).mp h
  rw [toRecords_flatten hR L hL]

theorem toRecords_append {R : Nat} (hR : 0 < R) (a b : List Byte) (h : R ∣ a.length) :
    toRecords R (a ++ b) = toRecords R a ++ toRecords R b := by
  obtain ⟨L, hL, rfl⟩ := (aligned_iff_flatten hR a).mp h
  induction L with
  | nil => simp [toRecords_nil]
  | cons r L ih =>
    have hr := hL r (List.mem_cons_self _ _)
    have hL1 : ∀ x ∈ L, x.length = R := fun x hx => hL x (List.mem_cons_of_mem _ hx)
    have hd : R ∣ L.flatten.length := (aligned_iff_flatten hR _).mpr ⟨L, hL1, rfl⟩
    rw [List.flatten_cons, List.append_assoc, toRecords_cons hR r _ hr,
      toRecords_cons hR r _ hr, ih hL1 hd, List.cons_append]

theorem length_of_mem_toRecordsAux {R : Nat} : ∀ (n : Nat) (l : List Byte),
    n * R ≤ l.length → ∀ r ∈ toRecordsAux R n l, r.length = R := by
  intro n
  induction n with
  | zero => intro l _ r hr; simp [toRecordsAux] at hr
  | succ n ih =>
    intro l hl r hr
    rw [Nat.succ_mul] at hl
    simp only [toRecordsAux, List.mem_cons] at hr
    rcases hr with h | h
    · rw [h, List.length_take]; omega
    · exact ih (l.drop R) (by rw [List.length_drop]; omega) r h

theorem length_of_mem_toRecords {R : Nat} (l : List Byte) :
    ∀ r ∈ toRecords R l, r.length = R :=
  length_of_mem_toRecordsAux _ l (Nat.div_mul_le_self _ _)

theorem length_flatten_of_records {R : Nat} (L : List (List Byte))
    (hL : ∀ r ∈ L, r.length = R) : L.flatten.length = L.length * R := by
  induction L with
  | nil => simp
  | cons r L ih =>
    rw [List.flatten_cons, List.length_append, hL r (List.mem_cons_self _ _),
      ih (fun x hx => hL x (List.mem_cons_of_mem _ hx)), List.length_cons, Nat.succ_mul]
    omega

theorem Perm.flatten_records {L1 L2 : List (List Byte)} (h : L1.Perm L2) :
    L1.flatten.length = L2.flatten.length := by
  induction h with
  | nil => rfl
  | cons x _ ih => simp [ih]
  | swap x y l => simp; omega
  | trans _ _ ih1 ih2 => rw [ih1, ih2]

/-! ## The cursor -/

theorem add_le_of_dvd_of_lt {R a b : Nat} (ha : R ∣ a) (hb : R ∣ b) (h : a < b) :
    a + R ≤ b := by
  obtain ⟨x, rfl⟩ := ha
  obtain ⟨y, rfl⟩ := hb
  have hxy : x < y := by
    by_contra hc
    have : R * y ≤ R * x := Nat.mul_le_mul_left R (not_lt.mp hc)
    omega
  calc R * x + R = R * (x + 1) := by rw [Nat.mul_succ]
    _ ≤ R * y := Nat.mul_le_mul_left R hxy

theorem fill_of_lt (p : SortProcess) (file : File) (b : mergeableBlock)
    (h : b.bufOffset < b.buf.length) : b.fill p file = (b, false) := by
  have h1 : ¬ b.bufOffset ≥ b.buf.length := by omega
  have h2 : b.buf.length ≠ 0 := by omega
  simp [mergeableBlock.fill, h1, h2]

/-- The cursor after a refill. -/
theorem fill_of_ge (p : SortProcess) (file : File) (b : mergeableBlock)
    (h : b.buf.length ≤ b.bufOffset) :
    ∃ d : List Byte,
      d = (file.data.drop (b.pos + b.posOffset)).take (min b.buf.length (b.size - b.posOffset)) ∧
      b.fill p file =
        ({ b with buf := d.take (d.length - d.length % p.RecordSize), bufOffset := 0,
                  posOffset := b.posOffset + d.length },
         decide ((d.take (d.length - d.length % p.RecordSize)).length = 0)) := by
  refine ⟨_, rfl, ?_⟩
  have h1 : b.bufOffset ≥ b.buf.length := h
  have h3 : (if b.posOffset + b.buf.length > b.size then b.size - b.posOffset
      else b.buf.length) = min b.buf.length (b.size - b.posOffset) := by
    split_ifs <;> omega
  simp only [mergeableBlock.fill, h1, if_true, File.ReadAt, h3]

theorem take_append_take_drop (F : List Byte) (n s : Nat) (h : n ≤ s) :
    F.take n ++ (F.drop n).take (s - n) = F.take s := by
  have : s = n + (s - n) := by omega
  conv_rhs => rw [this, List.take_add]

theorem take_eq_take_length (F : List Byte) (k : Nat) :
    F.take k = F.take (F.take k).length := by
  rw [List.length_take]
  rcases le_total k F.length with h | h
  · rw [min_eq_left h]
  · rw [min_eq_right h, List.take_of_length_le h, List.take_length]

theorem fill_spec (p : SortProcess) (file : File) (cap : Nat) (b : mergeableBlock)
    (hf : p.RecordSize ∣ file.data.length) (hcap : 0 < cap)
    (h : CursorInv p file.data cap b) :
    CursorInv p file.data cap (b.fill p file).1 ∧
    (b.fill p file).1.remaining file.data = b.remaining file.data ∧
    ((b.fill p file).2 = true ↔ b.remaining file.data = []) ∧
    ((b.fill p file).2 = false →
      (b.fill p file).1.bufOffset + p.RecordSize ≤ (b.fill p file).1.buf.length) := by
  by_cases hlt : b.bufOffset < b.buf.length
  · rw [fill_of_lt p file b hlt]
    refine ⟨h, rfl, ?_, ?_⟩
    · simp only [mergeableBlock.remaining, List.append_eq_nil, List.drop_eq_nil_iff]
      constructor
      · intro hc; cases hc
      · intro hc; omega
    · intro _
      exact add_le_of_dvd_of_lt h.off_dvd h.buf_dvd hlt
  · have hge : b.buf.length ≤ b.bufOffset := by omega
    obtain ⟨d, hd, hfill⟩ := fill_of_ge p file b hge
    rw [hfill]
    set F := file.data.drop (b.pos + b.posOffset) with hF
    set s := b.size - b.posOffset with hs
    have hlen : d.length = min (min b.buf.length s) F.length := by
      rw [hd, List.length_take]
    have hFd : p.RecordSize ∣ F.length := by
      rw [hF, List.length_drop]
      exact Nat.dvd_sub' hf (Dvd.dvd.add h.pos_dvd h.posOffset_dvd)
    have hsd : p.RecordSize ∣ s := Nat.dvd_sub' h.size_dvd h.posOffset_dvd
    have hdd : p.RecordSize ∣ d.length := by
      rw [hlen]
      rcases le_total (min b.buf.length s) F.length with h1 | h1
      · rw [min_eq_left h1]
        rcases le_total b.buf.length s with h2 | h2
        · rw [min_eq_left h2]; exact h.buf_dvd
        · rw [min_eq_right h2]; exact hsd
      · rw [min_eq_right h1]; exact hFd
    have hmod : d.length % p.RecordSize = 0 := Nat.mod_eq_zero_of_dvd hdd
    have htake : d.take (d.length - d.length % p.RecordSize) = d := by
      rw [hmod, Nat.sub_zero, List.take_length]
    rw [htake]
    have hdF : d = F.take d.length := by
      rw [hd]
      exact take_eq_take_length F _
    have hds : d.length ≤ s := by rw [hlen]; omega
    have hfp : d ++ (file.data.drop (b.pos + (b.posOffset + d.length))).take
        (b.size - (b.posOffset + d.length)) = b.filePart file.data := by
      have e1 : file.data.drop (b.pos + (b.posOffset + d.length)) = F.drop d.length := by
        rw [hF, List.drop_drop]; congr 1; omega
      have e2 : b.size - (b.posOffset + d.length) = s - d.length := by omega
      rw [e1, e2]
      conv_lhs => rw [hdF]
      rw [List.length_take, min_eq_left (by rw [hlen]; omega),
        take_append_take_drop F d.length s hds]
      rfl
    have hfull : d.length = cap ∨ (file.data.drop (b.pos + (b.posOffset + d.length))).take
        (b.size - (b.posOffset + d.length)) = [] := by
      rcases h.full with h1 | h1
      · by_cases hc : d.length = cap
        · exact Or.inl hc
        · right
          have e1 : file.data.drop (b.pos + (b.posOffset + d.length)) = F.drop d.length := by
            rw [hF, List.drop_drop]; congr 1; omega
          have e2 : b.size - (b.posOffset + d.length) = s - d.length := by omega
          rw [e1, e2]
          have : d.length = s ∨ d.length = F.length := by
            rw [hlen] at hc ⊢; omega
          rcases this with h2 | h2
          · rw [h2, Nat.sub_self, List.take_zero]
          · rw [h2, List.drop_length, List.take_nil]
      · right
        rw [h1] at hfp
        exact (List.append_eq_nil.mp hfp).2
    refine ⟨⟨hdd, dvd_zero _, Nat.zero_le _, ?_, h.size_dvd, ?_, h.pos_dvd, hfull⟩, ?_, ?_, ?_⟩
    · show b.posOffset + d.length ≤ b.size
      have := h.pos_le; omega
    · exact Dvd.dvd.add h.posOffset_dvd hdd
    · show d.drop 0 ++ _ = b.buf.drop b.bufOffset ++ b.filePart file.data
      rw [List.drop_zero, List.drop_eq_nil_of_le hge, List.nil_append]
      exact hfp
    · show decide (d.length = 0) = true ↔ b.buf.drop b.bufOffset ++ b.filePart file.data = []
      rw [List.drop_eq_nil_of_le hge, List.nil_append, ← hfp, decide_eq_true_iff]
      constructor
      · intro h0
        rcases hfull with h1 | h1
        · omega
        · rw [h1, List.length_eq_zero.mp h0]; rfl
      · intro h0
        rw [(List.append_eq_nil.mp h0).1]; rfl
    · intro hne
      show 0 + p.RecordSize ≤ d.length
      have h0 : d.length ≠ 0 := by simpa using hne
      rw [Nat.zero_add]
      exact Nat.le_of_dvd (Nat.pos_of_ne_zero h0) hdd

/-! ## Reading records off a cursor -/

theorem remaining_dvd (p : SortProcess) (file : List Byte) (cap : Nat) (b : mergeableBlock)
    (hf : p.RecordSize ∣ file.length) (h : CursorInv p file cap b) :
    p.RecordSize ∣ (b.remaining file).length := by
  unfold mergeableBlock.remaining mergeableBlock.filePart
  rw [List.length_append, List.length_drop, List.length_take, List.length_drop]
  apply Dvd.dvd.add (Nat.dvd_sub' h.buf_dvd h.off_dvd)
  have h1 : p.RecordSize ∣ b.size - b.posOffset := Nat.dvd_sub' h.size_dvd h.posOffset_dvd
  have h2 : p.RecordSize ∣ file.length - (b.pos + b.posOffset) :=
    Nat.dvd_sub' hf (Dvd.dvd.add h.pos_dvd h.posOffset_dvd)
  rcases le_total (b.size - b.posOffset) (file.length - (b.pos + b.posOffset)) with h3 | h3
  · rw [min_eq_left h3]; exact h1
  · rw [min_eq_right h3]; exact h2

theorem record_eq (p : SortProcess) (file : List Byte) (b : mergeableBlock)
    (hle : b.bufOffset + p.RecordSize ≤ b.buf.length) :
    b.record p = (b.remaining file).take p.RecordSize := by
  unfold mergeableBlock.record mergeableBlock.remaining slice
  rw [Nat.add_sub_cancel_left, List.take_append_of_le_length]
  rw [List.length_drop]; omega

theorem record_length (p : SortProcess) (b : mergeableBlock)
    (hle : b.bufOffset + p.RecordSize ≤ b.buf.length) :
    (b.record p).length = p.RecordSize := by
  unfold mergeableBlock.record slice
  rw [List.length_take, List.length_drop]; omega

theorem key_eq (p : SortProcess) (b : mergeableBlock)
    (hk1 : p.KeyStart ≤ p.KeyEnd) (hk2 : p.KeyEnd ≤ p.RecordSize) :
    b.key p = recordKey p (b.record p) := by
  unfold mergeableBlock.key mergeableBlock.record recordKey slice
  rw [Nat.add_sub_cancel_left, List.drop_take, List.take_take, List.drop_drop]
  congr 1
  omega

theorem next_spec (p : SortProcess) (file : List Byte) (cap : Nat) (b : mergeableBlock)
    (h : CursorInv p file cap b) (hle : b.bufOffset + p.RecordSize ≤ b.buf.length) :
    CursorInv p file cap (b.next p) ∧
    (b.next p).remaining file = (b.remaining file).drop p.RecordSize := by
  refine ⟨⟨h.buf_dvd, Dvd.dvd.add h.off_dvd (dvd_refl _), hle, h.pos_le, h.size_dvd,
    h.posOffset_dvd, h.pos_dvd, h.full⟩, ?_⟩
  unfold mergeableBlock.remaining mergeableBlock.next mergeableBlock.filePart
  simp only
  rw [List.drop_append_of_le_length (by rw [List.length_drop]; omega), List.drop_drop]

theorem File.Write_append (f : File) (b : List Byte) (h : f.off = f.data.length) :
    (f.Write b).data = f.data ++ b ∧ (f.Write b).off = (f.Write b).data.length := by
  unfold File.Write
  simp only [h, Nat.sub_self, List.replicate_zero, List.append_nil, List.take_length]
  rw [List.drop_eq_nil_of_le (by omega)]
  simp

theorem toRecords_of_aligned {R : Nat} (hR : 0 < R) (l : List Byte) (h : R ∣ l.length)
    (hne : l ≠ []) :
    (l.take R).length = R ∧ toRecords R l = l.take R :: toRecords R (l.drop R) := by
  have hlen : R ≤ l.length :=
    Nat.le_of_dvd (List.length_pos.mpr hne) h
  have h1 : (l.take R).length = R := by rw [List.length_take]; omega
  refine ⟨h1, ?_⟩
  conv_lhs => rw [← List.take_append_drop R l]
  exact toRecords_cons hR _ _ h1

theorem stableMerge_nil_right (p : SortProcess) (xs : List (List Byte)) :
    stableMerge p xs [] = xs := by
  cases xs <;> simp [stableMerge]

theorem mergeSpec_nil_left (p : SortProcess) (hR : 0 < p.RecordSize) (b : List Byte)
    (hb : p.RecordSize ∣ b.length) : mergeSpec p [] b = b := by
  unfold mergeSpec
  rw [toRecords_nil]
  simp only [stableMerge]
  exact flatten_toRecords hR b hb

theorem mergeSpec_nil_right (p : SortProcess) (hR : 0 < p.RecordSize) (a : List Byte)
    (ha : p.RecordSize ∣ a.length) : mergeSpec p a [] = a := by
  unfold mergeSpec
  rw [toRecords_nil, stableMerge_nil_right]
  exact flatten_toRecords hR a ha

theorem mergeSpec_cons (p : SortProcess) (hR : 0 < p.RecordSize) (a b : List Byte)
    (ha : p.RecordSize ∣ a.length) (hb : p.RecordSize ∣ b.length)
    (hane : a ≠ []) (hbne : b ≠ []) :
    mergeSpec p a b =
      if keyLE p (a.take p.RecordSize) (b.take p.RecordSize)
      then a.take p.RecordSize ++ mergeSpec p (a.drop p.RecordSize) b
      else b.take p.RecordSize ++ mergeSpec p a (b.drop p.RecordSize) := by
  obtain ⟨_, hra⟩ := toRecords_of_aligned hR a ha hane
  obtain ⟨_, hrb⟩ := toRecords_of_aligned hR b hb hbne
  unfold mergeSpec
  conv_lhs => rw [hra, hrb]
  simp only [stableMerge]
  split_ifs
  · rw [List.flatten_cons, hrb]
  · rw [List.flatten_cons, hra]

theorem LoopResult.of_eq {r : Option (List Byte × File)} {base base1 : List Byte}
    (h : LoopResult r base) (e : base = base1) : LoopResult r base1 := e ▸ h

theorem loop_nil (p : SortProcess) (file : File) (osz fuel : Nat) (out : List Byte)
    (outfile : File) (hoff : outfile.off = outfile.data.length) :
    LoopResult (mergeBlocks.loop p file osz (fuel + 1) [] out outfile)
      (outfile.data ++ out) := by
  refine ⟨out, outfile, ?_, hoff, rfl⟩
  simp [mergeBlocks.loop]

/-- The outer loop with one cursor left delivers what remains of its block. -/
theorem loop_one (p : SortProcess) (file : File) (osz cap : Nat)
    (hR : 0 < p.RecordSize) (hf : p.RecordSize ∣ file.data.length) (hcap : 0 < cap) :
    ∀ (fuel : Nat) (b : mergeableBlock) (out : List Byte) (outfile : File),
      CursorInv p file.data cap b → (b.remaining file.data).length + 2 ≤ fuel →
      outfile.off = outfile.data.length →
      LoopResult (mergeBlocks.loop p file osz fuel [b] out outfile)
        (outfile.data ++ out ++ b.remaining file.data) := by
  intro fuel
  induction fuel with
  | zero => intro b out outfile _ hfuel; omega
  | succ fuel ih =>
    intro b out outfile hb hfuel hoff
    obtain ⟨hinv, hrem, heof, hrec⟩ := fill_spec p file cap b hf hcap hb
    rcases hfill : b.fill p file with ⟨b1, e⟩
    rw [hfill] at hinv hrem heof hrec
    simp only at hinv hrem heof hrec
    cases e with
    | true =>
      have hnil : b.remaining file.data = [] := heof.mp rfl
      have hscan : mergeBlocks.scan p file [b] [] none = ([], none) := by
        simp [mergeBlocks.scan, hfill]
      have : mergeBlocks.loop p file osz (fuel + 1) [b] out outfile =
          mergeBlocks.loop p file osz fuel [] out outfile := by
        simp [mergeBlocks.loop, hscan]
      rw [this, hnil, List.append_nil]
      obtain ⟨k, rfl⟩ : ∃ k, fuel = k + 1 := ⟨fuel - 1, by omega⟩
      exact loop_nil p file osz k out outfile hoff
    | false =>
      have hle := hrec rfl
      have hne : b.remaining file.data ≠ [] := by
        intro hc; have := heof.mpr hc; cases this
      have hscan : mergeBlocks.scan p file [b] [] none = ([b1], some (0, b1)) := by
        simp [mergeBlocks.scan, hfill]
      obtain ⟨hninv, hnrem⟩ := next_spec p file.data cap b1 hinv hle
      have hrecord := record_eq p file.data b1 hle
      have hrlen := record_length p b1 hle
      rw [hrem] at hnrem hrecord
      have hsplit : b1.record p ++ (b1.next p).remaining file.data = b.remaining file.data := by
        rw [hrecord, hnrem, List.take_append_drop]
      have hlen : ((b1.next p).remaining file.data).length + p.RecordSize =
          (b.remaining file.data).length := by
        rw [← hsplit, List.length_append, hrlen]; omega
      have hstep : mergeBlocks.loop p file osz (fuel + 1) [b] out outfile =
          if (out ++ b1.record p).length = osz then
            mergeBlocks.loop p file osz fuel [b1.next p] [] (outfile.Write (out ++ b1.record p))
          else mergeBlocks.loop p file osz fuel [b1.next p] (out ++ b1.record p) outfile := by
        simp [mergeBlocks.loop, hscan]
      rw [hstep]
      split_ifs
      · obtain ⟨hw1, hw2⟩ := File.Write_append outfile (out ++ b1.record p) hoff
        refine (ih (b1.next p) [] _ hninv (by omega) hw2).of_eq ?_
        rw [hw1, ← hsplit]; simp
      · refine (ih (b1.next p) _ outfile hninv (by omega) hoff).of_eq ?_
        rw [← hsplit]; simp

/-! ## The merge loop on two cursors -/

/-- One turn of the outer loop after the scan chose `less` at index `i`. -/
theorem loop_step (p : SortProcess) (file : File) (osz fuel : Nat)
    (blocks blocks1 : List mergeableBlock) (i : Nat) (less : mergeableBlock)
    (out : List Byte) (outfile : File) (hpos : 0 < blocks.length)
    (hscan : mergeBlocks.scan p file blocks [] none = (blocks1, some (i, less))) :
    mergeBlocks.loop p file osz (fuel + 1) blocks out outfile =
      if (out ++ less.record p).length = osz then
        mergeBlocks.loop p file osz fuel (blocks1.set i (less.next p)) []
          (outfile.Write (out ++ less.record p))
      else mergeBlocks.loop p file osz fuel (blocks1.set i (less.next p))
          (out ++ less.record p) outfile := by
  simp only [mergeBlocks.loop, hscan, hpos, gt_iff_lt, if_true]

/-- Either branch after emitting a record leaves the same bytes written or
buffered. -/
theorem loop_emit (p : SortProcess) (file : File) (osz fuel : Nat)
    (blocks : List mergeableBlock) (out1 : List Byte) (outfile : File) (rest : List Byte)
    (hoff : outfile.off = outfile.data.length)
    (ih : ∀ (out : List Byte) (outfile : File), outfile.off = outfile.data.length →
      LoopResult (mergeBlocks.loop p file osz fuel blocks out outfile)
        (outfile.data ++ out ++ rest)) :
    LoopResult
      (if out1.length = osz then
        mergeBlocks.loop p file osz fuel blocks [] (outfile.Write out1)
      else mergeBlocks.loop p file osz fuel blocks out1 outfile)
      (outfile.data ++ out1 ++ rest) := by
  split_ifs
  · obtain ⟨hw1, hw2⟩ := File.Write_append outfile out1 hoff
    refine (ih [] _ hw2).of_eq ?_
    rw [hw1]; simp
  · exact ih out1 outfile hoff

/-- The outer loop on two cursors delivers the left-biased stable merge of
what remains of their blocks. -/
theorem loop_two (p : SortProcess) (file : File) (osz cap : Nat)
    (hR : 0 < p.RecordSize) (hk1 : p.KeyStart ≤ p.KeyEnd) (hk2 : p.KeyEnd ≤ p.RecordSize)
    (hf : p.RecordSize ∣ file.data.length) (hcap : 0 < cap) :
    ∀ (fuel : Nat) (b0 b1 : mergeableBlock) (out : List Byte) (outfile : File),
      CursorInv p file.data cap b0 → CursorInv p file.data cap b1 →
      (b0.remaining file.data).length + (b1.remaining file.data).length + 2 ≤ fuel →
      outfile.off = outfile.data.length →
      LoopResult (mergeBlocks.loop p file osz fuel [b0, b1] out outfile)
        (outfile.data ++ out ++ mergeSpec p (b0.remaining file.data) (b1.remaining file.data)) := by
  intro fuel
  induction fuel with
  | zero => intro b0 b1 out outfile _ _ hfuel; omega
  | succ fuel ih =>
    intro b0 b1 out outfile hb0 hb1 hfuel hoff
    obtain ⟨hinv0, hrem0, heof0, hrec0⟩ := fill_spec p file cap b0 hf hcap hb0
    obtain ⟨hinv1, hrem1, heof1, hrec1⟩ := fill_spec p file cap b1 hf hcap hb1
    have hd0 := remaining_dvd p file.data cap b0 hf hb0
    have hd1 := remaining_dvd p file.data cap b1 hf hb1
    rcases hfill0 : b0.fill p file with ⟨c0, e0⟩
    rcases hfill1 : b1.fill p file with ⟨c1, e1⟩
    rw [hfill0] at hinv0 hrem0 heof0 hrec0
    rw [hfill1] at hinv1 hrem1 heof1 hrec1
    simp only at hinv0 hrem0 heof0 hrec0 hinv1 hrem1 heof1 hrec1
    cases e0 with
    | true =>
      have hnil0 : b0.remaining file.data = [] := heof0.mp rfl
      cases e1 with
      | true =>
        have hnil1 : b1.remaining file.data = [] := heof1.mp rfl
        have hscan : mergeBlocks.scan p file [b0, b1] [] none = ([], none) := by
          simp [mergeBlocks.scan, hfill0, hfill1]
        have : mergeBlocks.loop p file osz (fuel + 1) [b0, b1] out outfile =
            mergeBlocks.loop p file osz fuel [] out outfile := by
          simp [mergeBlocks.loop, hscan]
        rw [this, hnil0, hnil1, mergeSpec_nil_left p hR [] (by simp), List.append_nil]
        obtain ⟨k, rfl⟩ : ∃ k, fuel = k + 1 := ⟨fuel - 1, by omega⟩
        exact loop_nil p file osz k out outfile hoff
      | false =>
        have hle := hrec1 rfl
        have hscan : mergeBlocks.scan p file [b0, b1] [] none = ([c1], some (0, c1)) := by
          simp [mergeBlocks.scan, hfill0, hfill1]
        obtain ⟨hninv, hnrem⟩ := next_spec p file.data cap c1 hinv1 hle
        have hrecord := record_eq p file.data c1 hle
        have hrlen := record_length p c1 hle
        rw [hrem1] at hnrem hrecord
        have hsplit : c1.record p ++ (c1.next p).remaining file.data =
            b1.remaining file.data := by
          rw [hrecord, hnrem, List.take_append_drop]
        have hlen : ((c1.next p).remaining file.data).length + p.RecordSize =
            (b1.remaining file.data).length := by
          rw [← hsplit, List.length_append, hrlen]; omega
        rw [loop_step p file osz fuel [b0, b1] [c1] 0 c1 out outfile (by simp) hscan,
          hnil0, mergeSpec_nil_left p hR _ hd1]
        have hset : [c1].set 0 (c1.next p) = [c1.next p] := rfl
        rw [hset]
        refine (loop_emit p file osz fuel [c1.next p] (out ++ c1.record p) outfile
          ((c1.next p).remaining file.data) hoff ?_).of_eq ?_
        · intro o f ho
          exact loop_one p file osz cap hR hf hcap fuel (c1.next p) o f hninv (by omega) ho
        · rw [← hsplit]; simp
    | false =>
      have hle0 := hrec0 rfl
      obtain ⟨hninv0, hnrem0⟩ := next_spec p file.data cap c0 hinv0 hle0
      have hrecord0 := record_eq p file.data c0 hle0
      have hrlen0 := record_length p c0 hle0
      rw [hrem0] at hrecord0
      have hsplit0 : c0.record p ++ (c0.next p).remaining file.data =
          b0.remaining file.data := by
        rw [hrecord0, hnrem0, hrem0, List.take_append_drop]
      have hlen0 : ((c0.next p).remaining file.data).length + p.RecordSize =
          (b0.remaining file.data).length := by
        rw [← hsplit0, List.length_append, hrlen0]; omega
      have hne0 : b0.remaining file.data ≠ [] := by
        intro hc; have := heof0.mpr hc; cases this
      cases e1 with
      | true =>
        have hnil1 : b1.remaining file.data = [] := heof1.mp rfl
        have hscan : mergeBlocks.scan p file [b0, b1] [] none = ([c0], some (0, c0)) := by
          simp [mergeBlocks.scan, hfill0, hfill1]
        rw [loop_step p file osz fuel [b0, b1] [c0] 0 c0 out outfile (by simp) hscan,
          hnil1, mergeSpec_nil_right p hR _ hd0]
        have hset : [c0].set 0 (c0.next p) = [c0.next p] := rfl
        rw [hset]
        refine (loop_emit p file osz fuel [c0.next p] (out ++ c0.record p) outfile
          ((c0.next p).remaining file.data) hoff ?_).of_eq ?_
        · intro o f ho
          exact loop_one p file osz cap hR hf hcap fuel (c0.next p) o f hninv0 (by omega) ho
        · rw [← hsplit0]; simp
      | false =>
        have hle1 := hrec1 rfl
        obtain ⟨hninv1, hnrem1⟩ := next_spec p file.data cap c1 hinv1 hle1
        have hrecord1 := record_eq p file.data c1 hle1
        have hrlen1 := record_length p c1 hle1
        rw [hrem1] at hrecord1
        have hsplit1 : c1.record p ++ (c1.next p).remaining file.data =
            b1.remaining file.data := by
          rw [hrecord1, hnrem1, hrem1, List.take_append_drop]
        have hlen1 : ((c1.next p).remaining file.data).length + p.RecordSize =
            (b1.remaining file.data).length := by
          rw [← hsplit1, List.length_append, hrlen1]; omega
        have hne1 : b1.remaining file.data ≠ [] := by
          intro hc; have := heof1.mpr hc; cases this
        have hcmp : bytesCompare (c1.key p) (c0.key p) < 0 ↔
            ¬ keyLE p (c0.record p) (c1.record p) := by
          rw [key_eq p c0 hk1 hk2, key_eq p c1 hk1 hk2]
          exact compare_lt_iff_not_keyLE p _ _
        rw [mergeSpec_cons p hR _ _ hd0 hd1 hne0 hne1, ← hrecord0, ← hrecord1]
        by_cases hle : keyLE p (c0.record p) (c1.record p)
        · have hnlt : ¬ bytesCompare (c1.key p) (c0.key p) < 0 := fun h => hcmp.mp h hle
          have hscan : mergeBlocks.scan p file [b0, b1] [] none =
              ([c0, c1], some (0, c0)) := by
            simp [mergeBlocks.scan, hfill0, hfill1, hnlt]
          rw [loop_step p file osz fuel [b0, b1] [c0, c1] 0 c0 out outfile (by simp) hscan,
            if_pos hle]
          have hset : [c0, c1].set 0 (c0.next p) = [c0.next p, c1] := rfl
          rw [hset]
          refine (loop_emit p file osz fuel [c0.next p, c1] (out ++ c0.record p) outfile
            (mergeSpec p ((c0.next p).remaining file.data) (c1.remaining file.data))
            hoff ?_).of_eq ?_
          · intro o f ho
            exact ih (c0.next p) c1 o f hninv0 hinv1 (by rw [hrem1]; omega) ho
          · rw [hnrem0, hrem0, hrem1]; simp
        · have hlt : bytesCompare (c1.key p) (c0.key p) < 0 := hcmp.mpr hle
          have hscan : mergeBlocks.scan p file [b0, b1] [] none =
              ([c0, c1], some (1, c1)) := by
            simp [mergeBlocks.scan, hfill0, hfill1, hlt]
          rw [loop_step p file osz fuel [b0, b1] [c0, c1] 1 c1 out outfile (by simp) hscan,
            if_neg hle]
          have hset : [c0, c1].set 1 (c1.next p) = [c0, c1.next p] := rfl
          rw [hset]
          refine (loop_emit p file osz fuel [c0, c1.next p] (out ++ c1.record p) outfile
            (mergeSpec p (c0.remaining file.data) ((c1.next p).remaining file.data))
            hoff ?_).of_eq ?_
          · intro o f ho
            exact ih c0 (c1.next p) o f hinv0 hninv1 (by rw [hrem0]; omega) ho
          · rw [hnrem1, hrem0, hrem1]; simp

/-! ## `mergeBlocks` on record-aligned blocks -/

theorem inputSize_dvd (p : SortProcess) : p.RecordSize ∣ inputSize p :=
  Nat.dvd_sub_mod _

theorem outputSize_dvd (p : SortProcess) : p.RecordSize ∣ outputSize p :=
  Nat.dvd_sub_mod _

theorem inputSize_pos (p : SortProcess) (hR : 0 < p.RecordSize)
    (hB4 : 4 * p.RecordSize ≤ p.BlockSize) : 0 < inputSize p := by
  unfold inputSize
  have h1 : p.RecordSize ≤ p.BlockSize / 4 := by omega
  have h2 : 1 ≤ p.BlockSize / 4 / p.RecordSize := (Nat.one_le_div_iff hR).mpr h1
  have h3 := Nat.div_add_mod (p.BlockSize / 4) p.RecordSize
  have h4 : p.RecordSize * 1 ≤ p.RecordSize * (p.BlockSize / 4 / p.RecordSize) :=
    Nat.mul_le_mul_left _ h2
  omega

theorem init_cursor_inv (p : SortProcess) (file : List Byte) (pos m : Nat)
    (hm : p.RecordSize ∣ m) (hpos : p.RecordSize ∣ pos) :
    CursorInv p file (inputSize p)
      { buf := List.replicate (inputSize p) 0, bufOffset := inputSize p, pos := pos,
        posOffset := 0, size := m } :=
  ⟨by simp [inputSize_dvd], inputSize_dvd p, by simp, Nat.zero_le _, hm, dvd_zero _, hpos,
    Or.inl (by simp)⟩

theorem init_cursor_remaining (p : SortProcess) (file : List Byte) (pos m : Nat) :
    mergeableBlock.remaining file
      { buf := List.replicate (inputSize p) 0, bufOffset := inputSize p, pos := pos,
        posOffset := 0, size := m } = (file.drop pos).take m := by
  simp [mergeableBlock.remaining, mergeableBlock.filePart]

/-- The bytes `mergeBlocks` appends for the pair `nthMerge`: the left-biased
stable merge of the two blocks of the pair. -/
theorem mergeBlocks_spec (p : SortProcess) (infile outfile : File) (nthMerge m : Nat)
    (hR : 0 < p.RecordSize) (hk1 : p.KeyStart ≤ p.KeyEnd) (hk2 : p.KeyEnd ≤ p.RecordSize)
    (hB4 : 4 * p.RecordSize ≤ p.BlockSize) (hm : p.RecordSize ∣ m)
    (hf : p.RecordSize ∣ infile.data.length) (hoff : outfile.off = outfile.data.length) :
    ∃ result : File, mergeBlocks p infile outfile nthMerge m = some result ∧
      result.off = result.data.length ∧
      result.data = outfile.data ++
        mergeSpec p (blockAt m (2 * nthMerge) infile.data)
          (blockAt m (2 * nthMerge + 1) infile.data) := by
  have hcap := inputSize_pos p hR hB4
  have hp0 : p.RecordSize ∣ nthMerge * 2 * m := Dvd.dvd.mul_left hm _
  have hp1 : p.RecordSize ∣ nthMerge * 2 * m + m := Dvd.dvd.add hp0 hm
  have hi0 := init_cursor_inv p infile.data (nthMerge * 2 * m) m hm hp0
  have hi1 := init_cursor_inv p infile.data (nthMerge * 2 * m + m) m hm hp1
  have hr0 := init_cursor_remaining p infile.data (nthMerge * 2 * m) m
  have hr1 := init_cursor_remaining p infile.data (nthMerge * 2 * m + m) m
  have hb0 : blockAt m (2 * nthMerge) infile.data = (infile.data.drop (nthMerge * 2 * m)).take m := by
    unfold blockAt; rw [Nat.mul_comm 2 nthMerge]
  have hb1 : blockAt m (2 * nthMerge + 1) infile.data =
      (infile.data.drop (nthMerge * 2 * m + m)).take m := by
    unfold blockAt; rw [Nat.mul_comm 2 nthMerge, Nat.succ_mul]
  obtain ⟨out, of1, hres, hoff1, hdata⟩ :=
    loop_two p infile (outputSize p) (inputSize p) hR hk1 hk2 hf hcap (2 * m + 2) _ _ []
      outfile hi0 hi1
      (by rw [hr0, hr1, List.length_take, List.length_take]; omega) hoff
  rw [hr0, hr1, ← hb0, ← hb1, List.append_nil] at hdata
  unfold mergeBlocks mergeBlocks.init
  rw [hres]
  simp only
  split_ifs
  · obtain ⟨hw1, hw2⟩ := File.Write_append of1 out hoff1
    exact ⟨_, rfl, hw2, by rw [hw1, hdata]⟩
  · have : out = [] := by
      cases out with
      | nil => rfl
      | cons a t => simp at *
    rw [this, List.append_nil] at hdata
    exact ⟨_, rfl, hoff1, hdata⟩

/-! ## `mergeBlocks` on any file: termination and a bound on the output -/

theorem fill_bound (p : SortProcess) (file : File) (b : mergeableBlock)
    (h : CursorBound p b) :
    CursorBound p (b.fill p file).1 ∧ (b.fill p file).1.budget ≤ b.budget ∧
    ((b.fill p file).2 = false →
      (b.fill p file).1.bufOffset + p.RecordSize ≤ (b.fill p file).1.buf.length) := by
  by_cases hlt : b.bufOffset < b.buf.length
  · rw [fill_of_lt p file b hlt]
    exact ⟨h, le_refl _, fun _ => add_le_of_dvd_of_lt h.off_dvd h.buf_dvd hlt⟩
  · have hge : b.buf.length ≤ b.bufOffset := by omega
    obtain ⟨d, hd, hfill⟩ := fill_of_ge p file b hge
    rw [hfill]
    have hlen : d.length ≤ b.size - b.posOffset := by
      rw [hd, List.length_take]; omega
    have hdvd : p.RecordSize ∣ d.length - d.length % p.RecordSize := Nat.dvd_sub_mod _
    have hl2 : (d.take (d.length - d.length % p.RecordSize)).length =
        d.length - d.length % p.RecordSize := by
      rw [List.length_take]; omega
    have hpl := h.pos_le
    refine ⟨⟨by simp only [hl2]; exact hdvd, dvd_zero _, Nat.zero_le _, ?_⟩, ?_, ?_⟩
    · show b.posOffset + d.length ≤ b.size
      omega
    · unfold mergeableBlock.budget
      simp only [hl2]
      omega
    · intro hne
      simp only [hl2] at hne ⊢
      have h0 : d.length - d.length % p.RecordSize ≠ 0 := by simpa using hne
      rw [Nat.zero_add]
      exact Nat.le_of_dvd (Nat.pos_of_ne_zero h0) hdvd

theorem next_bound (p : SortProcess) (b : mergeableBlock) (h : CursorBound p b)
    (hle : b.bufOffset + p.RecordSize ≤ b.buf.length) :
    CursorBound p (b.next p) ∧ (b.next p).budget + p.RecordSize = b.budget := by
  refine ⟨⟨h.buf_dvd, Dvd.dvd.add h.off_dvd (dvd_refl _), hle, h.pos_le⟩, ?_⟩
  unfold mergeableBlock.budget mergeableBlock.next
  simp only
  omega

theorem totalBudget_append (a b : List mergeableBlock) :
    totalBudget (a ++ b) = totalBudget a + totalBudget b := by
  simp [totalBudget]

theorem totalBudget_set (blocks : List mergeableBlock) (i : Nat) (l c : mergeableBlock)
    (hi : blocks[i]? = some l) :
    totalBudget (blocks.set i c) + l.budget = totalBudget blocks + c.budget := by
  induction blocks generalizing i with
  | nil => simp at hi
  | cons b bs ih =>
    cases i with
    | zero =>
      simp only [List.getElem?_cons_zero, Option.some.injEq] at hi
      subst hi
      simp only [List.set_cons_zero, totalBudget, List.map_cons, List.sum_cons]
      omega
    | succ i =>
      simp only [List.getElem?_cons_succ] at hi
      have := ih i hi
      simp only [List.set_cons_succ, totalBudget, List.map_cons, List.sum_cons] at this ⊢
      omega

theorem scan_bound (p : SortProcess) (file : File) :
    ∀ (todo kept : List mergeableBlock) (less : Option (Nat × mergeableBlock)),
      (∀ b ∈ todo, CursorBound p b) → ScanPost p kept less →
      ScanPost p (mergeBlocks.scan p file todo kept less).1
        (mergeBlocks.scan p file todo kept less).2 ∧
      totalBudget (mergeBlocks.scan p file todo kept less).1 ≤
        totalBudget todo + totalBudget kept := by
  intro todo
  induction todo with
  | nil =>
    intro kept less _ hk
    simp only [mergeBlocks.scan]
    exact ⟨hk, by simp [totalBudget]⟩
  | cons b rest ih =>
    intro kept less htodo hk
    obtain ⟨hinv, hbud, hrec⟩ := fill_bound p file b (htodo b (List.mem_cons_self _ _))
    have hrest : ∀ x ∈ rest, CursorBound p x := fun x hx => htodo x (List.mem_cons_of_mem _ hx)
    have hcons : totalBudget (b :: rest) = b.budget + totalBudget rest := by
      simp [totalBudget]
    rcases hfill : b.fill p file with ⟨c, e⟩
    rw [hfill] at hinv hbud hrec
    simp only at hinv hbud hrec
    cases e with
    | true =>
      have hs : mergeBlocks.scan p file (b :: rest) kept less =
          mergeBlocks.scan p file rest kept less := by
        simp [mergeBlocks.scan, hfill]
      rw [hs]
      obtain ⟨h1, h2⟩ := ih kept less hrest hk
      exact ⟨h1, by omega⟩
    | false =>
      have hkept : ∀ x ∈ kept ++ [c],
          CursorBound p x ∧ x.bufOffset + p.RecordSize ≤ x.buf.length := by
        intro x hx
        rcases List.mem_append.mp hx with h | h
        · exact hk.1 x h
        · rw [List.mem_singleton.mp h]; exact ⟨hinv, hrec rfl⟩
      have hlast : (kept ++ [c])[kept.length]? = some c := by simp
      have hb2 : totalBudget (kept ++ [c]) = totalBudget kept + c.budget := by
        simp [totalBudget]
      cases less with
      | none =>
        have hs : mergeBlocks.scan p file (b :: rest) kept none =
            mergeBlocks.scan p file rest (kept ++ [c]) (some (kept.length, c)) := by
          simp [mergeBlocks.scan, hfill]
        rw [hs]
        obtain ⟨h1, h2⟩ := ih (kept ++ [c]) (some (kept.length, c)) hrest ⟨hkept, hlast⟩
        exact ⟨h1, by omega⟩
      | some jl =>
        obtain ⟨j, l⟩ := jl
        have hj : kept[j]? = some l := hk.2
        have hj2 : (kept ++ [c])[j]? = some l := by
          have hlt : j < kept.length := by
            by_contra hc
            rw [List.getElem?_eq_none (by omega)] at hj
            cases hj
          rw [List.getElem?_append_left hlt]; exact hj
        by_cases hcmp : bytesCompare (c.key p) (l.key p) < 0
        · have hs : mergeBlocks.scan p file (b :: rest) kept (some (j, l)) =
              mergeBlocks.scan p file rest (kept ++ [c]) (some (kept.length, c)) := by
            simp [mergeBlocks.scan, hfill, hcmp]
          rw [hs]
          obtain ⟨h1, h2⟩ := ih (kept ++ [c]) (some (kept.length, c)) hrest ⟨hkept, hlast⟩
          exact ⟨h1, by omega⟩
        · have hs : mergeBlocks.scan p file (b :: rest) kept (some (j, l)) =
              mergeBlocks.scan p file rest (kept ++ [c]) (some (j, l)) := by
            simp [mergeBlocks.scan, hfill, hcmp]
          rw [hs]
          obtain ⟨h1, h2⟩ := ih (kept ++ [c]) (some (j, l)) hrest ⟨hkept, hj2⟩
          exact ⟨h1, by omega⟩

/-- The outer loop ends within its fuel and adds at most the budget of its
cursors to what is written or buffered. -/
theorem loop_bound (p : SortProcess) (file : File) (osz : Nat) (hR : 0 < p.RecordSize) :
    ∀ (fuel : Nat) (blocks : List mergeableBlock) (out : List Byte) (outfile : File),
      (∀ b ∈ blocks, CursorBound p b) → totalBudget blocks + 2 ≤ fuel →
      outfile.off = outfile.data.length →
      ∃ w : List Byte, w.length ≤ totalBudget blocks ∧
        LoopResult (mergeBlocks.loop p file osz fuel blocks out outfile)
          (outfile.data ++ out ++ w) := by
  intro fuel
  induction fuel with
  | zero => intro blocks out outfile _ hfuel; omega
  | succ fuel ih =>
    intro blocks out outfile hb hfuel hoff
    by_cases hpos : 0 < blocks.length
    · obtain ⟨⟨hkept, hless⟩, hbud⟩ :=
        scan_bound p file blocks [] none hb ⟨by simp, rfl⟩
      rcases hscan : mergeBlocks.scan p file blocks [] none with ⟨blocks1, less⟩
      rw [hscan] at hkept hless hbud
      have hnilb : totalBudget ([] : List mergeableBlock) = 0 := rfl
      simp only [hnilb, Nat.add_zero] at hbud
      cases less with
      | none =>
        simp only at hless
        subst hless
        have : mergeBlocks.loop p file osz (fuel + 1) blocks out outfile =
            mergeBlocks.loop p file osz fuel [] out outfile := by
          simp [mergeBlocks.loop, hscan, hpos]
        rw [this]
        obtain ⟨k, rfl⟩ : ∃ k, fuel = k + 1 := ⟨fuel - 1, by omega⟩
        exact ⟨[], Nat.zero_le _, by
          rw [List.append_nil]; exact loop_nil p file osz k out outfile hoff⟩
      | some il =>
        obtain ⟨i, l⟩ := il
        simp only at hless
        have hmem : l ∈ blocks1 := List.getElem?_mem hless
        obtain ⟨hlb, hlr⟩ := hkept l hmem
        obtain ⟨hnb, hnbud⟩ := next_bound p l hlb hlr
        have hset := totalBudget_set blocks1 i l (l.next p) hless
        have hall : ∀ b ∈ blocks1.set i (l.next p), CursorBound p b := by
          intro b hb2
          rcases List.mem_or_eq_of_mem_set hb2 with h | h
          · exact (hkept b h).1
          · rw [h]; exact hnb
        have hrl := record_length p l hlr
        rw [loop_step p file osz fuel blocks blocks1 i l out outfile hpos hscan]
        have key : ∀ (o : List Byte) (f : File), f.off = f.data.length →
            ∃ w : List Byte, w.length ≤ totalBudget (blocks1.set i (l.next p)) ∧
              LoopResult (mergeBlocks.loop p file osz fuel (blocks1.set i (l.next p)) o f)
                (f.data ++ o ++ w) :=
          fun o f ho => ih (blocks1.set i (l.next p)) o f hall (by omega) ho
        split_ifs
        · obtain ⟨hw1, hw2⟩ := File.Write_append outfile (out ++ l.record p) hoff
          obtain ⟨w, hw, hres⟩ := key [] _ hw2
          refine ⟨l.record p ++ w, by rw [List.length_append, hrl]; omega, hres.of_eq ?_⟩
          rw [hw1]; simp
        · obtain ⟨w, hw, hres⟩ := key (out ++ l.record p) outfile hoff
          refine ⟨l.record p ++ w, by rw [List.length_append, hrl]; omega, hres.of_eq ?_⟩
          simp
    · have hnil : blocks = [] := List.length_eq_zero.mp (by omega)
      subst hnil
      exact ⟨[], Nat.zero_le _, by
        rw [List.append_nil]; exact loop_nil p file osz fuel out outfile hoff⟩

/-- On any file `mergeBlocks` returns, having appended at most
`2 * mergeBlockSize` bytes. -/
theorem mergeBlocks_bound (p : SortProcess) (infile outfile : File) (nthMerge m : Nat)
    (hR : 0 < p.RecordSize) (hoff : outfile.off = outfile.data.length) :
    ∃ (result : File) (w : List Byte), mergeBlocks p infile outfile nthMerge m = some result ∧
      result.off = result.data.length ∧ result.data = outfile.data ++ w ∧
      w.length ≤ 2 * m := by
  have hinit : ∀ b ∈ mergeBlocks.init p nthMerge m, CursorBound p b := by
    intro b hb
    simp only [mergeBlocks.init, List.mem_cons, List.mem_singleton, List.not_mem_nil,
      or_false] at hb
    rcases hb with h | h <;> subst h <;>
      exact ⟨by simp [inputSize_dvd], inputSize_dvd p, by simp, Nat.zero_le _⟩
  have hbud : totalBudget (mergeBlocks.init p nthMerge m) = 2 * m := by
    simp [totalBudget, mergeBlocks.init, mergeableBlock.budget]; omega
  obtain ⟨w, hw, out, of1, hres, hoff1, hdata⟩ :=
    loop_bound p infile (outputSize p) hR (2 * m + 2) _ [] outfile hinit (by omega) hoff
  rw [List.append_nil] at hdata
  unfold mergeBlocks
  rw [hres]
  simp only
  split_ifs
  · obtain ⟨hw1, hw2⟩ := File.Write_append of1 out hoff1
    exact ⟨_, w, rfl, hw2, by rw [hw1, hdata], by omega⟩
  · have : out = [] := by
      cases out with
      | nil => rfl
      | cons a t => simp at *
    rw [this, List.append_nil] at hdata
    exact ⟨_, w, rfl, hoff1, hdata, by omega⟩

/-! ## Blocks of a file -/

theorem blockAt_zero (c : Nat) (l : List Byte) : blockAt c 0 l = l.take c := by
  simp [blockAt]

theorem blockAt_succ (c k : Nat) (l : List Byte) :
    blockAt c (k + 1) l = blockAt c k (l.drop c) := by
  unfold blockAt
  rw [List.drop_drop, Nat.succ_mul, Nat.add_comm]

theorem blockAt_length_le (c k : Nat) (l : List Byte) : (blockAt c k l).length ≤ c := by
  unfold blockAt; rw [List.length_take]; omega

theorem blockAt_dvd {R : Nat} (c k : Nat) (l : List Byte) (hc : R ∣ c) (hl : R ∣ l.length) :
    R ∣ (blockAt c k l).length := by
  unfold blockAt
  rw [List.length_take, List.length_drop]
  have h1 : R ∣ l.length - k * c := Nat.dvd_sub' hl (Dvd.dvd.mul_left hc k)
  rcases le_total c (l.length - k * c) with h | h
  · rw [min_eq_left h]; exact hc
  · rw [min_eq_right h]; exact h1

theorem blockAt_nil (c k : Nat) : blockAt c k [] = [] := by
  simp [blockAt]

theorem blockAt_of_le (c k : Nat) (l : List Byte) (h : l.length ≤ k * c) :
    blockAt c k l = [] := by
  unfold blockAt
  rw [List.drop_eq_nil_of_le h, List.take_nil]

theorem drop_dvd {R : Nat} (c : Nat) (l : List Byte) (hc : R ∣ c) (hl : R ∣ l.length) :
    R ∣ (l.drop c).length := by
  rw [List.length_drop]; exact Nat.dvd_sub' hl hc

theorem take_dvd {R : Nat} (c : Nat) (l : List Byte) (hc : R ∣ c) (hl : R ∣ l.length) :
    R ∣ (l.take c).length := by
  rw [List.length_take]
  rcases le_total c l.length with h | h
  · rw [min_eq_left h]; exact hc
  · rw [min_eq_right h]; exact hl

theorem blockwise_nil (g : List Byte → List Byte) (c : Nat) (hg : g [] = []) :
    ∀ n : Nat, blockwise g c n [] = [] := by
  intro n
  induction n with
  | zero => rfl
  | succ n ih => simp [blockwise, hg, ih]

theorem blockwise_snoc (g : List Byte → List Byte) (c : Nat) :
    ∀ (n : Nat) (l : List Byte),
      blockwise g c (n + 1) l = blockwise g c n l ++ g (blockAt c n l) := by
  intro n
  induction n with
  | zero => intro l; simp [blockwise, blockAt_zero]
  | succ n ih =>
    intro l
    rw [blockwise, ih (l.drop c), blockwise, blockAt_succ, List.append_assoc]

/-- Mapping a length-preserving function over the blocks keeps the length. -/
theorem blockwise_length {R : Nat} (g : List Byte → List Byte) (c : Nat)
    (hc : R ∣ c) (hg : ∀ b : List Byte, R ∣ b.length → (g b).length = b.length) :
    ∀ (n : Nat) (l : List Byte), R ∣ l.length → l.length ≤ n * c →
      (blockwise g c n l).length = l.length := by
  intro n
  induction n with
  | zero => intro l _ h; simp at h; simp [blockwise, h]
  | succ n ih =>
    intro l hl h
    rw [blockwise, List.length_append, hg _ (take_dvd c l hc hl),
      ih (l.drop c) (drop_dvd c l hc hl) (by rw [List.length_drop, Nat.succ_mul] at *; omega),
      ← List.length_append, List.take_append_drop]

/-- The blocks of the result are the images of the blocks. -/
theorem blockAt_blockwise {R : Nat} (g : List Byte → List Byte) (c : Nat)
    (hc : R ∣ c) (hg : ∀ b : List Byte, R ∣ b.length → (g b).length = b.length) :
    ∀ (n : Nat) (l : List Byte), R ∣ l.length → l.length ≤ n * c →
      ∀ j : Nat, blockAt c j (blockwise g c n l) = g (blockAt c j l) := by
  have hg0 : g [] = [] := List.length_eq_zero.mp (by rw [hg [] (by simp)]; rfl)
  intro n
  induction n with
  | zero =>
    intro l _ h j
    simp at h
    simp [blockwise, h, blockAt_nil, hg0]
  | succ n ih =>
    intro l hl h j
    have hX : (g (l.take c)).length = (l.take c).length := hg _ (take_dvd c l hc hl)
    rw [blockwise]
    by_cases hlen : c ≤ l.length
    · have hXc : (g (l.take c)).length = c := by rw [hX, List.length_take]; omega
      cases j with
      | zero =>
        rw [blockAt_zero, blockAt_zero, List.take_append_of_le_length (by omega),
          List.take_of_length_le (by omega)]
      | succ j =>
        rw [blockAt_succ, blockAt_succ,
          List.drop_append_of_le_length (by omega), List.drop_of_length_le (by omega),
          List.nil_append]
        exact ih (l.drop c) (drop_dvd c l hc hl)
          (by rw [List.length_drop, Nat.succ_mul] at *; omega) j
    · have hd : l.drop c = [] := List.drop_eq_nil_of_le (by omega)
      have ht : l.take c = l := List.take_of_length_le (by omega)
      rw [hd, blockwise_nil g c hg0, List.append_nil, ht]
      have hXl : (g l).length = l.length := by rw [ht] at hX; exact hX
      cases j with
      | zero =>
        rw [blockAt_zero, blockAt_zero, ht, List.take_of_length_le (by omega)]
      | succ j =>
        have hc1 : l.length ≤ (j + 1) * c := by
          rw [Nat.succ_mul]; omega
        rw [blockAt_of_le c (j + 1) l hc1, blockAt_of_le c (j + 1) (g l) (by omega), hg0]

/-- Mapping over the blocks a function that permutes the records of a block
permutes the records of the file. -/
theorem toRecords_blockwise_perm {R : Nat} (hR : 0 < R) (g : List Byte → List Byte) (c : Nat)
    (hc : R ∣ c) (hg : ∀ b : List Byte, R ∣ b.length → (g b).length = b.length)
    (hp : ∀ b : List Byte, R ∣ b.length → (toRecords R (g b)).Perm (toRecords R b)) :
    ∀ (n : Nat) (l : List Byte), R ∣ l.length → l.length ≤ n * c →
      (toRecords R (blockwise g c n l)).Perm (toRecords R l) := by
  intro n
  induction n with
  | zero => intro l _ h; simp at h; simp [blockwise, h]
  | succ n ih =>
    intro l hl h
    have ht := take_dvd c l hc hl
    have hX : R ∣ (g (l.take c)).length := by rw [hg _ ht]; exact ht
    rw [blockwise, toRecords_append hR _ _ hX]
    have h1 := hp _ ht
    have h2 := ih (l.drop c) (drop_dvd c l hc hl)
      (by rw [List.length_drop, Nat.succ_mul] at *; omega)
    have h3 : toRecords R l = toRecords R (l.take c) ++ toRecords R (l.drop c) := by
      conv_lhs => rw [← List.take_append_drop c l]
      exact toRecords_append hR _ _ ht
    rw [h3]
    exact List.Perm.append h1 h2

/-- Mapping over the blocks a function that leaves them as they are leaves
the file as it is. -/
theorem blockwise_id (g : List Byte → List Byte) (c : Nat) :
    ∀ (n : Nat) (l : List Byte), l.length ≤ n * c →
      (∀ k : Nat, g (blockAt c k l) = blockAt c k l) → blockwise g c n l = l := by
  intro n
  induction n with
  | zero => intro l h _; simp at h; simp [blockwise, h]
  | succ n ih =>
    intro l h hk
    have h0 := hk 0
    rw [blockAt_zero] at h0
    rw [blockwise, h0, ih (l.drop c) (by rw [List.length_drop, Nat.succ_mul] at *; omega)
      (fun k => by rw [← blockAt_succ]; exact hk (k + 1)), List.take_append_drop]

/-! ## The left-biased stable merge -/

theorem stableMerge_nil_left (p : SortProcess) (ys : List (List Byte)) :
    stableMerge p [] ys = ys := by
  simp [stableMerge]

theorem stableMerge_cons_cons (p : SortProcess) (x y : List Byte) (xs ys : List (List Byte)) :
    stableMerge p (x :: xs) (y :: ys) =
      if keyLE p x y then x :: stableMerge p xs (y :: ys)
      else y :: stableMerge p (x :: xs) ys := by
  simp [stableMerge]

theorem stableMerge_perm (p : SortProcess) (xs : List (List Byte)) :
    ∀ ys : List (List Byte), (stableMerge p xs ys).Perm (xs ++ ys) := by
  induction xs with
  | nil => intro ys; rw [stableMerge_nil_left]; exact List.Perm.refl _
  | cons x xs ihx =>
    intro ys
    induction ys with
    | nil => rw [stableMerge_nil_right, List.append_nil]
    | cons y ys ihy =>
      rw [stableMerge_cons_cons]
      split_ifs
      · exact (ihx (y :: ys)).cons x
      · exact ((ihy.cons y).trans List.perm_middle.symm)

theorem stableMerge_sorted (p : SortProcess) (xs : List (List Byte)) :
    ∀ ys : List (List Byte), xs.Sorted (keyLE p) → ys.Sorted (keyLE p) →
      (stableMerge p xs ys).Sorted (keyLE p) := by
  induction xs with
  | nil => intro ys _ h; rw [stableMerge_nil_left]; exact h
  | cons x xs ihx =>
    intro ys
    induction ys with
    | nil => intro h _; rw [stableMerge_nil_right]; exact h
    | cons y ys ihy =>
      intro hx hy
      have hx1 := List.sorted_cons.mp hx
      have hy1 := List.sorted_cons.mp hy
      rw [stableMerge_cons_cons]
      split_ifs with hle
      · refine List.sorted_cons.mpr ⟨?_, ihx (y :: ys) hx1.2 hy⟩
        intro b hb
        rcases List.mem_append.mp ((stableMerge_perm p xs (y :: ys)).mem_iff.mp hb) with h | h
        · exact hx1.1 b h
        · rcases List.mem_cons.mp h with h2 | h2
          · rw [h2]; exact hle
          · exact keyLE_trans p hle (hy1.1 b h2)
      · have hyx : keyLE p y x := (keyLE_total p x y).resolve_left hle
        refine List.sorted_cons.mpr ⟨?_, ihy hx hy1.2⟩
        intro b hb
        rcases List.mem_append.mp ((stableMerge_perm p (x :: xs) ys).mem_iff.mp hb) with h | h
        · rcases List.mem_cons.mp h with h2 | h2
          · rw [h2]; exact hyx
          · exact keyLE_trans p hyx (hx1.1 b h2)
        · exact hy1.1 b h

/-- Merging two lists whose concatenation is already ordered gives back the
concatenation. -/
theorem stableMerge_eq_append (p : SortProcess) (xs : List (List Byte)) :
    ∀ ys : List (List Byte), (xs ++ ys).Sorted (keyLE p) → stableMerge p xs ys = xs ++ ys := by
  induction xs with
  | nil => intro ys _; rw [stableMerge_nil_left]; rfl
  | cons x xs ihx =>
    intro ys h
    cases ys with
    | nil => rw [stableMerge_nil_right, List.append_nil]
    | cons y ys =>
      rw [List.cons_append] at h
      have h1 := List.sorted_cons.mp h
      have hle : keyLE p x y := h1.1 y (by simp)
      rw [stableMerge_cons_cons, if_pos hle, ihx (y :: ys) h1.2, List.cons_append]

/-! ## The merge of two blocks, in bytes -/

theorem toRecords_mergeSpec (p : SortProcess) (hR : 0 < p.RecordSize) (a b : List Byte) :
    toRecords p.RecordSize (mergeSpec p a b) =
      stableMerge p (toRecords p.RecordSize a) (toRecords p.RecordSize b) := by
  unfold mergeSpec
  apply toRecords_flatten hR
  intro r hr
  rcases List.mem_append.mp ((stableMerge_perm p _ _).mem_iff.mp hr) with h | h
  · exact length_of_mem_toRecords a r h
  · exact length_of_mem_toRecords b r h

theorem length_eq_of_aligned {R : Nat} (l : List Byte) (h : R ∣ l.length) :
    (toRecords R l).length * R = l.length := by
  rw [toRecords_length]; exact Nat.div_mul_cancel h

theorem mergeSpec_length (p : SortProcess) (a b : List Byte)
    (ha : p.RecordSize ∣ a.length) (hb : p.RecordSize ∣ b.length) :
    (mergeSpec p a b).length = a.length + b.length := by
  unfold mergeSpec
  rw [length_flatten_of_records (R := p.RecordSize), (stableMerge_perm p _ _).length_eq,
    List.length_append, Nat.add_mul, length_eq_of_aligned a ha, length_eq_of_aligned b hb]
  intro r hr
  rcases List.mem_append.mp ((stableMerge_perm p _ _).mem_iff.mp hr) with h | h
  · exact length_of_mem_toRecords a r h
  · exact length_of_mem_toRecords b r h

theorem toRecords_take_drop {R : Nat} (hR : 0 < R) (m : Nat) (blk : List Byte)
    (hm : R ∣ m) (hb : R ∣ blk.length) :
    toRecords R blk = toRecords R (blk.take m) ++ toRecords R (blk.drop m) := by
  conv_lhs => rw [← List.take_append_drop m blk]
  exact toRecords_append hR _ _ (take_dvd m blk hm hb)

theorem mergePair_length (p : SortProcess) (m : Nat) (blk : List Byte)
    (hm : p.RecordSize ∣ m) (hb : p.RecordSize ∣ blk.length) :
    (mergePair p m blk).length = blk.length := by
  unfold mergePair
  rw [mergeSpec_length p _ _ (take_dvd m blk hm hb) (drop_dvd m blk hm hb),
    ← List.length_append, List.take_append_drop]

theorem mergePair_perm (p : SortProcess) (hR : 0 < p.RecordSize) (m : Nat) (blk : List Byte)
    (hm : p.RecordSize ∣ m) (hb : p.RecordSize ∣ blk.length) :
    (toRecords p.RecordSize (mergePair p m blk)).Perm (toRecords p.RecordSize blk) := by
  unfold mergePair
  rw [toRecords_mergeSpec p hR, toRecords_take_drop hR m blk hm hb]
  exact stableMerge_perm p _ _

theorem mergePair_sorted (p : SortProcess) (hR : 0 < p.RecordSize) (m : Nat) (blk : List Byte)
    (h1 : SortedRecords p (blk.take m)) (h2 : SortedRecords p (blk.drop m)) :
    SortedRecords p (mergePair p m blk) := by
  unfold SortedRecords mergePair
  rw [toRecords_mergeSpec p hR]
  exact stableMerge_sorted p _ _ h1 h2

/-- A block already in key order is the merge of its two halves. -/
theorem mergePair_of_sorted (p : SortProcess) (hR : 0 < p.RecordSize) (m : Nat)
    (blk : List Byte) (hm : p.RecordSize ∣ m) (hb : p.RecordSize ∣ blk.length)
    (h : SortedRecords p blk) : mergePair p m blk = blk := by
  unfold SortedRecords at h
  rw [toRecords_take_drop hR m blk hm hb] at h
  unfold mergePair mergeSpec
  rw [stableMerge_eq_append p _ _ h, ← toRecords_take_drop hR m blk hm hb]
  exact flatten_toRecords hR blk hb

/-- The two halves of a block of `2 * m` bytes are blocks of `m` bytes. -/
theorem blockAt_halves (m k : Nat) (l : List Byte) :
    (blockAt (2 * m) k l).take m = blockAt m (2 * k) l ∧
    (blockAt (2 * m) k l).drop m = blockAt m (2 * k + 1) l := by
  unfold blockAt
  have e1 : k * (2 * m) = 2 * k * m := by ring
  have e2 : (2 * k + 1) * m = 2 * k * m + m := by ring
  constructor
  · rw [List.take_take, e1]; congr 1; omega
  · rw [List.drop_take, List.drop_drop, e1, e2]; congr 1; omega

/-! ## One merge pass -/

theorem blockwise_take (g : List Byte → List Byte) (c : Nat) :
    ∀ (n : Nat) (l : List Byte), blockwise g c n (l.take (n * c)) = blockwise g c n l := by
  intro n
  induction n with
  | zero => intro l; rfl
  | succ n ih =>
    intro l
    have h1 : (l.take ((n + 1) * c)).take c = l.take c := by
      rw [List.take_take]; congr 1; rw [Nat.succ_mul]; omega
    have h2 : (l.take ((n + 1) * c)).drop c = (l.drop c).take (n * c) := by
      rw [List.drop_take]; congr 1; rw [Nat.succ_mul]; omega
    rw [blockwise, blockwise, h1, h2, ih]

/-- The pair loop of a pass appends the merged pairs, one after the other. -/
theorem mergePass_loop_spec (p : SortProcess) (infile : File) (m : Nat)
    (hR : 0 < p.RecordSize) (hk1 : p.KeyStart ≤ p.KeyEnd) (hk2 : p.KeyEnd ≤ p.RecordSize)
    (hB4 : 4 * p.RecordSize ≤ p.BlockSize) (hm : p.RecordSize ∣ m)
    (hf : p.RecordSize ∣ infile.data.length) :
    ∀ (n nthMerge : Nat) (outfile : File), outfile.off = outfile.data.length →
      ∃ result : File, mergePass.loop p infile m n nthMerge outfile = some result ∧
        result.off = result.data.length ∧
        result.data = outfile.data ++
          blockwise (mergePair p m) (2 * m) n (infile.data.drop (nthMerge * (2 * m))) := by
  intro n
  induction n with
  | zero =>
    intro nthMerge outfile hoff
    exact ⟨outfile, rfl, hoff, by simp [blockwise]⟩
  | succ n ih =>
    intro nthMerge outfile hoff
    obtain ⟨r1, hr1, hoff1, hd1⟩ :=
      mergeBlocks_spec p infile outfile nthMerge m hR hk1 hk2 hB4 hm hf hoff
    obtain ⟨r2, hr2, hoff2, hd2⟩ := ih (nthMerge + 1) r1 hoff1
    refine ⟨r2, ?_, hoff2, ?_⟩
    · simp only [mergePass.loop, hr1, hr2]
    · have hb : blockAt (2 * m) nthMerge infile.data =
          (infile.data.drop (nthMerge * (2 * m))).take (2 * m) := rfl
      obtain ⟨h1, h2⟩ := blockAt_halves m nthMerge infile.data
      have hpair : mergePair p m ((infile.data.drop (nthMerge * (2 * m))).take (2 * m)) =
          mergeSpec p (blockAt m (2 * nthMerge) infile.data)
            (blockAt m (2 * nthMerge + 1) infile.data) := by
        unfold mergePair
        rw [← hb, h1, h2]
      have hdrop : (infile.data.drop (nthMerge * (2 * m))).drop (2 * m) =
          infile.data.drop ((nthMerge + 1) * (2 * m)) := by
        rw [List.drop_drop]; congr 1; ring
      rw [hd2, hd1, blockwise, hpair, hdrop, List.append_assoc]

/-- On any file the pair loop of a pass ends, having appended at most
`2 * mergeBlockSize` bytes per pair. -/
theorem mergePass_loop_bound (p : SortProcess) (infile : File) (m : Nat)
    (hR : 0 < p.RecordSize) :
    ∀ (n nthMerge : Nat) (outfile : File), outfile.off = outfile.data.length →
      ∃ (result : File) (w : List Byte),
        mergePass.loop p infile m n nthMerge outfile = some result ∧
        result.off = result.data.length ∧ result.data = outfile.data ++ w ∧
        w.length ≤ n * (2 * m) := by
  intro n
  induction n with
  | zero =>
    intro nthMerge outfile hoff
    exact ⟨outfile, [], rfl, hoff, by simp, by simp⟩
  | succ n ih =>
    intro nthMerge outfile hoff
    obtain ⟨r1, w1, hr1, hoff1, hd1, hw1⟩ :=
      mergeBlocks_bound p infile outfile nthMerge m hR hoff
    obtain ⟨r2, w2, hr2, hoff2, hd2, hw2⟩ := ih (nthMerge + 1) r1 hoff1
    refine ⟨r2, w1 ++ w2, ?_, hoff2, ?_, ?_⟩
    · simp only [mergePass.loop, hr1, hr2]
    · rw [hd2, hd1, List.append_assoc]
    · rw [List.length_append, Nat.succ_mul]; omega

/-- A write at or past the end of a file. -/
theorem File.Write_past (f : File) (b : List Byte) (h : f.data.length ≤ f.off) :
    (f.Write b).data = f.data ++ List.replicate (f.off - f.data.length) 0 ++ b := by
  unfold File.Write
  rw [List.take_of_length_le h, List.drop_eq_nil_of_le (by omega), List.append_nil]

/-- Arithmetic of an odd block count `blocks = ceil(size / m)`. -/
theorem odd_blocks_bounds (size m blocks : Nat) (hm : 0 < m)
    (hblocks : blocks = size / m + (if size % m > 0 then 1 else 0))
    (hodd : blocks % 2 = 1) :
    m * (blocks - 1) = blocks / 2 * (2 * m) ∧ m * (blocks - 1) ≤ size ∧
    size ≤ m * (blocks - 1) + m := by
  have h1 := Nat.div_add_mod size m
  have h2 := Nat.mod_lt size hm
  generalize size / m = q at h1 hblocks
  generalize size % m = r at h1 h2 hblocks
  obtain ⟨k, hk⟩ : ∃ k, blocks = 2 * k + 1 := ⟨blocks / 2, by omega⟩
  have e1 : blocks - 1 = 2 * k := by omega
  have e2 : blocks / 2 = k := by omega
  have e3 : m * (2 * k) = k * (2 * m) := by ring
  rw [e1, e2, e3]
  have h3 : k * (2 * m) ≤ size ∧ size ≤ k * (2 * m) + m := by
    by_cases hr : r > 0
    · rw [if_pos hr] at hblocks
      have hq : q = 2 * k := by omega
      rw [hq, e3] at h1
      generalize k * (2 * m) = X at h1 ⊢
      omega
    · rw [if_neg hr] at hblocks
      have hq : q = 2 * k + 1 := by omega
      rw [hq, Nat.mul_succ, e3] at h1
      generalize k * (2 * m) = X at h1 ⊢
      omega
  exact ⟨rfl, h3.1, h3.2⟩

/-- An odd block count `blocks = ceil(size / m)` leaves a last block that is
not empty. -/
theorem odd_blocks_lt (size m blocks : Nat) (hm : 0 < m)
    (hblocks : blocks = size / m + (if size % m > 0 then 1 else 0))
    (hodd : blocks % 2 = 1) : m * (blocks - 1) < size := by
  have h1 := Nat.div_add_mod size m
  have h2 := Nat.mod_lt size hm
  generalize size / m = q at h1 hblocks
  generalize size % m = r at h1 h2 hblocks
  by_cases hr : r > 0
  · rw [if_pos hr] at hblocks
    have hq : blocks - 1 = q := by omega
    rw [hq]
    generalize m * q = X at h1 ⊢
    omega
  · rw [if_neg hr] at hblocks
    obtain ⟨k, hk⟩ : ∃ k, q = k + 1 := ⟨q - 1, by omega⟩
    have hq : blocks - 1 = k := by omega
    rw [hq]
    rw [hk, Nat.mul_succ] at h1
    generalize m * k = X at h1 ⊢
    omega

theorem ioCopy_of_lt (dst src : File) (h : src.off < src.data.length) :
    ioCopy dst src = dst.Write (src.data.drop src.off) := by
  unfold ioCopy
  rw [if_pos h]

/-- Arithmetic of an even block count `blocks = ceil(size / m)`. -/
theorem even_blocks_bounds (size m blocks : Nat) (hm : 0 < m)
    (hblocks : blocks = size / m + (if size % m > 0 then 1 else 0))
    (heven : ¬ blocks % 2 = 1) :
    size ≤ blocks / 2 * (2 * m) := by
  have h1 := Nat.div_add_mod size m
  have h2 := Nat.mod_lt size hm
  generalize size / m = q at h1 hblocks
  generalize size % m = r at h1 h2 hblocks
  obtain ⟨k, hk⟩ : ∃ k, blocks = 2 * k := ⟨blocks / 2, by omega⟩
  have e2 : blocks / 2 = k := by omega
  have e3 : m * (2 * k) = k * (2 * m) := by ring
  rw [e2]
  by_cases hr : r > 0
  · rw [if_pos hr] at hblocks
    obtain ⟨j, rfl⟩ : ∃ j, k = j + 1 := ⟨k - 1, by omega⟩
    have hq : q = 2 * j + 1 := by omega
    have e5 : m * (2 * j + 1) = j * (2 * m) + m := by ring
    have e6 : (j + 1) * (2 * m) = j * (2 * m) + 2 * m := by ring
    rw [hq, e5] at h1
    rw [e6]
    generalize j * (2 * m) = X at h1 ⊢
    omega
  · rw [if_neg hr] at hblocks
    have hq : q = 2 * k := by omega
    rw [hq, e3] at h1
    generalize k * (2 * m) = X at h1 ⊢
    omega

/-- A pass over a file of whole records: every block of `2 * mergeBlockSize`
bytes of the file is replaced by the merge of its two halves. -/
theorem mergePass_spec (p : SortProcess) (infile : File) (m blocks : Nat)
    (hR : 0 < p.RecordSize) (hk1 : p.KeyStart ≤ p.KeyEnd) (hk2 : p.KeyEnd ≤ p.RecordSize)
    (hB4 : 4 * p.RecordSize ≤ p.BlockSize) (hm : p.RecordSize ∣ m) (hm0 : 0 < m)
    (hf : p.RecordSize ∣ infile.data.length)
    (hblocks : blocks = infile.data.length / m +
      (if infile.data.length % m > 0 then 1 else 0)) :
    ∃ result : File, mergePass p infile File.create m blocks = some result ∧
      result.off = result.data.length ∧
      result.data = blockwise (mergePair p m) (2 * m) ((blocks + 1) / 2) infile.data ∧
      infile.data.length ≤ (blocks + 1) / 2 * (2 * m) := by
  obtain ⟨r1, hr1, hoff1, hd1⟩ :=
    mergePass_loop_spec p infile m hR hk1 hk2 hB4 hm hf (blocks / 2) 0 File.create rfl
  have hd1' : r1.data = blockwise (mergePair p m) (2 * m) (blocks / 2) infile.data := by
    rw [hd1]; simp [File.create]
  have h2m : p.RecordSize ∣ 2 * m := Dvd.dvd.mul_left hm 2
  unfold mergePass
  rw [hr1]
  simp only
  by_cases hodd : blocks % 2 = 1
  · rw [if_pos hodd]
    obtain ⟨e1, e2, e3⟩ := odd_blocks_bounds _ m blocks hm0 hblocks hodd
    have hlt : (infile.Seek (m * (blocks - 1))).off <
        (infile.Seek (m * (blocks - 1))).data.length :=
      odd_blocks_lt _ m blocks hm0 hblocks hodd
    rw [ioCopy_of_lt _ _ hlt]
    have hK : (blocks + 1) / 2 = blocks / 2 + 1 := by omega
    have hlen1 : r1.data.length = m * (blocks - 1) := by
      rw [hd1', ← blockwise_take, e1]
      rw [blockwise_length (R := p.RecordSize) (mergePair p m) (2 * m) h2m
        (fun b hb => mergePair_length p m b hm hb) (blocks / 2) _
        (take_dvd _ _ (Dvd.dvd.mul_left h2m _) hf)
        (by rw [List.length_take]; omega)]
      rw [List.length_take]; omega
    have htail : blockAt (2 * m) (blocks / 2) infile.data =
        infile.data.drop (m * (blocks - 1)) := by
      unfold blockAt
      rw [← e1, List.take_of_length_le (by rw [List.length_drop]; omega)]
    have hmp : mergePair p m (infile.data.drop (m * (blocks - 1))) =
        infile.data.drop (m * (blocks - 1)) := by
      have hl : (infile.data.drop (m * (blocks - 1))).length ≤ m := by
        rw [List.length_drop]; omega
      unfold mergePair
      rw [List.take_of_length_le hl, List.drop_eq_nil_of_le hl]
      exact mergeSpec_nil_right p hR _ (drop_dvd _ _ (Dvd.dvd.mul_right hm _) hf)
    have hw := File.Write_append (r1.Seek (m * (blocks - 1)))
      (infile.data.drop (m * (blocks - 1))) (by simp [File.Seek, hlen1])
    refine ⟨_, rfl, ?_, ?_, ?_⟩
    · exact hw.2
    · show (File.Write (r1.Seek (m * (blocks - 1))) _).data = _
      simp only [File.Seek] at hw ⊢
      rw [hw.1, hK, blockwise_snoc, htail, hmp, hd1']
    · rw [hK, Nat.succ_mul]; omega
  · rw [if_neg hodd]
    have hK : (blocks + 1) / 2 = blocks / 2 := by omega
    rw [hK]
    exact ⟨r1, rfl, hoff1, hd1', even_blocks_bounds _ m blocks hm0 hblocks hodd⟩

/-! ## `Less`, and what `sort.Sort` promises -/

theorem toRecordsAux_getElem? (R : Nat) : ∀ (n : Nat) (l : List Byte) (i : Nat), i < n →
    (toRecordsAux R n l)[i]? = some ((l.drop (i * R)).take R) := by
  intro n
  induction n with
  | zero => intro l i h; omega
  | succ n ih =>
    intro l i h
    cases i with
    | zero => simp [toRecordsAux]
    | succ i =>
      simp only [toRecordsAux, List.getElem?_cons_succ]
      rw [ih (l.drop R) i (by omega), List.drop_drop, Nat.succ_mul]
      congr 3
      omega

theorem toRecords_getElem? (R : Nat) (l : List Byte) (i : Nat) (h : i < l.length / R) :
    (toRecords R l)[i]? = some ((l.drop (i * R)).take R) :=
  toRecordsAux_getElem? R _ l i h

/-- Method `Less` compares the keys of the records `i` and `j` of the buffer. -/
theorem Less_eq (p : SortProcess) (buf : List Byte) (i j : Nat)
    (hk1 : p.KeyStart ≤ p.KeyEnd) (hk2 : p.KeyEnd ≤ p.RecordSize) :
    sortableRecords.Less p buf i j =
      decide (bytesCompare (recordKey p ((buf.drop (i * p.RecordSize)).take p.RecordSize))
        (recordKey p ((buf.drop (j * p.RecordSize)).take p.RecordSize)) < 0) := by
  have hi := key_eq p ⟨buf, i * p.RecordSize, 0, 0, 0⟩ hk1 hk2
  have hj := key_eq p ⟨buf, j * p.RecordSize, 0, 0, 0⟩ hk1 hk2
  simp only [mergeableBlock.key, mergeableBlock.record, slice, Nat.add_sub_cancel_left] at hi hj
  simp only [sortableRecords.Less, slice, hi, hj]

/-- A buffer is ordered by `Less` exactly when its records are in
non-decreasing key order. -/
theorem sorted_iff_less (p : SortProcess) (buf : List Byte)
    (hk1 : p.KeyStart ≤ p.KeyEnd) (hk2 : p.KeyEnd ≤ p.RecordSize) :
    SortedRecords p buf ↔
      ∀ i j, i < j → j < sortableRecords.Len p buf → sortableRecords.Less p buf j i = false := by
  unfold SortedRecords List.Sorted sortableRecords.Len
  rw [List.pairwise_iff_getElem]
  have hlen := toRecords_length p.RecordSize buf
  have hget : ∀ i (h : i < (toRecords p.RecordSize buf).length),
      (toRecords p.RecordSize buf)[i] = (buf.drop (i * p.RecordSize)).take p.RecordSize := by
    intro i h
    have h1 := toRecords_getElem? p.RecordSize buf i (by omega)
    rw [List.getElem?_eq_getElem h] at h1
    exact Option.some.inj h1
  constructor
  · intro h i j hij hj
    have := h i j (by omega) (by omega) hij
    rw [hget, hget] at this
    rw [Less_eq p buf j i hk1 hk2, decide_eq_false_iff_not,
      compare_lt_iff_not_keyLE, not_not]
    exact this
  · intro h i j hi hj hij
    have := h i j hij (by omega)
    rw [Less_eq p buf j i hk1 hk2, decide_eq_false_iff_not,
      compare_lt_iff_not_keyLE, not_not] at this
    rw [hget, hget]
    exact this

theorem SortContract.length {srt : SortProcess → List Byte → List Byte}
    (hs : SortContract srt) (p : SortProcess) (hR : 0 < p.RecordSize)
    (hk1 : p.KeyStart ≤ p.KeyEnd) (hk2 : p.KeyEnd ≤ p.RecordSize) (buf : List Byte)
    (hb : p.RecordSize ∣ buf.length) : (srt p buf).length = buf.length :=
  (hs p buf hR hk1 hk2 hb).1

theorem SortContract.perm {srt : SortProcess → List Byte → List Byte}
    (hs : SortContract srt) (p : SortProcess) (hR : 0 < p.RecordSize)
    (hk1 : p.KeyStart ≤ p.KeyEnd) (hk2 : p.KeyEnd ≤ p.RecordSize) (buf : List Byte)
    (hb : p.RecordSize ∣ buf.length) :
    (toRecords p.RecordSize (srt p buf)).Perm (toRecords p.RecordSize buf) :=
  (hs p buf hR hk1 hk2 hb).2.1

theorem SortContract.sorted {srt : SortProcess → List Byte → List Byte}
    (hs : SortContract srt) (p : SortProcess) (hR : 0 < p.RecordSize)
    (hk1 : p.KeyStart ≤ p.KeyEnd) (hk2 : p.KeyEnd ≤ p.RecordSize) (buf : List Byte)
    (hb : p.RecordSize ∣ buf.length) : SortedRecords p (srt p buf) :=
  (sorted_iff_less p _ hk1 hk2).mpr (hs p buf hR hk1 hk2 hb).2.2

/-- Any rearrangement of the records of a buffer into key order, written back
as bytes, does what `sort.Sort` promises. -/
theorem sortContract_of_records (f : SortProcess → List (List Byte) → List (List Byte))
    (hperm : ∀ p L, (f p L).Perm L) (hsorted : ∀ p L, (f p L).Sorted (keyLE p)) :
    SortContract (fun p buf => (f p (toRecords p.RecordSize buf)).flatten) := by
  intro p buf hR hk1 hk2 hb
  have hmem : ∀ r ∈ f p (toRecords p.RecordSize buf), r.length = p.RecordSize :=
    fun r hr => length_of_mem_toRecords buf r ((hperm p _).mem_iff.mp hr)
  have hrec : toRecords p.RecordSize (f p (toRecords p.RecordSize buf)).flatten =
      f p (toRecords p.RecordSize buf) := toRecords_flatten hR _ hmem
  refine ⟨?_, ?_, ?_⟩
  · show (f p (toRecords p.RecordSize buf)).flatten.length = buf.length
    rw [length_flatten_of_records _ hmem, (hperm p _).length_eq, length_eq_of_aligned buf hb]
  · show (toRecords p.RecordSize (f p (toRecords p.RecordSize buf)).flatten).Perm _
    rw [hrec]; exact hperm p _
  · apply (sorted_iff_less p _ hk1 hk2).mp
    show (toRecords p.RecordSize (f p (toRecords p.RecordSize buf)).flatten).Sorted (keyLE p)
    rw [hrec]; exact hsorted p _

theorem insertionSortRecords_contract : SortContract insertionSortRecords := by
  haveI : ∀ p, IsTrans (List Byte) (keyLE p) := fun p => ⟨fun _ _ _ h1 h2 => keyLE_trans p h1 h2⟩
  haveI : ∀ p, IsTotal (List Byte) (keyLE p) := fun p => ⟨keyLE_total p⟩
  exact sortContract_of_records (fun p L => L.insertionSort (keyLE p))
    (fun p L => List.perm_insertionSort (keyLE p) L)
    (fun p L => List.sorted_insertionSort (keyLE p) L)

/-! ## Sorting the blocks -/

theorem sortBlocks_step_len (R B x : Nat) (hB : R ∣ B) :
    (x + B) - (x + B) % R = (x - x % R) + B := by
  obtain ⟨k, rfl⟩ := hB
  rw [Nat.add_mul_mod_self_left]
  have := Nat.mod_le x R
  omega

/-- The loop of `sortBlocks` writes the blocks of the whole records left to
read, each sorted, and counts their bytes. -/
theorem sortBlocks_loop_spec (srt : SortProcess → List Byte → List Byte) (p : SortProcess)
    (hB0 : 0 < p.BlockSize) (hB : p.RecordSize ∣ p.BlockSize) :
    ∀ (fuel : Nat) (infile outfile : File) (n : Nat),
      (infile.data.drop infile.off).length + 1 ≤ fuel →
      outfile.off = outfile.data.length →
      ∃ result : File,
        sortBlocks.loop srt p fuel infile outfile n =
          some (result, n + ((infile.data.drop infile.off).length -
            (infile.data.drop infile.off).length % p.RecordSize)) ∧
        result.off = result.data.length ∧
        result.data = outfile.data ++
          blockwise (srt p) p.BlockSize
            ((infile.data.drop infile.off).length / p.BlockSize + 1)
            ((infile.data.drop infile.off).take ((infile.data.drop infile.off).length -
              (infile.data.drop infile.off).length % p.RecordSize)) := by
  intro fuel
  induction fuel with
  | zero => intro infile outfile n h; omega
  | succ fuel ih =>
    intro infile outfile n hfuel hoff
    set l := infile.data.drop infile.off with hl
    by_cases hlt : l.length < p.BlockSize
    · -- last turn: fewer than `BlockSize` bytes are left
      have hd : l.take p.BlockSize = l := List.take_of_length_le (by omega)
      have hnn : (if l.length % p.RecordSize ≠ 0 then l.length - l.length % p.RecordSize
          else l.length) = l.length - l.length % p.RecordSize := by
        split_ifs <;> omega
      have hw := File.Write_append outfile
        (srt p (l.take (l.length - l.length % p.RecordSize))) hoff
      refine ⟨_, ?_, hw.2, ?_⟩
      · simp only [sortBlocks.loop, ioReadFull, ← hl, hd, hnn, hlt, decide_True, if_true]
      · rw [hw.1, Nat.div_eq_of_lt hlt]
        have hT : (l.take (l.length - l.length % p.RecordSize)).take p.BlockSize =
            l.take (l.length - l.length % p.RecordSize) :=
          List.take_of_length_le (by rw [List.length_take]; omega)
        simp only [Nat.zero_add, blockwise, List.append_nil, hT]
    · -- a full block is read
      have hge : p.BlockSize ≤ l.length := by omega
      have hdl : (l.take p.BlockSize).length = p.BlockSize := by
        rw [List.length_take]; omega
      have hmod : p.BlockSize % p.RecordSize = 0 := Nat.mod_eq_zero_of_dvd hB
      have hnn : (if p.BlockSize % p.RecordSize ≠ 0 then p.BlockSize - p.BlockSize % p.RecordSize
          else p.BlockSize) = p.BlockSize := by
        rw [hmod]; simp
      have hw := File.Write_append outfile (srt p (l.take p.BlockSize)) hoff
      set infile1 : File := { infile with off := infile.off + p.BlockSize } with hi1
      have hl1 : infile1.data.drop infile1.off = l.drop p.BlockSize := by
        rw [hi1, hl, List.drop_drop]
      have hlen1 : (l.drop p.BlockSize).length + p.BlockSize = l.length := by
        rw [List.length_drop]; omega
      obtain ⟨r, hr, hroff, hrd⟩ := ih infile1 (outfile.Write (srt p (l.take p.BlockSize)))
        (n + p.BlockSize) (by rw [hl1]; omega) hw.2
      rw [hl1] at hr hrd
      have hN : l.length - l.length % p.RecordSize =
          ((l.drop p.BlockSize).length - (l.drop p.BlockSize).length % p.RecordSize) +
            p.BlockSize := by
        rw [← hlen1]; exact sortBlocks_step_len _ _ _ hB
      have hq : l.length / p.BlockSize = (l.drop p.BlockSize).length / p.BlockSize + 1 := by
        rw [← hlen1, Nat.add_div_right _ hB0]
      refine ⟨r, ?_, hroff, ?_⟩
      · have hstep : sortBlocks.loop srt p (fuel + 1) infile outfile n =
            sortBlocks.loop srt p fuel infile1 (outfile.Write (srt p (l.take p.BlockSize)))
              (n + p.BlockSize) := by
          simp only [sortBlocks.loop, ioReadFull, ← hl, hdl, hnn, lt_irrefl, decide_False,
            List.take_take, min_self]
          rfl
        rw [hstep, hr, hN]
        congr 2
        omega
      · rw [hrd, hw.1, hq, List.append_assoc, hN]
        conv_rhs => rw [blockwise]
        have h1 : (l.take ((l.drop p.BlockSize).length -
            (l.drop p.BlockSize).length % p.RecordSize + p.BlockSize)).take p.BlockSize =
            l.take p.BlockSize := by
          rw [List.take_take]; congr 1; omega
        have h2 : (l.take ((l.drop p.BlockSize).length -
            (l.drop p.BlockSize).length % p.RecordSize + p.BlockSize)).drop p.BlockSize =
            (l.drop p.BlockSize).take ((l.drop p.BlockSize).length -
              (l.drop p.BlockSize).length % p.RecordSize) := by
          rw [List.drop_take]; congr 1; omega
        rw [h1, h2]

/-- Function `sortBlocks` on a freshly opened input and a fresh output. -/
theorem sortBlocks_spec (srt : SortProcess → List Byte → List Byte) (p : SortProcess)
    (hB0 : 0 < p.BlockSize) (hB : p.RecordSize ∣ p.BlockSize) (input : List Byte) :
    ∃ result : File,
      sortBlocks srt p (File.openFile input) File.create =
        some (result, input.length - input.length % p.RecordSize) ∧
      result.off = result.data.length ∧
      result.data = blockwise (srt p) p.BlockSize (input.length / p.BlockSize + 1)
        (input.take (input.length - input.length % p.RecordSize)) := by
  obtain ⟨r, hr, hoff, hd⟩ := sortBlocks_loop_spec srt p hB0 hB (input.length + 1)
    (File.openFile input) File.create 0 (by simp [File.openFile]) rfl
  simp only [File.openFile, List.drop_zero, Nat.zero_add, File.create, List.nil_append] at hr hd
  exact ⟨r, by simpa [sortBlocks, File.openFile, File.create] using hr, hoff, hd⟩

/-! ## Generations of sorted blocks -/

theorem SortedRecords.take_drop (p : SortProcess) (hR : 0 < p.RecordSize) (c : Nat)
    (l : List Byte) (hc : p.RecordSize ∣ c) (hl : p.RecordSize ∣ l.length)
    (h : SortedRecords p l) : SortedRecords p (l.take c) ∧ SortedRecords p (l.drop c) := by
  unfold SortedRecords at *
  rw [toRecords_take_drop hR c l hc hl] at h
  exact ⟨(List.pairwise_append.mp h).1, (List.pairwise_append.mp h).2.1⟩

theorem SortedRecords.blockAt (p : SortProcess) (hR : 0 < p.RecordSize) (c k : Nat)
    (l : List Byte) (hc : p.RecordSize ∣ c) (hl : p.RecordSize ∣ l.length)
    (h : SortedRecords p l) : SortedRecords p (blockAt c k l) := by
  unfold Binsort.blockAt
  have h1 := (SortedRecords.take_drop p hR (k * c) l (Dvd.dvd.mul_left hc k) hl h).2
  exact (SortedRecords.take_drop p hR c _ hc (drop_dvd _ l (Dvd.dvd.mul_left hc k) hl) h1).1

/-- A generation that fits in one block is in key order. -/
theorem Generation.sorted_of_le (p : SortProcess) (m : Nat) (f : List Byte)
    (h : Generation p m f) (hle : f.length ≤ m) : SortedRecords p f := by
  have := h.2 0
  rwa [blockAt_zero, List.take_of_length_le hle] at this

/-- What a pass makes of a generation: the next generation, with the same
records; a file already in key order is left as it is. -/
theorem Generation.pass (p : SortProcess) (hR : 0 < p.RecordSize) (m K : Nat) (f : List Byte)
    (hm : p.RecordSize ∣ m) (h : Generation p m f) (hK : f.length ≤ K * (2 * m)) :
    Generation p (2 * m) (blockwise (mergePair p m) (2 * m) K f) ∧
    (blockwise (mergePair p m) (2 * m) K f).length = f.length ∧
    (toRecords p.RecordSize (blockwise (mergePair p m) (2 * m) K f)).Perm
      (toRecords p.RecordSize f) ∧
    (SortedRecords p f → blockwise (mergePair p m) (2 * m) K f = f) := by
  have h2m : p.RecordSize ∣ 2 * m := Dvd.dvd.mul_left hm 2
  have hlen := blockwise_length (R := p.RecordSize) (mergePair p m) (2 * m) h2m
    (fun b hb => mergePair_length p m b hm hb) K f h.1 hK
  refine ⟨⟨by rw [hlen]; exact h.1, ?_⟩, hlen, ?_, ?_⟩
  · intro k
    rw [blockAt_blockwise (R := p.RecordSize) (mergePair p m) (2 * m) h2m
      (fun b hb => mergePair_length p m b hm hb) K f h.1 hK k]
    obtain ⟨e1, e2⟩ := blockAt_halves m k f
    exact mergePair_sorted p hR m _ (by rw [e1]; exact h.2 _) (by rw [e2]; exact h.2 _)
  · exact toRecords_blockwise_perm hR (mergePair p m) (2 * m) h2m
      (fun b hb => mergePair_length p m b hm hb)
      (fun b hb => mergePair_perm p hR m b hm hb) K f h.1 hK
  · intro hs
    exact blockwise_id (mergePair p m) (2 * m) K f hK (fun k =>
      mergePair_of_sorted p hR m _ hm (blockAt_dvd _ k f h2m h.1)
        (SortedRecords.blockAt p hR _ k f h2m h.1 hs))

/-- The whole records of a file are those of its longest prefix of whole
records. -/
theorem toRecords_take_floor (R : Nat) (l : List Byte) :
    toRecords R (l.take (l.length - l.length % R)) = toRecords R l := by
  rcases Nat.eq_zero_or_pos R with h0 | hR
  · subst h0; simp [toRecords, toRecordsAux]
  · have hd : R ∣ (l.take (l.length - l.length % R)).length := by
      rw [List.length_take, min_eq_left (Nat.sub_le _ _)]; exact Nat.dvd_sub_mod _
    have hlt : (l.drop (l.length - l.length % R)).length < R := by
      rw [List.length_drop]
      have := Nat.mod_lt l.length hR
      have := Nat.mod_le l.length R
      omega
    conv_rhs => rw [← List.take_append_drop (l.length - l.length % R) l]
    rw [toRecords_append hR _ _ hd, toRecords_of_lt _ hlt, List.append_nil]

/-- What `sortBlocks` writes is a generation of blocks of `BlockSize` bytes with
the whole records of the input. -/
theorem sortBlocks_generation (srt : SortProcess → List Byte → List Byte)
    (hs : SortContract srt) (p : SortProcess) (hR : 0 < p.RecordSize)
    (hk1 : p.KeyStart ≤ p.KeyEnd) (hk2 : p.KeyEnd ≤ p.RecordSize)
    (hB0 : 0 < p.BlockSize) (hB : p.RecordSize ∣ p.BlockSize) (input : List Byte) :
    ∃ sorted : File,
      sortBlocks srt p (File.openFile input) File.create =
        some (sorted, input.length - input.length % p.RecordSize) ∧
      sorted.off = sorted.data.length ∧
      sorted.data.length = input.length - input.length % p.RecordSize ∧
      Generation p p.BlockSize sorted.data ∧
      (toRecords p.RecordSize sorted.data).Perm (toRecords p.RecordSize input) ∧
      (∀ k : Nat, blockAt p.BlockSize k sorted.data =
        srt p (blockAt p.BlockSize k
          (input.take (input.length - input.length % p.RecordSize)))) ∧
      ((∀ k : Nat, srt p (blockAt p.BlockSize k
          (input.take (input.length - input.length % p.RecordSize))) =
        blockAt p.BlockSize k (input.take (input.length - input.length % p.RecordSize))) →
        sorted.data = input.take (input.length - input.length % p.RecordSize)) := by
  obtain ⟨r, hr, hoff, hd⟩ := sortBlocks_spec srt p hB0 hB input
  set N := input.length - input.length % p.RecordSize with hN
  have hlN : (input.take N).length = N := by
    rw [List.length_take]; omega
  have hdN : p.RecordSize ∣ (input.take N).length := by
    rw [hlN]; exact Nat.dvd_sub_mod _
  have hcount : (input.take N).length ≤ (input.length / p.BlockSize + 1) * p.BlockSize := by
    have h1 := Nat.div_add_mod input.length p.BlockSize
    have h2 := Nat.mod_lt input.length hB0
    have h3 : N ≤ input.length := Nat.sub_le _ _
    rw [hlN, Nat.succ_mul, Nat.mul_comm]
    generalize p.BlockSize * (input.length / p.BlockSize) = X at h1 ⊢
    generalize input.length % p.BlockSize = r at h1 h2
    omega
  have hg : ∀ b : List Byte, p.RecordSize ∣ b.length → (srt p b).length = b.length :=
    fun b hb => hs.length p hR hk1 hk2 b hb
  have hlen := blockwise_length (R := p.RecordSize) (srt p) p.BlockSize hB hg _ _ hdN hcount
  have hblk := blockAt_blockwise (R := p.RecordSize) (srt p) p.BlockSize hB hg _ _ hdN hcount
  refine ⟨r, hr, hoff, by rw [hd, hlen, hlN], ⟨by rw [hd, hlen]; exact hdN, ?_⟩, ?_, ?_, ?_⟩
  · intro k
    rw [hd, hblk k]
    exact hs.sorted p hR hk1 hk2 _ (blockAt_dvd _ k _ hB hdN)
  · rw [hd, ← toRecords_take_floor p.RecordSize input]
    exact toRecords_blockwise_perm hR (srt p) p.BlockSize hB hg
      (fun b hb => hs.perm p hR hk1 hk2 b hb) _ _ hdN hcount
  · intro k; rw [hd, hblk k]
  · intro hfix
    rw [hd]
    exact blockwise_id (srt p) p.BlockSize _ _ hcount hfix

/-! ## The merge engine and the whole run -/

/-- The loop of `merge` started on a generation ends with the file in key
order, the records kept; a file already in key order is reproduced. -/
theorem merge_loop_spec (p : SortProcess) (size : Nat)
    (hR : 0 < p.RecordSize) (hk1 : p.KeyStart ≤ p.KeyEnd) (hk2 : p.KeyEnd ≤ p.RecordSize)
    (hB4 : 4 * p.RecordSize ≤ p.BlockSize) :
    ∀ (fuel : Nat) (infile : File) (m : Nat) (log : List PassLog),
      Generation p m infile.data → p.RecordSize ∣ m → 0 < m →
      infile.data.length = size → m < size → size - m < fuel →
      ∃ (result : File) (log1 : List PassLog),
        merge.loop p size fuel infile File.create m log = some (result, log1) ∧
        SortedRecords p result.data ∧ result.data.length = size ∧
        (toRecords p.RecordSize result.data).Perm (toRecords p.RecordSize infile.data) ∧
        (SortedRecords p infile.data → result.data = infile.data) := by
  intro fuel
  induction fuel with
  | zero => intro infile m log _ _ _ _ _ h; omega
  | succ fuel ih =>
    intro infile m log hgen hm hm0 hlen hlt hfuel
    set blocks := size / m + (if size % m > 0 then 1 else 0) with hblocks
    obtain ⟨tmp, htmp, hoff, hdata, hK⟩ := mergePass_spec p infile m blocks hR hk1 hk2 hB4 hm hm0
      hgen.1 (by rw [hlen])
    obtain ⟨hgen2, hlen2, hperm2, hid2⟩ :=
      Generation.pass p hR m ((blocks + 1) / 2) infile.data hm hgen hK
    rw [← hdata] at hgen2 hlen2 hperm2 hid2
    by_cases hlast : m * 2 ≥ size
    · -- the last pass writes the output file
      have hstep : merge.loop p size (fuel + 1) infile File.create m log =
          merge.loop p size fuel tmp tmp (m * 2)
            (log ++ [⟨blocks, m, true⟩]) := by
        simp only [merge.loop, hlt, if_true, hlast, decide_True, htmp, ← hblocks]
      obtain ⟨k, rfl⟩ : ∃ k, fuel = k + 1 := ⟨fuel - 1, by omega⟩
      have hexit : merge.loop p size (k + 1) tmp tmp (m * 2) (log ++ [⟨blocks, m, true⟩]) =
          some (tmp, log ++ [⟨blocks, m, true⟩]) := by
        have : ¬ m * 2 < size := by omega
        simp only [merge.loop, this, if_false]
      refine ⟨tmp, _, by rw [hstep, hexit], ?_, by rw [hlen2, hlen], hperm2, hid2⟩
      exact Generation.sorted_of_le p (2 * m) tmp.data hgen2 (by rw [hlen2, hlen]; omega)
    · -- a pass into a temporary file, then the next pass
      have hstep : merge.loop p size (fuel + 1) infile File.create m log =
          merge.loop p size fuel tmp File.create (m * 2)
            (log ++ [⟨blocks, m, false⟩]) := by
        simp only [merge.loop, hlt, if_true, hlast, decide_False, Bool.false_eq_true,
          if_false, htmp, ← hblocks]
      have hgen3 : Generation p (m * 2) tmp.data := by rw [Nat.mul_comm]; exact hgen2
      obtain ⟨result, log1, hres, hsorted, hrlen, hrperm, hrid⟩ :=
        ih tmp (m * 2) (log ++ [⟨blocks, m, false⟩]) hgen3 (Dvd.dvd.mul_right hm 2)
          (by omega) (by rw [hlen2, hlen]) (by omega) (by omega)
      refine ⟨result, log1, by rw [hstep, hres], hsorted, hrlen, hrperm.trans hperm2, ?_⟩
      intro hs
      have e := hid2 hs
      rw [e] at hrid
      exact hrid hs

/-- Function `merge` on what `sortBlocks` wrote. -/
theorem merge_spec (p : SortProcess) (sorted : File) (size : Nat)
    (hR : 0 < p.RecordSize) (hk1 : p.KeyStart ≤ p.KeyEnd) (hk2 : p.KeyEnd ≤ p.RecordSize)
    (hB0 : 0 < p.BlockSize) (hB : p.RecordSize ∣ p.BlockSize)
    (h4 : 4 * p.RecordSize ≤ p.BlockSize ∨ size ≤ p.BlockSize)
    (hgen : Generation p p.BlockSize sorted.data) (hlen : sorted.data.length = size) :
    ∃ (result : File) (log : List PassLog),
      merge p sorted File.create size = some (result, log) ∧
      SortedRecords p result.data ∧ result.data.length = size ∧
      (toRecords p.RecordSize result.data).Perm (toRecords p.RecordSize sorted.data) ∧
      (SortedRecords p sorted.data → result.data = sorted.data) := by
  by_cases hle : p.BlockSize ≥ size
  · refine ⟨renameOrCopy sorted, [], by simp only [merge, hle, if_true], ?_, hlen,
      List.Perm.refl _, fun _ => rfl⟩
    exact Generation.sorted_of_le p p.BlockSize sorted.data hgen (by rw [hlen]; exact hle)
  · have hB4 : 4 * p.RecordSize ≤ p.BlockSize := by
      rcases h4 with h | h
      · exact h
      · omega
    obtain ⟨result, log1, hres, h1, h2, h3, h5⟩ :=
      merge_loop_spec p size hR hk1 hk2 hB4 (size + 1) sorted p.BlockSize [] hgen hB hB0 hlen
        (by omega) (by omega)
    exact ⟨result, log1, by simp only [merge, hle, if_false, hres], h1, h2, h3, h5⟩

/-- Method `Run`: it returns, and its output is in key order, is as long as the
whole records of the input, and holds exactly these records.  Where the
sorted blocks already are in key order as a whole, they are the output. -/
theorem Run_spec (srt : SortProcess → List Byte → List Byte) (hs : SortContract srt)
    (p : SortProcess) (hR : 0 < p.RecordSize)
    (hk1 : p.KeyStart ≤ p.KeyEnd) (hk2 : p.KeyEnd ≤ p.RecordSize)
    (hB0 : 0 < p.BlockSize) (hB : p.RecordSize ∣ p.BlockSize) (input : List Byte)
    (h4 : 4 * p.RecordSize ≤ p.BlockSize ∨
      input.length - input.length % p.RecordSize ≤ p.BlockSize) :
    ∃ (sorted : File) (out : List Byte),
      sortBlocks srt p (File.openFile input) File.create =
        some (sorted, input.length - input.length % p.RecordSize) ∧
      (∀ k : Nat, blockAt p.BlockSize k sorted.data =
        srt p (blockAt p.BlockSize k
          (input.take (input.length - input.length % p.RecordSize)))) ∧
      sorted.data.length = input.length - input.length % p.RecordSize ∧
      Run srt p input = some out ∧ SortedRecords p out ∧
      out.length = input.length - input.length % p.RecordSize ∧
      (toRecords p.RecordSize out).Perm (toRecords p.RecordSize input) ∧
      (SortedRecords p sorted.data → out = sorted.data) ∧
      ((∀ k : Nat, srt p (blockAt p.BlockSize k
          (input.take (input.length - input.length % p.RecordSize))) =
        blockAt p.BlockSize k (input.take (input.length - input.length % p.RecordSize))) →
        sorted.data = input.take (input.length - input.length % p.RecordSize)) := by
  obtain ⟨sorted, hsb, _, hslen, hgen, hsperm, hblk, hfix⟩ :=
    sortBlocks_generation srt hs p hR hk1 hk2 hB0 hB input
  obtain ⟨result, log, hm, h1, h2, h3, h5⟩ :=
    merge_spec p sorted _ hR hk1 hk2 hB0 hB h4 hgen hslen
  refine ⟨sorted, result.data, hsb, hblk, hslen, ?_, h1, h2, h3.trans hsperm, h5, hfix⟩
  simp only [Run, hsb, hm]

/-! ## A cursor delivers its block -/

theorem toRecords_of_ge {R : Nat} (hR : 0 < R) (l : List Byte) (h : R ≤ l.length) :
    toRecords R l = l.take R :: toRecords R (l.drop R) := by
  have h1 : (l.take R).length = R := by rw [List.length_take]; omega
  conv_lhs => rw [← List.take_append_drop R l]
  exact toRecords_cons hR _ _ h1

theorem toRecords_eq_nil_iff {R : Nat} (hR : 0 < R) (l : List Byte) :
    toRecords R l = [] ↔ l.length < R := by
  rw [← List.length_eq_zero, toRecords_length, Nat.div_eq_zero_iff hR]

theorem fill_records (p : SortProcess) (file : File) (cap : Nat) (b : mergeableBlock)
    (hR : 0 < p.RecordSize) (hcap : 0 < cap) (hcapd : p.RecordSize ∣ cap)
    (h : CursorState p file.data cap b) :
    CursorState p file.data cap (b.fill p file).1 ∧
    toRecords p.RecordSize ((b.fill p file).1.remaining file.data) =
      toRecords p.RecordSize (b.remaining file.data) ∧
    ((b.fill p file).2 = true ↔ toRecords p.RecordSize (b.remaining file.data) = []) ∧
    ((b.fill p file).2 = false →
      (b.fill p file).1.bufOffset + p.RecordSize ≤ (b.fill p file).1.buf.length) := by
  by_cases hlt : b.bufOffset < b.buf.length
  · rw [fill_of_lt p file b hlt]
    have hle := add_le_of_dvd_of_lt h.off_dvd h.buf_dvd hlt
    refine ⟨h, rfl, ?_, fun _ => hle⟩
    rw [toRecords_eq_nil_iff hR]
    constructor
    · intro hc; cases hc
    · intro hc
      simp only [mergeableBlock.remaining, List.length_append, List.length_drop] at hc
      omega
  · have hge : b.buf.length ≤ b.bufOffset := by omega
    obtain ⟨d, hd, hfill⟩ := fill_of_ge p file b hge
    rw [hfill]
    have hrem : b.remaining file.data = b.filePart file.data := by
      unfold mergeableBlock.remaining
      rw [List.drop_eq_nil_of_le hge, List.nil_append]
    rw [hrem]
    set F := file.data.drop (b.pos + b.posOffset) with hF
    set s := b.size - b.posOffset with hs
    have hfp : b.filePart file.data = F.take s := rfl
    have hlen : d.length = min (min b.buf.length s) F.length := by
      rw [hd, List.length_take]
    have hds : d.length ≤ s := by rw [hlen]; omega
    have hdF : d = F.take d.length := by
      rw [hd]; exact take_eq_take_length F _
    have e1 : file.data.drop (b.pos + (b.posOffset + d.length)) = F.drop d.length := by
      rw [hF, List.drop_drop]; congr 1; omega
    have e2 : b.size - (b.posOffset + d.length) = s - d.length := by omega
    have hpl := h.pos_le
    have hdvd : p.RecordSize ∣ d.length - d.length % p.RecordSize := Nat.dvd_sub_mod _
    have hl2 : (d.take (d.length - d.length % p.RecordSize)).length =
        d.length - d.length % p.RecordSize := by
      rw [List.length_take]; omega
    -- the new state, field by field
    have hrem1 : mergeableBlock.remaining file.data
        { b with buf := d.take (d.length - d.length % p.RecordSize), bufOffset := 0,
                 posOffset := b.posOffset + d.length } =
        d.take (d.length - d.length % p.RecordSize) ++ (F.drop d.length).take (s - d.length) := by
      simp only [mergeableBlock.remaining, mergeableBlock.filePart, List.drop_zero, e1, e2]
    have hfp1 : mergeableBlock.filePart file.data
        { b with buf := d.take (d.length - d.length % p.RecordSize), bufOffset := 0,
                 posOffset := b.posOffset + d.length } =
        (F.drop d.length).take (s - d.length) := by
      simp only [mergeableBlock.filePart, e1, e2]
    have hsplit : d ++ (F.drop d.length).take (s - d.length) = F.take s := by
      conv_lhs => rw [hdF]
      rw [List.length_take, min_eq_left (by rw [hlen]; omega),
        take_append_take_drop F d.length s hds]
    have hbase : p.RecordSize ∣ (d.take (d.length - d.length % p.RecordSize)).length ∧
        p.RecordSize ∣ 0 ∧ 0 ≤ (d.take (d.length - d.length % p.RecordSize)).length ∧
        b.posOffset + d.length ≤ b.size :=
      ⟨by rw [hl2]; exact hdvd, dvd_zero _, Nat.zero_le _, by omega⟩
    have heofiff : (decide ((d.take (d.length - d.length % p.RecordSize)).length = 0) = true ↔
        d.length < p.RecordSize) := by
      rw [decide_eq_true_iff, hl2]
      constructor
      · intro h0
        by_contra hc
        have := Nat.mod_lt d.length hR
        omega
      · intro h0
        rw [Nat.mod_eq_of_lt h0]; omega
    have hready : decide ((d.take (d.length - d.length % p.RecordSize)).length = 0) = false →
        0 + p.RecordSize ≤ (d.take (d.length - d.length % p.RecordSize)).length := by
      intro hne
      have h0 : (d.take (d.length - d.length % p.RecordSize)).length ≠ 0 := by simpa using hne
      rw [Nat.zero_add]
      exact Nat.le_of_dvd (Nat.pos_of_ne_zero h0) hbase.1
    rcases h.full with hnil | ⟨hsd, hfull⟩
    · -- the block has been read to its end before
      have hd0 : d = [] := by
        rw [hfp] at hnil
        have : (F.take s).length = 0 := by rw [hnil]; rfl
        rw [List.length_take] at this
        apply List.length_eq_zero.mp
        rw [hlen]; omega
      have htail : (F.drop d.length).take (s - d.length) = [] := by
        have h1 := hsplit
        rw [← hfp, hnil] at h1
        exact (List.append_eq_nil.mp h1).2
      refine ⟨⟨hbase.1, hbase.2.1, hbase.2.2.1, hbase.2.2.2, Or.inl ?_⟩, ?_, ?_, hready⟩
      · rw [hfp1, htail]
      · rw [hrem1, htail, hnil, hd0]
        simp [toRecords_nil]
      · rw [heofiff, hnil, hd0]
        simp [toRecords_nil, hR]
    · by_cases hshort : F.length < min b.buf.length s
      · -- the file ends inside the block
        have hdl : d.length = F.length := by rw [hlen]; omega
        have hdeq : d = F := by
          rw [hdF, hdl, List.take_length]
        have hFs : F.take s = F := List.take_of_length_le (by omega)
        have hnil1 : (F.drop d.length).take (s - d.length) = [] := by
          rw [hdl, List.drop_length, List.take_nil]
        refine ⟨⟨hbase.1, hbase.2.1, hbase.2.2.1, hbase.2.2.2, Or.inl ?_⟩, ?_, ?_, hready⟩
        · rw [hfp1, hnil1]
        · rw [hrem1, hnil1, List.append_nil, hfp, hFs, hdeq]
          exact toRecords_take_floor p.RecordSize F
        · rw [heofiff, hfp, hFs, hdeq, toRecords_eq_nil_iff hR]
      · -- a full read
        have hdl : d.length = min b.buf.length s := by rw [hlen]; omega
        have hdd : p.RecordSize ∣ d.length := by
          rw [hdl]
          rcases le_total b.buf.length s with h2 | h2
          · rw [min_eq_left h2]; exact h.buf_dvd
          · rw [min_eq_right h2]; exact hsd
        have hmod : d.length % p.RecordSize = 0 := Nat.mod_eq_zero_of_dvd hdd
        have htake : d.take (d.length - d.length % p.RecordSize) = d := by
          rw [hmod, Nat.sub_zero, List.take_length]
        refine ⟨⟨hbase.1, hbase.2.1, hbase.2.2.1, hbase.2.2.2, ?_⟩, ?_, ?_, hready⟩
        · rw [hfp1]
          by_cases hc : d.length = cap
          · right
            refine ⟨?_, by rw [htake]; exact hc⟩
            show p.RecordSize ∣ b.size - (b.posOffset + d.length)
            rw [e2]; exact Nat.dvd_sub' hsd hdd
          · left
            have : d.length = s := by rw [hdl] at hc ⊢; omega
            rw [this, Nat.sub_self, List.take_zero]
        · rw [hrem1, htake, hsplit, hfp]
        · rw [heofiff, hfp, toRecords_eq_nil_iff hR, List.length_take, hdl]
          have hcapR : p.RecordSize ≤ cap := Nat.le_of_dvd hcap hcapd
          have hsR : s = 0 ∨ p.RecordSize ≤ s := by
            rcases Nat.eq_zero_or_pos s with h0 | h0
            · exact Or.inl h0
            · exact Or.inr (Nat.le_of_dvd h0 hsd)
          constructor
          · intro h0; omega
          · intro h0; omega

theorem next_records (p : SortProcess) (file : List Byte) (cap : Nat) (b : mergeableBlock)
    (hR : 0 < p.RecordSize)
    (h : CursorState p file cap b) (hle : b.bufOffset + p.RecordSize ≤ b.buf.length) :
    CursorState p file cap (b.next p) ∧
    toRecords p.RecordSize (b.remaining file) =
      b.record p :: toRecords p.RecordSize ((b.next p).remaining file) := by
  refine ⟨⟨h.buf_dvd, Dvd.dvd.add h.off_dvd (dvd_refl _), hle, h.pos_le, h.full⟩, ?_⟩
  have hrem : (b.next p).remaining file = (b.remaining file).drop p.RecordSize := by
    unfold mergeableBlock.remaining mergeableBlock.next mergeableBlock.filePart
    simp only
    rw [List.drop_append_of_le_length (by rw [List.length_drop]; omega), List.drop_drop]
  have hlen : p.RecordSize ≤ (b.remaining file).length := by
    simp only [mergeableBlock.remaining, List.length_append, List.length_drop]
    omega
  rw [hrem, record_eq p file b hle]
  exact toRecords_of_ge hR _ hlen

/-- Repeating `fill`, `record`, `next` delivers the records that remain, then
`fill` returns `io.EOF`. -/
theorem drain_spec (p : SortProcess) (file : File) (cap : Nat)
    (hR : 0 < p.RecordSize) (hcap : 0 < cap) (hcapd : p.RecordSize ∣ cap) :
    ∀ (fuel : Nat) (b : mergeableBlock), CursorState p file.data cap b →
      (toRecords p.RecordSize (b.remaining file.data)).length + 1 ≤ fuel →
      b.drain p file fuel = some (toRecords p.RecordSize (b.remaining file.data)) := by
  intro fuel
  induction fuel with
  | zero => intro b _ h; omega
  | succ fuel ih =>
    intro b hb hfuel
    obtain ⟨hinv, hrem, heof, hrec⟩ := fill_records p file cap b hR hcap hcapd hb
    rcases hfill : b.fill p file with ⟨c, e⟩
    rw [hfill] at hinv hrem heof hrec
    simp only at hinv hrem heof hrec
    cases e with
    | true =>
      rw [heof.mp rfl]
      simp only [mergeableBlock.drain, hfill]
    | false =>
      obtain ⟨hninv, hnrec⟩ := next_records p file.data cap c hR hinv (hrec rfl)
      rw [hrem] at hnrec
      have hlen : (toRecords p.RecordSize ((c.next p).remaining file.data)).length + 1 ≤ fuel := by
        rw [hnrec, List.length_cons] at hfuel; omega
      simp only [mergeableBlock.drain, hfill, ih (c.next p) hninv hlen, hnrec]

/-! ## A cursor stays inside its block -/

theorem init_eq_newCursor (p : SortProcess) (nthMerge m : Nat) :
    mergeBlocks.init p nthMerge m =
      [newCursor (inputSize p) (nthMerge * 2 * m) m,
       newCursor (inputSize p) (nthMerge * 2 * m + m) m] := rfl

theorem newCursor_state (p : SortProcess) (file : List Byte) (cap pos size : Nat)
    (hcapd : p.RecordSize ∣ cap) (hsize : p.RecordSize ∣ size) :
    CursorState p file cap (newCursor cap pos size) :=
  ⟨by simp [newCursor, hcapd], hcapd, by simp [newCursor], Nat.zero_le _,
    Or.inr ⟨by simpa [newCursor] using hsize, by simp [newCursor]⟩⟩

theorem newCursor_remaining (file : List Byte) (cap pos size : Nat) :
    (newCursor cap pos size).remaining file = (file.drop pos).take size := by
  simp [newCursor, mergeableBlock.remaining, mergeableBlock.filePart]

theorem newCursor_bound (p : SortProcess) (cap pos size : Nat) (hcapd : p.RecordSize ∣ cap) :
    CursorBound p (newCursor cap pos size) :=
  ⟨by simp [newCursor, hcapd], hcapd, by simp [newCursor], Nat.zero_le _⟩

theorem fill_pos_size (p : SortProcess) (file : File) (b : mergeableBlock) :
    (b.fill p file).1.pos = b.pos ∧ (b.fill p file).1.size = b.size := by
  unfold mergeableBlock.fill
  simp only
  split_ifs <;> exact ⟨rfl, rfl⟩

/-- A `fill` reads nothing at or after the end of the block. -/
theorem fill_congr (p : SortProcess) (file file1 : File) (b : mergeableBlock)
    (hpl : b.posOffset ≤ b.size)
    (h : file1.data.take (b.pos + b.size) = file.data.take (b.pos + b.size)) :
    b.fill p file1 = b.fill p file := by
  have key : ∀ len : Nat, len ≤ b.size - b.posOffset →
      file1.ReadAt len (b.pos + b.posOffset) = file.ReadAt len (b.pos + b.posOffset) := by
    intro len hlen
    have e : ∀ f : List Byte, (f.drop (b.pos + b.posOffset)).take len =
        ((f.take (b.pos + b.size)).drop (b.pos + b.posOffset)).take len := by
      intro f
      rw [List.drop_take, List.take_take]
      congr 1
      omega
    unfold File.ReadAt
    rw [e file1.data, e file.data, h]
  unfold mergeableBlock.fill
  simp only
  split_ifs with h1 h2
  · rw [key _ (le_refl _)]
  · rw [key _ (by omega)]
  · rfl

theorem drain_congr (p : SortProcess) (file file1 : File) :
    ∀ (fuel : Nat) (b : mergeableBlock), CursorBound p b →
      file1.data.take (b.pos + b.size) = file.data.take (b.pos + b.size) →
      b.drain p file1 fuel = b.drain p file fuel := by
  intro fuel
  induction fuel with
  | zero => intro b _ _; rfl
  | succ fuel ih =>
    intro b hb h
    obtain ⟨hinv, _, hrec⟩ := fill_bound p file b hb
    obtain ⟨hp, hs⟩ := fill_pos_size p file b
    have hc := fill_congr p file file1 b hb.pos_le h
    rcases hfill : b.fill p file with ⟨c, e⟩
    rw [hfill] at hinv hrec hp hs hc
    simp only at hinv hrec hp hs
    cases e with
    | true => simp only [mergeableBlock.drain, hfill, hc]
    | false =>
      obtain ⟨hnb, _⟩ := next_bound p c hinv (hrec rfl)
      have hn : file1.data.take ((c.next p).pos + (c.next p).size) =
          file.data.take ((c.next p).pos + (c.next p).size) := by
        show file1.data.take (c.pos + c.size) = file.data.take (c.pos + c.size)
        rw [hp, hs]; exact h
      simp only [mergeableBlock.drain, hfill, hc, ih (c.next p) hnb hn]

/-- No `io.EOF` before the records that remain have been delivered. -/
theorem drain_none (p : SortProcess) (file : File) (cap : Nat)
    (hR : 0 < p.RecordSize) (hcap : 0 < cap) (hcapd : p.RecordSize ∣ cap) :
    ∀ (fuel : Nat) (b : mergeableBlock), CursorState p file.data cap b →
      fuel ≤ (toRecords p.RecordSize (b.remaining file.data)).length →
      b.drain p file fuel = none := by
  intro fuel
  induction fuel with
  | zero => intro b _ _; rfl
  | succ fuel ih =>
    intro b hb hfuel
    obtain ⟨hinv, hrem, heof, hrec⟩ := fill_records p file cap b hR hcap hcapd hb
    rcases hfill : b.fill p file with ⟨c, e⟩
    rw [hfill] at hinv hrem heof hrec
    simp only at hinv hrem heof hrec
    cases e with
    | true =>
      rw [heof.mp rfl] at hfuel
      simp at hfuel
    | false =>
      obtain ⟨hninv, hnrec⟩ := next_records p file.data cap c hR hinv (hrec rfl)
      rw [hrem] at hnrec
      have hlen : fuel ≤ (toRecords p.RecordSize ((c.next p).remaining file.data)).length := by
        rw [hnrec, List.length_cons] at hfuel; omega
      simp only [mergeableBlock.drain, hfill, ih (c.next p) hninv hlen]

/-! ## The odd trailing block of a pass -/

/-- A pass with an odd block count, on any file: the pairs leave at most
`mergeBlockSize * (blocks - 1)` bytes, and the trailing block is copied to
that offset. -/
theorem mergePass_odd (p : SortProcess) (infile : File) (m blocks : Nat)
    (hR : 0 < p.RecordSize) (hm0 : 0 < m)
    (hblocks : blocks = infile.data.length / m +
      (if infile.data.length % m > 0 then 1 else 0))
    (hodd : blocks % 2 = 1) :
    ∃ (result : File) (w : List Byte),
      mergePass p infile File.create m blocks = some result ∧
      w.length = m * (blocks - 1) ∧
      result.data = w ++ infile.data.drop (m * (blocks - 1)) ∧
      m * (blocks - 1) ≤ infile.data.length := by
  obtain ⟨r1, w1, hr1, hoff1, hd1, hw1⟩ :=
    mergePass_loop_bound p infile m hR (blocks / 2) 0 File.create rfl
  obtain ⟨e1, e2, _⟩ := odd_blocks_bounds _ m blocks hm0 hblocks hodd
  have hd1' : r1.data = w1 := by rw [hd1]; simp [File.create]
  have hle : (r1.Seek (m * (blocks - 1))).data.length ≤ (r1.Seek (m * (blocks - 1))).off := by
    show r1.data.length ≤ m * (blocks - 1)
    rw [hd1', e1]; exact hw1
  have hw := File.Write_past (r1.Seek (m * (blocks - 1)))
    (infile.data.drop (m * (blocks - 1))) hle
  refine ⟨ioCopy (r1.Seek (m * (blocks - 1))) (infile.Seek (m * (blocks - 1))),
    w1 ++ List.replicate (m * (blocks - 1) - w1.length) 0, ?_, ?_, ?_, e2⟩
  · simp only [mergePass, hr1, hodd, if_true]
  · rw [List.length_append, List.length_replicate]
    rw [e1]; omega
  · have hlt : (infile.Seek (m * (blocks - 1))).off <
        (infile.Seek (m * (blocks - 1))).data.length :=
      odd_blocks_lt _ m blocks hm0 hblocks hodd
    have hcopy : (ioCopy (r1.Seek (m * (blocks - 1))) (infile.Seek (m * (blocks - 1)))).data =
        ((r1.Seek (m * (blocks - 1))).Write (infile.data.drop (m * (blocks - 1)))).data := by
      rw [ioCopy_of_lt _ _ hlt]; rfl
    rw [hcopy, hw]
    simp only [File.Seek, hd1']

/-! ## `Swap` permutes the records

`SortContract` takes for granted that `sort.Sort` keeps the records of the
buffer up to order.  It does, whatever it decides to do: it changes the buffer
through `Swap` only, and `Swap` exchanges two records. -/

theorem perm_cons_set (a b : List Byte) : ∀ (L : List (List Byte)) (j : Nat),
    L[j]? = some b → (b :: L.set j a).Perm (a :: L) := by
  intro L
  induction L with
  | nil => intro j h; simp at h
  | cons z L ih =>
    intro j h
    cases j with
    | zero =>
      simp only [List.getElem?_cons_zero, Option.some.injEq] at h
      subst h
      exact List.Perm.swap _ _ _
    | succ j =>
      simp only [List.getElem?_cons_succ] at h
      simp only [List.set_cons_succ]
      exact ((List.Perm.swap z b _).trans ((ih j h).cons z)).trans (List.Perm.swap a z _)

theorem perm_set_set (a b : List Byte) : ∀ (L : List (List Byte)) (i j : Nat),
    L[i]? = some a → L[j]? = some b → ((L.set i b).set j a).Perm L := by
  intro L
  induction L with
  | nil => intro i j h; simp at h
  | cons x L ih =>
    intro i j hi hj
    cases i with
    | zero =>
      simp only [List.getElem?_cons_zero, Option.some.injEq] at hi
      subst hi
      cases j with
      | zero =>
        simp only [List.getElem?_cons_zero, Option.some.injEq] at hj
        subst hj
        simp
      | succ j =>
        simp only [List.getElem?_cons_succ] at hj
        simp only [List.set_cons_zero, List.set_cons_succ]
        exact perm_cons_set x b L j hj
    | succ i =>
      simp only [List.getElem?_cons_succ] at hi
      cases j with
      | zero =>
        simp only [List.getElem?_cons_zero, Option.some.injEq] at hj
        subst hj
        simp only [List.set_cons_succ, List.set_cons_zero]
        exact perm_cons_set x a L i hi
      | succ j =>
        simp only [List.getElem?_cons_succ] at hj
        simp only [List.set_cons_succ]
        exact (ih i j hi hj).cons x

theorem copyAt_flatten {R : Nat} (r : List Byte) (hr : r.length = R) :
    ∀ (L : List (List Byte)) (i : Nat), (∀ x ∈ L, x.length = R) → i < L.length →
      copyAt L.flatten (i * R) r = (L.set i r).flatten := by
  intro L
  induction L with
  | nil => intro i _ h; simp at h
  | cons x L ih =>
    intro i hL hi
    have hx : x.length = R := hL x (List.mem_cons_self _ _)
    cases i with
    | zero =>
      simp only [copyAt, Nat.zero_mul, List.take_zero, List.nil_append, Nat.zero_add,
        List.flatten_cons, List.set_cons_zero, hr]
      rw [← hx, List.drop_left]
    | succ i =>
      have ih1 := ih i (fun y hy => hL y (List.mem_cons_of_mem _ hy))
        (by simpa using hi)
      simp only [copyAt, List.flatten_cons, List.set_cons_succ] at ih1 ⊢
      have e1 : (i + 1) * R = x.length + i * R := by rw [hx, Nat.succ_mul]; omega
      have e2 : (i + 1) * R + r.length = x.length + (i * R + r.length) := by
        rw [e1]; omega
      rw [e2, e1, List.take_append, List.drop_append, ← ih1]
      simp [List.append_assoc]

theorem slice_flatten {R : Nat} (hR : 0 < R) (L : List (List Byte))
    (hL : ∀ x ∈ L, x.length = R) (i : Nat) (r : List Byte) (h : L[i]? = some r) :
    slice L.flatten (i * R) (i * R + R) = r := by
  have hi : i < L.length := by
    by_contra hc
    rw [List.getElem?_eq_none (by omega)] at h
    cases h
  have h1 := toRecords_getElem? R L.flatten i (by
    rw [length_flatten_of_records L hL, Nat.mul_div_cancel _ hR]; exact hi)
  rw [toRecords_flatten hR L hL, h] at h1
  unfold slice
  rw [Nat.add_sub_cancel_left]
  exact (Option.some.inj h1).symm

/-- Method `Swap` exchanges the records `i` and `j` and leaves the others. -/
theorem Swap_perm (p : SortProcess) (buf : List Byte) (i j : Nat)
    (hR : 0 < p.RecordSize) (hb : p.RecordSize ∣ buf.length)
    (hi : i < sortableRecords.Len p buf) (hj : j < sortableRecords.Len p buf) :
    (sortableRecords.Swap p buf i j).length = buf.length ∧
    (toRecords p.RecordSize (sortableRecords.Swap p buf i j)).Perm
      (toRecords p.RecordSize buf) := by
  obtain ⟨L, hL, rfl⟩ := (aligned_iff_flatten hR buf).mp hb
  have hlen : L.flatten.length / p.RecordSize = L.length := by
    rw [length_flatten_of_records L hL, Nat.mul_div_cancel _ hR]
  unfold sortableRecords.Len at hi hj
  rw [hlen] at hi hj
  obtain ⟨a, ha⟩ : ∃ a, L[i]? = some a := ⟨L[i], List.getElem?_eq_getElem hi⟩
  obtain ⟨b, hb2⟩ : ∃ b, L[j]? = some b := ⟨L[j], List.getElem?_eq_getElem hj⟩
  have hla : a.length = p.RecordSize := hL a (List.getElem?_mem ha)
  have hlb : b.length = p.RecordSize := hL b (List.getElem?_mem hb2)
  have hL1 : ∀ x ∈ L.set i b, x.length = p.RecordSize := by
    intro x hx
    rcases List.mem_or_eq_of_mem_set hx with h | h
    · exact hL x h
    · rw [h]; exact hlb
  have hL2 : ∀ x ∈ (L.set i b).set j a, x.length = p.RecordSize := by
    intro x hx
    rcases List.mem_or_eq_of_mem_set hx with h | h
    · exact hL1 x h
    · rw [h]; exact hla
  have hswap : sortableRecords.Swap p L.flatten i j = ((L.set i b).set j a).flatten := by
    simp only [sortableRecords.Swap]
    rw [slice_flatten hR L hL i a ha, slice_flatten hR L hL j b hb2,
      copyAt_flatten b hlb L i hL hi,
      copyAt_flatten a hla (L.set i b) j hL1 (by rw [List.length_set]; exact hj)]
  rw [hswap, toRecords_flatten hR _ hL2, toRecords_flatten hR _ hL,
    length_flatten_of_records _ hL2, length_flatten_of_records _ hL, List.length_set,
    List.length_set]
  exact ⟨rfl, perm_set_set a b L i j ha hb2⟩

/-- Any sequence of calls of `Swap` within the buffer keeps its length and its
records up to order. -/
theorem Swap_foldl_perm (p : SortProcess) (hR : 0 < p.RecordSize) :
    ∀ (swaps : List (Nat × Nat)) (buf : List Byte), p.RecordSize ∣ buf.length →
      (∀ s ∈ swaps, s.1 < sortableRecords.Len p buf ∧ s.2 < sortableRecords.Len p buf) →
      (swaps.foldl (fun b s => sortableRecords.Swap p b s.1 s.2) buf).length = buf.length ∧
      (toRecords p.RecordSize
        (swaps.foldl (fun b s => sortableRecords.Swap p b s.1 s.2) buf)).Perm
        (toRecords p.RecordSize buf) := by
  intro swaps
  induction swaps with
  | nil => intro buf _ _; exact ⟨rfl, List.Perm.refl _⟩
  | cons s rest ih =>
    intro buf hb hs
    obtain ⟨h1, h2⟩ := hs s (List.mem_cons_self _ _)
    obtain ⟨hl, hp⟩ := Swap_perm p buf s.1 s.2 hR hb h1 h2
    have hlen : sortableRecords.Len p (sortableRecords.Swap p buf s.1 s.2) =
        sortableRecords.Len p buf := by
      unfold sortableRecords.Len; rw [hl]
    obtain ⟨hl2, hp2⟩ := ih (sortableRecords.Swap p buf s.1 s.2) (by rw [hl]; exact hb)
      (fun t ht => by rw [hlen]; exact hs t (List.mem_cons_of_mem _ ht))
    exact ⟨by rw [List.foldl_cons, hl2, hl], by rw [List.foldl_cons]; exact hp2.trans hp⟩

/-! ## The merge as a stable sort -/

theorem stableMerge_cons_of_lt (p : SortProcess) (y : List Byte) :
    ∀ (xs ys : List (List Byte)), (∀ x ∈ xs, ¬ keyLE p x y) →
      stableMerge p xs (y :: ys) = y :: stableMerge p xs ys := by
  intro xs ys h
  cases xs with
  | nil => simp [stableMerge_nil_left]
  | cons x xs =>
    rw [stableMerge_cons_cons, if_neg (h x (List.mem_cons_self _ _))]

/-- The merge of two blocks in key order is the stable sort of the first block
followed by the second: records with equal keys stay in the order they have
there, those of the first block before those of the second. -/
theorem stableMerge_eq_insertionSort (p : SortProcess) (xs : List (List Byte)) :
    ∀ ys : List (List Byte), xs.Sorted (keyLE p) → ys.Sorted (keyLE p) →
      stableMerge p xs ys = (xs ++ ys).insertionSort (keyLE p) := by
  induction xs with
  | nil =>
    intro ys _ hy
    rw [stableMerge_nil_left, List.nil_append, List.Sorted.insertionSort_eq hy]
  | cons x xs ihx =>
    intro ys hx hy
    have hx1 := List.sorted_cons.mp hx
    rw [List.cons_append, List.insertionSort, ← ihx ys hx1.2 hy]
    clear ihx
    induction ys with
    | nil =>
      rw [stableMerge_nil_right, stableMerge_nil_right]
      exact (List.Sorted.insertionSort_eq hx).symm ▸ (by
        rw [List.insertionSort, List.Sorted.insertionSort_eq hx1.2])
    | cons y ys ihy =>
      have hy1 := List.sorted_cons.mp hy
      rw [stableMerge_cons_cons]
      by_cases hle : keyLE p x y
      · rw [if_pos hle]
        have hall : ∀ b ∈ stableMerge p xs (y :: ys), keyLE p x b := by
          intro b hb
          rcases List.mem_append.mp ((stableMerge_perm p xs (y :: ys)).mem_iff.mp hb) with h | h
          · exact hx1.1 b h
          · rcases List.mem_cons.mp h with h2 | h2
            · rw [h2]; exact hle
            · exact keyLE_trans p hle (hy1.1 b h2)
        cases hM : stableMerge p xs (y :: ys) with
        | nil => rfl
        | cons b M =>
          rw [hM] at hall
          rw [List.orderedInsert, if_pos (hall b (List.mem_cons_self _ _))]
      · rw [if_neg hle]
        have hlt : ∀ x1 ∈ xs, ¬ keyLE p x1 y := by
          intro x1 h1 hc
          exact hle (keyLE_trans p (hx1.1 x1 h1) hc)
        rw [stableMerge_cons_of_lt p y xs ys hlt, List.orderedInsert, if_neg hle,
          ihy hy1.2]

/-! ## Statements about the whole run -/

theorem sub_mod_eq_div_mul (x R : Nat) : x - x % R = x / R * R := by
  have h := Nat.div_add_mod x R
  rw [Nat.mul_comm] at h
  generalize x / R * R = a at h ⊢
  omega

/-- Whether the trailing bytes that make no whole record are there or not,
`sortBlocks` does the same. -/
theorem sortBlocks_take (srt : SortProcess → List Byte → List Byte) (p : SortProcess)
    (hR : 0 < p.RecordSize) (hB0 : 0 < p.BlockSize) (hB : p.RecordSize ∣ p.BlockSize)
    (input : List Byte) :
    sortBlocks srt p (File.openFile (input.take (input.length - input.length % p.RecordSize)))
        File.create =
      sortBlocks srt p (File.openFile input) File.create := by
  set N := input.length - input.length % p.RecordSize with hN
  have hlN : (input.take N).length = N := by rw [List.length_take]; omega
  have hNR : N % p.RecordSize = 0 := Nat.mod_eq_zero_of_dvd (Nat.dvd_sub_mod _)
  obtain ⟨r1, h1, hoff1, hd1⟩ := sortBlocks_spec srt p hB0 hB input
  obtain ⟨r2, h2, hoff2, hd2⟩ := sortBlocks_spec srt p hB0 hB (input.take N)
  have e : (input.take N).take N = input.take N := by rw [List.take_take, min_self]
  simp only [hlN, hNR, Nat.sub_zero, e] at hd2 h2
  rw [← hN] at h1 hd1
  have hq : N / p.BlockSize = input.length / p.BlockSize := by
    obtain ⟨k, hk⟩ := hB
    have hk0 : 0 < k := by
      rcases Nat.eq_zero_or_pos k with h0 | h0
      · rw [h0, Nat.mul_zero] at hk; omega
      · exact h0
    rw [hN, sub_mod_eq_div_mul, hk, ← Nat.div_div_eq_div_mul, Nat.mul_comm,
      ← Nat.div_div_eq_div_mul, Nat.mul_div_cancel_left _ hR]
  rw [hq, ← hd1] at hd2
  have hr : r2 = r1 := by
    cases r1; cases r2
    simp only at hd2 hoff1 hoff2
    subst hd2
    rw [hoff1, hoff2]
  rw [h1, h2, hr]

/-- C1. Sortedness of `Run`: for every input and every configuration with
`RecordSize > 0`, `KeyStart ≤ KeyEnd ≤ RecordSize` and `BlockSize` a multiple of
`RecordSize` of at least 4 records, `Run` returns and its output, which is made
of whole records, has its records in non-decreasing key order: every adjacent
pair is ordered, and so is every pair. -/
theorem C1_run_output_sorted (srt : SortProcess → List Byte → List Byte)
    (hs : SortContract srt) (p : SortProcess) (input : List Byte)
    (hR : 0 < p.RecordSize) (hk1 : p.KeyStart ≤ p.KeyEnd) (hk2 : p.KeyEnd ≤ p.RecordSize)
    (hB : p.RecordSize ∣ p.BlockSize) (hB4 : 4 * p.RecordSize ≤ p.BlockSize) :
    ∃ out : List Byte, Run srt p input = some out ∧ p.RecordSize ∣ out.length ∧
      (toRecords p.RecordSize out).Chain' (keyLE p) ∧
      (toRecords p.RecordSize out).Sorted (keyLE p) := by
  obtain ⟨_, out, _, _, _, hrun, hsorted, hlen, _, _, _⟩ :=
    Run_spec srt hs p hR hk1 hk2 (by omega) hB input (Or.inl hB4)
  exact ⟨out, hrun, by rw [hlen]; exact Nat.dvd_sub_mod _, List.Pairwise.chain' hsorted, hsorted⟩

theorem C1_run_output_sorted_witness :
    ∃ out : List Byte,
      Run insertionSortRecords ⟨2, 0, 1, 8⟩
        [3, 1, 1, 2, 2, 3, 1, 4, 0, 5, 3, 6, 2, 7, 1, 8, 0, 9, 7] = some out ∧
      2 ∣ out.length ∧
      (toRecords 2 out).Chain' (keyLE ⟨2, 0, 1, 8⟩) ∧
      (toRecords 2 out).Sorted (keyLE ⟨2, 0, 1, 8⟩) :=
  C1_run_output_sorted insertionSortRecords insertionSortRecords_contract ⟨2, 0, 1, 8⟩
    [3, 1, 1, 2, 2, 3, 1, 4, 0, 5, 3, 6, 2, 7, 1, 8, 0, 9, 7]
    (by decide) (by decide) (by decide) (by decide) (by decide)

/-- C2. Multiset preservation of `Run`: under the same conditions `Run` returns
and the records of its output, which is made of whole records, are a
permutation of the whole records of the input. -/
theorem C2_run_output_perm (srt : SortProcess → List Byte → List Byte)
    (hs : SortContract srt) (p : SortProcess) (input : List Byte)
    (hR : 0 < p.RecordSize) (hk1 : p.KeyStart ≤ p.KeyEnd) (hk2 : p.KeyEnd ≤ p.RecordSize)
    (hB : p.RecordSize ∣ p.BlockSize) (hB4 : 4 * p.RecordSize ≤ p.BlockSize) :
    ∃ out : List Byte, Run srt p input = some out ∧ p.RecordSize ∣ out.length ∧
      (toRecords p.RecordSize out).Perm (toRecords p.RecordSize input) := by
  obtain ⟨_, out, _, _, _, hrun, _, hlen, hperm, _, _⟩ :=
    Run_spec srt hs p hR hk1 hk2 (by omega) hB input (Or.inl hB4)
  exact ⟨out, hrun, by rw [hlen]; exact Nat.dvd_sub_mod _, hperm⟩

theorem C2_run_output_perm_witness :
    ∃ out : List Byte,
      Run insertionSortRecords ⟨2, 0, 1, 8⟩
        [3, 1, 1, 2, 2, 3, 1, 4, 0, 5, 3, 6, 2, 7, 1, 8, 0, 9, 7] = some out ∧
      2 ∣ out.length ∧
      (toRecords 2 out).Perm
        (toRecords 2 [3, 1, 1, 2, 2, 3, 1, 4, 0, 5, 3, 6, 2, 7, 1, 8, 0, 9, 7]) :=
  C2_run_output_perm insertionSortRecords insertionSortRecords_contract ⟨2, 0, 1, 8⟩
    [3, 1, 1, 2, 2, 3, 1, 4, 0, 5, 3, 6, 2, 7, 1, 8, 0, 9, 7]
    (by decide) (by decide) (by decide) (by decide) (by decide)

/-- C3, as stated, fails: with `RecordSize = 1` and `BlockSize = 1`, a positive
multiple of `RecordSize`, `Run` on the two bytes `5, 3` returns an empty output,
not one of `2 / 1 * 1 = 2` bytes: the input buffers of `mergeBlocks` have
`BlockSize / 4 = 0` bytes. -/
theorem C3_length_law_counterexample :
    (0 < (SortProcess.mk 1 0 1 1).RecordSize ∧
      (SortProcess.mk 1 0 1 1).KeyStart ≤ (SortProcess.mk 1 0 1 1).KeyEnd ∧
      (SortProcess.mk 1 0 1 1).KeyEnd ≤ (SortProcess.mk 1 0 1 1).RecordSize ∧
      (SortProcess.mk 1 0 1 1).RecordSize ∣ (SortProcess.mk 1 0 1 1).BlockSize ∧
      0 < (SortProcess.mk 1 0 1 1).BlockSize) ∧
    ∃ out : List Byte, Run insertionSortRecords ⟨1, 0, 1, 1⟩ [5, 3] = some out ∧
      out.length ≠ ([5, 3] : List Byte).length / 1 * 1 :=
  ⟨by decide, [], by decide, by decide⟩

/-- C3, amended. Length law of `Run`: for `RecordSize > 0`, a valid key window
and `BlockSize` a positive multiple of `RecordSize` that either holds at least 4
records or is not less than the whole records of the input, `Run` returns an
output of `inputLength / RecordSize * RecordSize` bytes, the same output as for
the input without its trailing `inputLength mod RecordSize` bytes. -/
theorem C3_length_law_amended (srt : SortProcess → List Byte → List Byte)
    (hs : SortContract srt) (p : SortProcess) (input : List Byte)
    (hR : 0 < p.RecordSize) (hk1 : p.KeyStart ≤ p.KeyEnd) (hk2 : p.KeyEnd ≤ p.RecordSize)
    (hB0 : 0 < p.BlockSize) (hB : p.RecordSize ∣ p.BlockSize)
    (h4 : 4 * p.RecordSize ≤ p.BlockSize ∨
      input.length / p.RecordSize * p.RecordSize ≤ p.BlockSize) :
    ∃ out : List Byte, Run srt p input = some out ∧
      out.length = input.length / p.RecordSize * p.RecordSize ∧
      Run srt p (input.take (input.length / p.RecordSize * p.RecordSize)) = some out := by
  rw [← sub_mod_eq_div_mul] at h4 ⊢
  obtain ⟨_, out, _, _, _, hrun, _, hlen, _, _, _⟩ :=
    Run_spec srt hs p hR hk1 hk2 hB0 hB input h4
  refine ⟨out, hrun, hlen, ?_⟩
  have ht := sortBlocks_take srt p hR hB0 hB input
  rw [← hrun]
  simp only [Run, ht]

theorem C3_length_law_amended_witness :
    ∃ out : List Byte,
      Run insertionSortRecords ⟨2, 0, 1, 8⟩
        [3, 1, 1, 2, 2, 3, 1, 4, 0, 5, 3, 6, 2, 7, 1, 8, 0, 9, 7] = some out ∧
      out.length =
        ([3, 1, 1, 2, 2, 3, 1, 4, 0, 5, 3, 6, 2, 7, 1, 8, 0, 9, 7] : List Byte).length / 2 * 2 ∧
      Run insertionSortRecords ⟨2, 0, 1, 8⟩
        (([3, 1, 1, 2, 2, 3, 1, 4, 0, 5, 3, 6, 2, 7, 1, 8, 0, 9, 7] : List Byte).take
          (([3, 1, 1, 2, 2, 3, 1, 4, 0, 5, 3, 6, 2, 7, 1, 8, 0, 9, 7] : List Byte).length
            / 2 * 2)) = some out :=
  C3_length_law_amended insertionSortRecords insertionSortRecords_contract ⟨2, 0, 1, 8⟩
    [3, 1, 1, 2, 2, 3, 1, 4, 0, 5, 3, 6, 2, 7, 1, 8, 0, 9, 7]
    (by decide) (by decide) (by decide) (by decide) (by decide) (Or.inl (by decide))

/-! ## Statements about the merge of two blocks, a pass, and a cursor -/

/-- C4. `mergeBlocks` is correct: on a file of whole records, with
`mergeBlockSize` a multiple of `RecordSize` and `BlockSize` a multiple of
`RecordSize` of at least 4 records, when the two blocks of the pair `nthMerge`
(clipped to the end of the file) are each in key order, `mergeBlocks` returns,
having appended to the output bytes `w` as long as the two blocks together,
whose records are a permutation of the records of both blocks, in
non-decreasing key order. -/
theorem C4_mergeBlocks_correct (p : SortProcess) (infile outfile : File) (nthMerge m : Nat)
    (hR : 0 < p.RecordSize) (hk1 : p.KeyStart ≤ p.KeyEnd) (hk2 : p.KeyEnd ≤ p.RecordSize)
    (_hB : p.RecordSize ∣ p.BlockSize) (hB4 : 4 * p.RecordSize ≤ p.BlockSize)
    (hm : p.RecordSize ∣ m) (hf : p.RecordSize ∣ infile.data.length)
    (hoff : outfile.off = outfile.data.length)
    (hs0 : SortedRecords p (blockAt m (2 * nthMerge) infile.data))
    (hs1 : SortedRecords p (blockAt m (2 * nthMerge + 1) infile.data)) :
    ∃ (result : File) (w : List Byte),
      mergeBlocks p infile outfile nthMerge m = some result ∧
      result.data = outfile.data ++ w ∧
      w.length = (blockAt m (2 * nthMerge) infile.data).length +
        (blockAt m (2 * nthMerge + 1) infile.data).length ∧
      (toRecords p.RecordSize w).Perm
        (toRecords p.RecordSize (blockAt m (2 * nthMerge) infile.data) ++
          toRecords p.RecordSize (blockAt m (2 * nthMerge + 1) infile.data)) ∧
      (toRecords p.RecordSize w).Sorted (keyLE p) := by
  obtain ⟨result, hres, _, hdata⟩ :=
    mergeBlocks_spec p infile outfile nthMerge m hR hk1 hk2 hB4 hm hf hoff
  refine ⟨result, _, hres, hdata, ?_, ?_, ?_⟩
  · exact mergeSpec_length p _ _ (blockAt_dvd m _ _ hm hf) (blockAt_dvd m _ _ hm hf)
  · rw [toRecords_mergeSpec p hR]; exact stableMerge_perm p _ _
  · rw [toRecords_mergeSpec p hR]; exact stableMerge_sorted p _ _ hs0 hs1

theorem C4_mergeBlocks_correct_witness :
    ∃ (result : File) (w : List Byte),
      mergeBlocks ⟨2, 0, 1, 8⟩ ⟨[1, 0, 3, 0, 5, 0, 7, 0, 2, 0, 4, 0, 6, 0], 0⟩ ⟨[9, 9], 2⟩ 0 8 =
        some result ∧
      result.data = [9, 9] ++ w ∧
      w.length = (blockAt 8 (2 * 0) [1, 0, 3, 0, 5, 0, 7, 0, 2, 0, 4, 0, 6, 0]).length +
        (blockAt 8 (2 * 0 + 1) [1, 0, 3, 0, 5, 0, 7, 0, 2, 0, 4, 0, 6, 0]).length ∧
      (toRecords 2 w).Perm
        (toRecords 2 (blockAt 8 (2 * 0) [1, 0, 3, 0, 5, 0, 7, 0, 2, 0, 4, 0, 6, 0]) ++
          toRecords 2 (blockAt 8 (2 * 0 + 1) [1, 0, 3, 0, 5, 0, 7, 0, 2, 0, 4, 0, 6, 0])) ∧
      (toRecords 2 w).Sorted (keyLE ⟨2, 0, 1, 8⟩) :=
  C4_mergeBlocks_correct ⟨2, 0, 1, 8⟩ ⟨[1, 0, 3, 0, 5, 0, 7, 0, 2, 0, 4, 0, 6, 0], 0⟩ ⟨[9, 9], 2⟩
    0 8 (by decide) (by decide) (by decide) (by decide) (by decide) (by decide) (by decide)
    (by decide) (by unfold SortedRecords; decide) (by unfold SortedRecords; decide)

/-- C5. Merge tie-break: under the conditions of C4 on the layout and the file,
whatever the two blocks hold, what `mergeBlocks` appends is the left-biased
stable two-way merge (`stableMerge`) of the records of the first and of the
second block.  When both blocks are in key order this is the stable sort of
the first block followed by the second: records with equal keys keep the
order they have there, so a record of the first block goes before a record of
the second block with an equal key, and each block keeps its order. -/
theorem C5_merge_tie_break (p : SortProcess) (infile outfile : File) (nthMerge m : Nat)
    (hR : 0 < p.RecordSize) (hk1 : p.KeyStart ≤ p.KeyEnd) (hk2 : p.KeyEnd ≤ p.RecordSize)
    (_hB : p.RecordSize ∣ p.BlockSize) (hB4 : 4 * p.RecordSize ≤ p.BlockSize)
    (hm : p.RecordSize ∣ m) (hf : p.RecordSize ∣ infile.data.length)
    (hoff : outfile.off = outfile.data.length) :
    ∃ result : File,
      mergeBlocks p infile outfile nthMerge m = some result ∧
      result.data = outfile.data ++
        (stableMerge p (toRecords p.RecordSize (blockAt m (2 * nthMerge) infile.data))
          (toRecords p.RecordSize (blockAt m (2 * nthMerge + 1) infile.data))).flatten ∧
      (SortedRecords p (blockAt m (2 * nthMerge) infile.data) →
        SortedRecords p (blockAt m (2 * nthMerge + 1) infile.data) →
        stableMerge p (toRecords p.RecordSize (blockAt m (2 * nthMerge) infile.data))
            (toRecords p.RecordSize (blockAt m (2 * nthMerge + 1) infile.data)) =
          (toRecords p.RecordSize (blockAt m (2 * nthMerge) infile.data) ++
            toRecords p.RecordSize (blockAt m (2 * nthMerge + 1) infile.data)).insertionSort
              (keyLE p)) := by
  obtain ⟨result, hres, _, hdata⟩ :=
    mergeBlocks_spec p infile outfile nthMerge m hR hk1 hk2 hB4 hm hf hoff
  exact ⟨result, hres, hdata, fun h0 h1 => stableMerge_eq_insertionSort p _ _ h0 h1⟩

theorem C5_merge_tie_break_witness :
    ∃ result : File,
      mergeBlocks ⟨2, 0, 1, 8⟩ ⟨[1, 0, 3, 0, 5, 0, 7, 0, 1, 1, 3, 1, 6, 1], 0⟩ ⟨[], 0⟩ 0 8 =
        some result ∧
      result.data = [] ++
        (stableMerge ⟨2, 0, 1, 8⟩
          (toRecords 2 (blockAt 8 (2 * 0) [1, 0, 3, 0, 5, 0, 7, 0, 1, 1, 3, 1, 6, 1]))
          (toRecords 2 (blockAt 8 (2 * 0 + 1) [1, 0, 3, 0, 5, 0, 7, 0, 1, 1, 3, 1, 6, 1]))).flatten ∧
      (SortedRecords ⟨2, 0, 1, 8⟩ (blockAt 8 (2 * 0) [1, 0, 3, 0, 5, 0, 7, 0, 1, 1, 3, 1, 6, 1]) →
        SortedRecords ⟨2, 0, 1, 8⟩
          (blockAt 8 (2 * 0 + 1) [1, 0, 3, 0, 5, 0, 7, 0, 1, 1, 3, 1, 6, 1]) →
        stableMerge ⟨2, 0, 1, 8⟩
            (toRecords 2 (blockAt 8 (2 * 0) [1, 0, 3, 0, 5, 0, 7, 0, 1, 1, 3, 1, 6, 1]))
            (toRecords 2 (blockAt 8 (2 * 0 + 1) [1, 0, 3, 0, 5, 0, 7, 0, 1, 1, 3, 1, 6, 1])) =
          (toRecords 2 (blockAt 8 (2 * 0) [1, 0, 3, 0, 5, 0, 7, 0, 1, 1, 3, 1, 6, 1]) ++
            toRecords 2
              (blockAt 8 (2 * 0 + 1) [1, 0, 3, 0, 5, 0, 7, 0, 1, 1, 3, 1, 6, 1])).insertionSort
              (keyLE ⟨2, 0, 1, 8⟩)) :=
  C5_merge_tie_break ⟨2, 0, 1, 8⟩ ⟨[1, 0, 3, 0, 5, 0, 7, 0, 1, 1, 3, 1, 6, 1], 0⟩ ⟨[], 0⟩ 0 8
    (by decide) (by decide) (by decide) (by decide) (by decide) (by decide) (by decide)
    (by decide)

/-- C6. Odd trailing block of a pass: for `RecordSize > 0`,
`0 ≤ KeyStart ≤ KeyEnd ≤ RecordSize`, `mergeBlockSize > 0` and an odd block count
`blocks = ceil(size / mergeBlockSize)` on an input of `size` bytes, `mergePass`
into a fresh output file returns; from the offset
`mergeBlockSize * (blocks - 1)` on, the output holds the bytes the input holds
from that offset on, and the output is as long as the input. -/
theorem C6_odd_trailing_block (p : SortProcess) (infile : File) (m blocks : Nat)
    (hR : 0 < p.RecordSize) (_hk1 : p.KeyStart ≤ p.KeyEnd) (_hk2 : p.KeyEnd ≤ p.RecordSize)
    (hm0 : 0 < m)
    (hblocks : blocks = infile.data.length / m +
      (if infile.data.length % m > 0 then 1 else 0))
    (hodd : blocks % 2 = 1) :
    ∃ result : File, mergePass p infile File.create m blocks = some result ∧
      result.data.drop (m * (blocks - 1)) = infile.data.drop (m * (blocks - 1)) ∧
      result.data.length = infile.data.length := by
  obtain ⟨result, w, hres, hw, hdata, hle⟩ := mergePass_odd p infile m blocks hR hm0 hblocks hodd
  refine ⟨result, hres, ?_, ?_⟩
  · rw [hdata, ← hw, List.drop_left]
  · rw [hdata, List.length_append, List.length_drop, hw]; omega

theorem C6_odd_trailing_block_witness :
    ∃ result : File,
      mergePass ⟨2, 0, 1, 8⟩ ⟨[5, 0, 1, 0, 4, 0, 2, 0, 3, 0], 0⟩ File.create 4 3 = some result ∧
      result.data.drop (4 * (3 - 1)) =
        ([5, 0, 1, 0, 4, 0, 2, 0, 3, 0] : List Byte).drop (4 * (3 - 1)) ∧
      result.data.length = ([5, 0, 1, 0, 4, 0, 2, 0, 3, 0] : List Byte).length :=
  C6_odd_trailing_block ⟨2, 0, 1, 8⟩ ⟨[5, 0, 1, 0, 4, 0, 2, 0, 3, 0], 0⟩ 4 3
    (by decide) (by decide) (by decide) (by decide) (by decide) (by decide)

/-- C7. A cursor yields its block in file order: for `RecordSize > 0`, a cursor
built as in `mergeBlocks` with a buffer of `cap` bytes, `cap` a positive
multiple of `RecordSize`, at offset `pos` with declared length `size`, a multiple
of `RecordSize`, over a file of whole records: repeating `fill`, `record`,
`next` until `fill` returns `io.EOF` yields exactly the records of the bytes
`[pos, min(pos + size, fileLength))`, in order; `fill` does not return `io.EOF`
before they have all been delivered; and the bytes of the file at or after
`pos + size` have no part in any of it. -/
theorem C7_cursor_yields_block (p : SortProcess) (file : File) (cap pos size : Nat)
    (hR : 0 < p.RecordSize) (hcap : 0 < cap) (hcapd : p.RecordSize ∣ cap)
    (hsize : p.RecordSize ∣ size) (_hf : p.RecordSize ∣ file.data.length) :
    (∀ fuel : Nat,
      (toRecords p.RecordSize ((file.data.drop pos).take size)).length + 1 ≤ fuel →
      (newCursor cap pos size).drain p file fuel =
        some (toRecords p.RecordSize ((file.data.drop pos).take size))) ∧
    (∀ fuel : Nat,
      fuel ≤ (toRecords p.RecordSize ((file.data.drop pos).take size)).length →
      (newCursor cap pos size).drain p file fuel = none) ∧
    (∀ (file1 : File) (fuel : Nat),
      file1.data.take (pos + size) = file.data.take (pos + size) →
      (newCursor cap pos size).drain p file1 fuel =
        (newCursor cap pos size).drain p file fuel) := by
  have hst := newCursor_state p file.data cap pos size hcapd hsize
  have hrem := newCursor_remaining file.data cap pos size
  refine ⟨?_, ?_, ?_⟩
  · intro fuel hfuel
    rw [← hrem] at hfuel ⊢
    exact drain_spec p file cap hR hcap hcapd fuel _ hst hfuel
  · intro fuel hfuel
    rw [← hrem] at hfuel
    exact drain_none p file cap hR hcap hcapd fuel _ hst hfuel
  · intro file1 fuel h
    exact drain_congr p file file1 fuel _ (newCursor_bound p cap pos size hcapd) h

theorem C7_cursor_yields_block_witness :
    (∀ fuel : Nat,
      (toRecords 2
        ((([9, 9, 9, 1, 0, 3, 0, 5, 0, 7, 0, 8, 8, 8] : List Byte).drop 3).take 6)).length + 1 ≤ fuel →
      (newCursor 4 3 6).drain ⟨2, 0, 1, 8⟩ ⟨[9, 9, 9, 1, 0, 3, 0, 5, 0, 7, 0, 8, 8, 8], 0⟩ fuel =
        some (toRecords 2
          ((([9, 9, 9, 1, 0, 3, 0, 5, 0, 7, 0, 8, 8, 8] : List Byte).drop 3).take 6))) ∧
    (∀ fuel : Nat,
      fuel ≤ (toRecords 2
        ((([9, 9, 9, 1, 0, 3, 0, 5, 0, 7, 0, 8, 8, 8] : List Byte).drop 3).take 6)).length →
      (newCursor 4 3 6).drain ⟨2, 0, 1, 8⟩ ⟨[9, 9, 9, 1, 0, 3, 0, 5, 0, 7, 0, 8, 8, 8], 0⟩ fuel =
        none) ∧
    (∀ (file1 : File) (fuel : Nat),
      file1.data.take (3 + 6) =
        ([9, 9, 9, 1, 0, 3, 0, 5, 0, 7, 0, 8, 8, 8] : List Byte).take (3 + 6) →
      (newCursor 4 3 6).drain ⟨2, 0, 1, 8⟩ file1 fuel =
        (newCursor 4 3 6).drain ⟨2, 0, 1, 8⟩
          ⟨[9, 9, 9, 1, 0, 3, 0, 5, 0, 7, 0, 8, 8, 8], 0⟩ fuel) :=
  C7_cursor_yields_block ⟨2, 0, 1, 8⟩ ⟨[9, 9, 9, 1, 0, 3, 0, 5, 0, 7, 0, 8, 8, 8], 0⟩ 4 3 6
    (by decide) (by decide) (by decide) (by decide) (by decide)

/-! ## Statements about the sorted blocks, the trivial case and a second run -/

/-- C9. Trivial case: when the size `sortBlocks` returns is at most `BlockSize`,
`merge` runs no pass (its log is empty) and only relocates the file of sorted
blocks, and the output of `Run` is the content of that file. -/
theorem C9_trivial_case (srt : SortProcess → List Byte → List Byte) (p : SortProcess)
    (input : List Byte) (sorted : File) (size : Nat)
    (h : sortBlocks srt p (File.openFile input) File.create = some (sorted, size))
    (hle : size ≤ p.BlockSize) :
    merge p sorted File.create size = some (renameOrCopy sorted, []) ∧
    Run srt p input = some sorted.data := by
  have hm : merge p sorted File.create size = some (renameOrCopy sorted, []) := by
    simp only [merge, ge_iff_le, hle, if_true]
  refine ⟨hm, ?_⟩
  simp only [Run, h, hm]
  rfl

theorem C9_trivial_case_witness :
    merge ⟨2, 0, 1, 8⟩ ⟨[1, 2, 2, 3, 3, 1], 6⟩ File.create 6 =
      some (renameOrCopy ⟨[1, 2, 2, 3, 3, 1], 6⟩, []) ∧
    Run insertionSortRecords ⟨2, 0, 1, 8⟩ [3, 1, 1, 2, 2, 3] =
      some (File.mk [1, 2, 2, 3, 3, 1] 6).data :=
  C9_trivial_case insertionSortRecords ⟨2, 0, 1, 8⟩ [3, 1, 1, 2, 2, 3] ⟨[1, 2, 2, 3, 3, 1], 6⟩ 6
    (by decide) (by decide)

theorem inputSize_eq (p : SortProcess) :
    inputSize p = p.BlockSize / 4 / p.RecordSize * p.RecordSize := by
  unfold inputSize
  have h := Nat.div_add_mod (p.BlockSize / 4) p.RecordSize
  rw [Nat.mul_comm] at h
  generalize p.BlockSize / 4 / p.RecordSize * p.RecordSize = a at h ⊢
  generalize p.BlockSize / 4 % p.RecordSize = r at h ⊢
  omega

theorem inputSize_le (p : SortProcess) : inputSize p ≤ p.BlockSize / 4 := by
  unfold inputSize
  exact Nat.sub_le _ _

theorem outputSize_eq (p : SortProcess) :
    outputSize p = (p.BlockSize - 2 * inputSize p) / p.RecordSize * p.RecordSize := by
  unfold outputSize
  rw [Nat.mul_comm (inputSize p) 2]
  have h := Nat.div_add_mod (p.BlockSize - 2 * inputSize p) p.RecordSize
  rw [Nat.mul_comm] at h
  generalize (p.BlockSize - 2 * inputSize p) / p.RecordSize * p.RecordSize = a at h ⊢
  generalize (p.BlockSize - 2 * inputSize p) % p.RecordSize = r at h ⊢
  omega

theorem outputSize_le (p : SortProcess) : outputSize p ≤ p.BlockSize - inputSize p * 2 := by
  unfold outputSize
  exact Nat.sub_le _ _

theorem outputSize_of_dvd (p : SortProcess) (hB : p.RecordSize ∣ p.BlockSize) :
    outputSize p = p.BlockSize - inputSize p * 2 := by
  unfold outputSize
  have h : p.RecordSize ∣ p.BlockSize - inputSize p * 2 :=
    Nat.dvd_sub' hB (Dvd.dvd.mul_right (inputSize_dvd p) 2)
  rw [Nat.mod_eq_zero_of_dvd h, Nat.sub_zero]

theorem inputSize_eq_zero (p : SortProcess) (_hR : 0 < p.RecordSize)
    (hB : p.BlockSize < 4 * p.RecordSize) : inputSize p = 0 := by
  rw [inputSize_eq]
  have h : p.BlockSize / 4 < p.RecordSize := by omega
  rw [Nat.div_eq_of_lt h, Nat.zero_mul]

/-! ## Cursors without a buffer -/

theorem fill_empty (p : SortProcess) (file : File) (pos size : Nat) :
    (newCursor 0 pos size).fill p file = (newCursor 0 pos size, true) := by
  simp [mergeableBlock.fill, newCursor, File.ReadAt]

theorem mergeBlocks_of_inputSize_zero (p : SortProcess) (infile outfile : File)
    (nthMerge m : Nat) (h0 : inputSize p = 0) :
    mergeBlocks p infile outfile nthMerge m = some outfile := by
  have hscan : mergeBlocks.scan p infile (mergeBlocks.init p nthMerge m) [] none = ([], none) := by
    rw [init_eq_newCursor, h0]
    simp only [mergeBlocks.scan, fill_empty]
  have hlen : (mergeBlocks.init p nthMerge m).length > 0 := by
    rw [init_eq_newCursor]; simp
  have h2 : 2 * m + 2 = (2 * m) + 1 + 1 := rfl
  rw [mergeBlocks, h2, mergeBlocks.loop, if_pos hlen, hscan]
  simp [mergeBlocks.loop]

theorem wrapInt_of_range (x : Int) (h1 : -2 ^ 63 ≤ x) (h2 : x < 2 ^ 63) : wrapInt x = x := by
  unfold wrapInt
  rw [Int.emod_eq_of_lt (by omega) (by omega)]
  omega

theorem main_blockRecordSize_ge (f : Flags) : 4 ≤ main.blockRecordSize f := by
  unfold main.blockRecordSize
  simp only
  split_ifs <;> omega

theorem main_fields (f : Flags) (c : Config) (h : main f = some c) :
    2 ≤ f.nargs ∧ 0 < f.size ∧ 0 ≤ f.offset ∧ 0 ≤ f.length ∧
    wrapInt (f.offset + f.length) ≤ f.size ∧
    c.RecordSize = f.size ∧ c.KeyStart = f.offset ∧
    c.KeyEnd = wrapInt (f.offset +
      (if f.length = 0 then wrapInt (f.size - f.offset) else f.length)) ∧
    c.BlockSize = wrapInt (main.blockRecordSize f * f.size) := by
  unfold main at h
  by_cases h1 : f.nargs < 1
  · rw [if_pos h1] at h; exact absurd h (by simp)
  by_cases h2 : f.nargs < 2
  · rw [if_neg h1, if_pos h2] at h; exact absurd h (by simp)
  by_cases h3 : f.size ≤ 0
  · rw [if_neg h1, if_neg h2, if_pos h3] at h; exact absurd h (by simp)
  by_cases h4 : f.offset < 0 ∨ f.length < 0
  · rw [if_neg h1, if_neg h2, if_neg h3, if_pos h4] at h; exact absurd h (by simp)
  by_cases h5 : wrapInt (f.offset + f.length) > f.size
  · rw [if_neg h1, if_neg h2, if_neg h3, if_neg h4, if_pos h5] at h; exact absurd h (by simp)
  rw [if_neg h1, if_neg h2, if_neg h3, if_neg h4, if_neg h5] at h
  simp only [Option.some.injEq] at h
  subst h
  refine ⟨by omega, by omega, by omega, by omega, by omega, rfl, rfl, rfl, rfl⟩

/-! ## The embedding with errors and checks, when nothing fails -/

theorem fill_buf_length_le (p : SortProcess) (file : File) (b : mergeableBlock) :
    (b.fill p file).1.buf.length ≤ b.buf.length := by
  by_cases hlt : b.bufOffset < b.buf.length
  · rw [fill_of_lt p file b hlt]
  · obtain ⟨d, hd, hfill⟩ := fill_of_ge p file b (by omega)
    rw [hfill]
    have hlen : d.length ≤ b.buf.length := by
      rw [hd, List.length_take]; omega
    simp only [List.length_take]
    omega

/-- With no failing read, `fillX` on a cursor within its bounds does what `fill`
does: no slice expression of `fill` is out of range. -/
theorem fillX_ok (p : SortProcess) (file : File) (cap : Nat) (b : mergeableBlock)
    (hR : 0 < p.RecordSize) (h : CursorBound p b) (hcap : b.buf.length ≤ cap) :
    b.fillX p Device.ok file cap = Except.ok (b.fill p file) := by
  have hpl := h.pos_le
  have hR0 : p.RecordSize ≠ 0 := by omega
  unfold mergeableBlock.fillX mergeableBlock.fill
  by_cases hge : b.bufOffset ≥ b.buf.length
  · have hsafe : ¬ (b.posOffset + b.buf.length > b.size ∧
        ¬ (b.posOffset ≤ b.size ∧ b.size - b.posOffset ≤ cap)) := by
      intro hc
      exact hc.2 ⟨hpl, by omega⟩
    simp only [hge, if_true, hsafe, if_false, Device.ok, Bool.false_eq_true, and_false, hR0]
  · simp only [hge, if_false]

theorem scan_cap (p : SortProcess) (file : File) (cap : Nat) :
    ∀ (todo kept : List mergeableBlock) (less : Option (Nat × mergeableBlock)),
      (∀ b ∈ todo, b.buf.length ≤ cap) → (∀ b ∈ kept, b.buf.length ≤ cap) →
      ∀ b ∈ (mergeBlocks.scan p file todo kept less).1, b.buf.length ≤ cap := by
  intro todo
  induction todo with
  | nil => intro kept less _ hk; simpa [mergeBlocks.scan] using hk
  | cons b rest ih =>
    intro kept less htodo hk
    have hb := fill_buf_length_le p file b
    have hb0 := htodo b (List.mem_cons_self _ _)
    have hrest : ∀ x ∈ rest, x.buf.length ≤ cap := fun x hx => htodo x (List.mem_cons_of_mem _ hx)
    rcases hfill : b.fill p file with ⟨c, e⟩
    rw [hfill] at hb
    simp only at hb
    cases e with
    | true =>
      have hs : mergeBlocks.scan p file (b :: rest) kept less =
          mergeBlocks.scan p file rest kept less := by
        simp [mergeBlocks.scan, hfill]
      rw [hs]
      exact ih kept less hrest hk
    | false =>
      have hkept : ∀ x ∈ kept ++ [c], x.buf.length ≤ cap := by
        intro x hx
        rcases List.mem_append.mp hx with h | h
        · exact hk x h
        · rw [List.mem_singleton.mp h]; omega
      have hs : ∃ less1, mergeBlocks.scan p file (b :: rest) kept less =
          mergeBlocks.scan p file rest (kept ++ [c]) less1 := by
        simp only [mergeBlocks.scan, hfill]
        exact ⟨_, rfl⟩
      obtain ⟨less1, hs⟩ := hs
      rw [hs]
      exact ih (kept ++ [c]) less1 hrest hkept

/-- With no failing read, the inner loop with checks does what the inner loop
does: every `key()` is taken on a cursor that stands on a whole record. -/
theorem scanX_ok (p : SortProcess) (file : File) (cap : Nat) (hR : 0 < p.RecordSize)
    (hk1 : p.KeyStart ≤ p.KeyEnd) (hk2 : p.KeyEnd ≤ p.RecordSize) :
    ∀ (todo kept : List mergeableBlock) (less : Option (Nat × mergeableBlock)),
      (∀ b ∈ todo, CursorBound p b ∧ b.buf.length ≤ cap) → ScanPost p kept less →
      mergeBlocks.scanX p Device.ok file cap todo kept less =
        Except.ok (mergeBlocks.scan p file todo kept less) := by
  intro todo
  induction todo with
  | nil => intro kept less _ _; simp [mergeBlocks.scanX, mergeBlocks.scan]
  | cons b rest ih =>
    intro kept less htodo hk
    obtain ⟨hbb, hbc⟩ := htodo b (List.mem_cons_self _ _)
    obtain ⟨hinv, _, hrec⟩ := fill_bound p file b hbb
    have hfx := fillX_ok p file cap b hR hbb hbc
    have hrest : ∀ x ∈ rest, CursorBound p x ∧ x.buf.length ≤ cap :=
      fun x hx => htodo x (List.mem_cons_of_mem _ hx)
    rcases hfill : b.fill p file with ⟨c, e⟩
    rw [hfill] at hinv hrec hfx
    simp only at hinv hrec
    cases e with
    | true =>
      simp only [mergeBlocks.scanX, mergeBlocks.scan, hfx, hfill]
      exact ih kept less hrest hk
    | false =>
      have hc := hrec rfl
      have hkept : ∀ x ∈ kept ++ [c],
          CursorBound p x ∧ x.bufOffset + p.RecordSize ≤ x.buf.length := by
        intro x hx
        rcases List.mem_append.mp hx with h | h
        · exact hk.1 x h
        · rw [List.mem_singleton.mp h]; exact ⟨hinv, hc⟩
      have hlast : (kept ++ [c])[kept.length]? = some c := by simp
      cases less with
      | none =>
        simp only [mergeBlocks.scanX, mergeBlocks.scan, hfx, hfill]
        exact ih (kept ++ [c]) (some (kept.length, c)) hrest ⟨hkept, hlast⟩
      | some jl =>
        obtain ⟨j, l⟩ := jl
        have hj : kept[j]? = some l := hk.2
        have hl := (hk.1 l (List.getElem?_mem hj)).2
        have hj2 : (kept ++ [c])[j]? = some l := by
          have hlt : j < kept.length := by
            by_contra hcn
            rw [List.getElem?_eq_none (by omega)] at hj
            cases hj
          rw [List.getElem?_append_left hlt]; exact hj
        have hkc : c.keyOK p = true := by
          simp only [mergeableBlock.keyOK, decide_eq_true_eq]
          omega
        have hkl : l.keyOK p = true := by
          simp only [mergeableBlock.keyOK, decide_eq_true_eq]
          omega
        simp only [mergeBlocks.scanX, mergeBlocks.scan, hfx, hfill, hkc, hkl, Bool.and_self,
          if_true]
        by_cases hcmp : bytesCompare (c.key p) (l.key p) < 0
        · simp only [hcmp, if_true]
          exact ih (kept ++ [c]) (some (kept.length, c)) hrest ⟨hkept, hlast⟩
        · simp only [hcmp, if_false]
          exact ih (kept ++ [c]) (some (j, l)) hrest ⟨hkept, hj2⟩

theorem outputSize_pos (p : SortProcess) (hR : 0 < p.RecordSize)
    (hB4 : 4 * p.RecordSize ≤ p.BlockSize) : 0 < outputSize p := by
  have h1 : inputSize p ≤ p.BlockSize / 4 := by
    unfold inputSize; exact Nat.sub_le _ _
  have h2 := Nat.mod_lt (p.BlockSize - inputSize p * 2) hR
  unfold outputSize
  omega

/-- With no failing read and no failing write, the outer loop with checks does
what the outer loop does: every `record()` is taken on a cursor that stands on
a whole record, and the output buffer is never extended beyond its capacity. -/
theorem loopX_ok (p : SortProcess) (file : File) (cap osz : Nat) (hR : 0 < p.RecordSize)
    (hk1 : p.KeyStart ≤ p.KeyEnd) (hk2 : p.KeyEnd ≤ p.RecordSize)
    (hosz : p.RecordSize ∣ osz) :
    ∀ (fuel : Nat) (blocks : List mergeableBlock) (out : List Byte) (outfile : File),
      (∀ b ∈ blocks, CursorBound p b ∧ b.buf.length ≤ cap) →
      p.RecordSize ∣ out.length → out.length < osz →
      mergeBlocks.loopX p Device.ok file cap osz fuel blocks out outfile =
        match mergeBlocks.loop p file osz fuel blocks out outfile with
        | none => Except.error Outcome.outOfFuel
        | some r => Except.ok r := by
  intro fuel
  induction fuel with
  | zero => intro blocks out outfile _ _ _; simp [mergeBlocks.loopX, mergeBlocks.loop]
  | succ fuel ih =>
    intro blocks out outfile hb hout hlt
    by_cases hpos : 0 < blocks.length
    · have hb1 : ∀ b ∈ blocks, CursorBound p b := fun b h => (hb b h).1
      have hb2 : ∀ b ∈ blocks, b.buf.length ≤ cap := fun b h => (hb b h).2
      obtain ⟨⟨hkept, hless⟩, _⟩ := scan_bound p file blocks [] none hb1 ⟨by simp, rfl⟩
      have hcap := scan_cap p file cap blocks [] none hb2 (by simp)
      have hsx := scanX_ok p file cap hR hk1 hk2 blocks [] none hb ⟨by simp, rfl⟩
      rcases hscan : mergeBlocks.scan p file blocks [] none with ⟨blocks1, less⟩
      rw [hscan] at hkept hless hcap hsx
      cases less with
      | none =>
        rw [mergeBlocks.loopX, if_pos hpos, hsx, mergeBlocks.loop, if_pos hpos, hscan]
        exact ih blocks1 out outfile (fun b h => ⟨(hkept b h).1, hcap b h⟩) hout hlt
      | some il =>
        obtain ⟨i, l⟩ := il
        simp only at hless
        have hmem : l ∈ blocks1 := List.getElem?_mem hless
        obtain ⟨hlb, hlr⟩ := hkept l hmem
        obtain ⟨hnb, _⟩ := next_bound p l hlb hlr
        have hall : ∀ b ∈ blocks1.set i (l.next p), CursorBound p b ∧ b.buf.length ≤ cap := by
          intro b hb3
          rcases List.mem_or_eq_of_mem_set hb3 with h | h
          · exact ⟨(hkept b h).1, hcap b h⟩
          · rw [h]; exact ⟨hnb, hcap l hmem⟩
        have hrl := record_length p l hlr
        have hroom : out.length + p.RecordSize ≤ osz := add_le_of_dvd_of_lt hout hosz hlt
        have hrok : l.recordOK p = true := by
          simp only [mergeableBlock.recordOK, decide_eq_true_eq]; exact hlr
        have hl1 : (out ++ l.record p).length = out.length + p.RecordSize := by
          rw [List.length_append, hrl]
        rw [loop_step p file osz fuel blocks blocks1 i l out outfile hpos hscan]
        rw [mergeBlocks.loopX, if_pos hpos, hsx]
        simp only [hrok, hroom, decide_True, Bool.and_self, if_true]
        simp only [Device.ok, List.take_length, ne_eq, not_true_eq_false, or_self, if_false]
        by_cases hfull : (out ++ l.record p).length = osz
        · simp only [hfull, if_true]
          exact ih _ [] _ hall (dvd_zero _) (by simp only [List.length_nil]; omega)
        · simp only [hfull, if_false]
          exact ih _ _ _ hall (by rw [hl1]; exact Dvd.dvd.add hout (dvd_refl _)) (by omega)
    · have hnil : blocks = [] := List.length_eq_zero.mp (by omega)
      subst hnil
      simp [mergeBlocks.loopX, mergeBlocks.loop]

/-- With no failing read and no failing write, `mergeBlocks` with checks does
what `mergeBlocks` does and returns `nil`: no slice expression is out of
range. -/
theorem mergeBlocksX_ok (p : SortProcess) (infile outfile : File) (nthMerge m : Nat)
    (hR : 0 < p.RecordSize) (hk1 : p.KeyStart ≤ p.KeyEnd) (hk2 : p.KeyEnd ≤ p.RecordSize)
    (hB4 : 4 * p.RecordSize ≤ p.BlockSize) :
    mergeBlocksX p Device.ok infile outfile nthMerge m =
      match mergeBlocks p infile outfile nthMerge m with
      | none => Outcome.outOfFuel
      | some r => Outcome.returned none r false := by
  have hR0 : p.RecordSize ≠ 0 := by omega
  have hinit : ∀ b ∈ mergeBlocks.init p nthMerge m,
      CursorBound p b ∧ b.buf.length ≤ inputSize p := by
    intro b hb
    rw [init_eq_newCursor] at hb
    simp only [List.mem_cons, List.mem_singleton, List.not_mem_nil, or_false] at hb
    rcases hb with rfl | rfl
    · exact ⟨newCursor_bound p _ _ _ (inputSize_dvd p), by simp [newCursor]⟩
    · exact ⟨newCursor_bound p _ _ _ (inputSize_dvd p), by simp [newCursor]⟩
  have hl := loopX_ok p infile (inputSize p) (outputSize p) hR hk1 hk2 (outputSize_dvd p)
    (2 * m + 2) (mergeBlocks.init p nthMerge m) [] outfile hinit (dvd_zero _)
    (by simp only [List.length_nil]; exact outputSize_pos p hR hB4)
  unfold mergeBlocksX mergeBlocks
  rw [if_neg hR0, hl]
  rcases mergeBlocks.loop p infile (outputSize p) (2 * m + 2)
      (mergeBlocks.init p nthMerge m) [] outfile with _ | ⟨out, outfile1⟩
  · rfl
  · simp only [Device.ok, List.take_length, ne_eq, not_true_eq_false, or_self, if_false]
    split_ifs <;> rfl

theorem fillX_empty (p : SortProcess) (dev : Device) (file : File) (pos size : Nat)
    (hR : 0 < p.RecordSize) :
    (newCursor 0 pos size).fillX p dev file 0 = Except.ok (newCursor 0 pos size, true) := by
  have hR0 : p.RecordSize ≠ 0 := by omega
  simp [mergeableBlock.fillX, newCursor, File.ReadAt, hR0]

theorem mergeBlocksX_of_inputSize_zero (p : SortProcess) (dev : Device)
    (infile outfile : File) (nthMerge m : Nat) (hR : 0 < p.RecordSize)
    (h0 : inputSize p = 0) :
    mergeBlocksX p dev infile outfile nthMerge m = Outcome.returned none outfile false := by
  have hR0 : p.RecordSize ≠ 0 := by omega
  have hscan : mergeBlocks.scanX p dev infile 0 (mergeBlocks.init p nthMerge m) [] none =
      Except.ok ([], none) := by
    rw [init_eq_newCursor, h0]
    simp only [mergeBlocks.scanX, fillX_empty p dev infile _ _ hR]
  have hlen : (mergeBlocks.init p nthMerge m).length > 0 := by
    rw [init_eq_newCursor]; simp
  have h2 : 2 * m + 2 = (2 * m) + 1 + 1 := rfl
  rw [mergeBlocksX, if_neg hR0, h0, h2, mergeBlocks.loopX, if_pos hlen, hscan]
  simp [mergeBlocks.loopX]

/-- With the key window inside the record and nothing failing, `mergeBlocks`
with checks does what `mergeBlocks` does, whatever the block size: no slice
expression is out of range in the runs the theorems on `mergeBlocks`, `mergePass`
and `merge` are about. -/
theorem mergeBlocksX_ok_any (p : SortProcess) (infile outfile : File) (nthMerge m : Nat)
    (hR : 0 < p.RecordSize) (hk1 : p.KeyStart ≤ p.KeyEnd) (hk2 : p.KeyEnd ≤ p.RecordSize) :
    mergeBlocksX p Device.ok infile outfile nthMerge m =
      match mergeBlocks p infile outfile nthMerge m with
      | none => Outcome.outOfFuel
      | some r => Outcome.returned none r false := by
  by_cases hB4 : 4 * p.RecordSize ≤ p.BlockSize
  · exact mergeBlocksX_ok p infile outfile nthMerge m hR hk1 hk2 hB4
  · have h0 := inputSize_eq_zero p hR (by omega)
    rw [mergeBlocksX_of_inputSize_zero p Device.ok infile outfile nthMerge m hR h0,
      mergeBlocks_of_inputSize_zero p infile outfile nthMerge m h0]

theorem ceilDiv_eq (size m : Nat) (hm : 0 < m) :
    ceilDiv size m = size / m + (if size % m > 0 then 1 else 0) := by
  unfold ceilDiv
  have h1 := Nat.div_add_mod size m
  have h2 := Nat.mod_lt size hm
  generalize size / m = q at h1 ⊢
  generalize size % m = r at h1 h2 ⊢
  split_ifs with hr
  · have : size + m - 1 = (r - 1) + m * (q + 1) := by
      rw [Nat.mul_add, Nat.mul_one]; omega
    rw [this, Nat.add_mul_div_left _ _ hm, Nat.div_eq_of_lt (by omega)]
    omega
  · have hr0 : r = 0 := by omega
    subst hr0
    have : size + m - 1 = (m - 1) + m * q := by omega
    rw [this, Nat.add_mul_div_left _ _ hm, Nat.div_eq_of_lt (by omega)]
    omega

/-! ## The read position of a cursor -/

theorem fill_posOffset_le (p : SortProcess) (file : File) (b : mergeableBlock)
    (h : b.posOffset ≤ b.size) :
    (b.fill p file).1.posOffset ≤ (b.fill p file).1.size ∧
    (b.fill p file).1.size = b.size ∧ (b.fill p file).1.pos = b.pos := by
  by_cases hlt : b.bufOffset < b.buf.length
  · rw [fill_of_lt p file b hlt]
    exact ⟨h, rfl, rfl⟩
  · obtain ⟨d, hd, hfill⟩ := fill_of_ge p file b (by omega)
    rw [hfill]
    have hlen : d.length ≤ b.size - b.posOffset := by
      rw [hd, List.length_take]; omega
    refine ⟨?_, rfl, rfl⟩
    show b.posOffset + d.length ≤ b.size
    omega

/-- Once the buffer has been filled, it holds bytes that `posOffset` has
counted: a cursor either has a buffer marked as used up, or a buffer no longer
than `posOffset`. -/
theorem fill_buf_le_posOffset (p : SortProcess) (file : File) (b : mergeableBlock)
    (h : b.buf.length ≤ b.posOffset ∨ b.buf.length ≤ b.bufOffset) :
    (b.fill p file).1.buf.length ≤ (b.fill p file).1.posOffset := by
  by_cases hlt : b.bufOffset < b.buf.length
  · rw [fill_of_lt p file b hlt]
    show b.buf.length ≤ b.posOffset
    omega
  · obtain ⟨d, _, hfill⟩ := fill_of_ge p file b (by omega)
    rw [hfill]
    show (d.take (d.length - d.length % p.RecordSize)).length ≤ b.posOffset + d.length
    rw [List.length_take]
    omega

theorem calls_snoc (p : SortProcess) (file : File) (b : mergeableBlock)
    (ops : List CursorOp) (op : CursorOp) :
    b.calls p file (ops ++ [op]) = (b.calls p file ops).call p file op := by
  simp [mergeableBlock.calls, List.foldl_append]

/-- What holds of a cursor after any calls of `fill` and `next`. -/
theorem calls_bound (p : SortProcess) (file : File) (cap pos size : Nat) :
    ∀ ops : List CursorOp,
      (((newCursor cap pos size).calls p file ops).posOffset ≤ size ∧
        ((newCursor cap pos size).calls p file ops).size = size ∧
        ((newCursor cap pos size).calls p file ops).pos = pos) ∧
      (((newCursor cap pos size).calls p file ops).buf.length ≤
          ((newCursor cap pos size).calls p file ops).posOffset ∨
        ((newCursor cap pos size).calls p file ops).buf.length ≤
          ((newCursor cap pos size).calls p file ops).bufOffset) ∧
      (CursorOp.fill ∈ ops →
        ((newCursor cap pos size).calls p file ops).buf.length ≤
          ((newCursor cap pos size).calls p file ops).posOffset) := by
  intro ops
  induction ops using List.reverseRecOn with
  | nil =>
    refine ⟨⟨Nat.zero_le _, rfl, rfl⟩, Or.inr ?_, fun h => absurd h (List.not_mem_nil _)⟩
    simp [mergeableBlock.calls, newCursor]
  | append_singleton ops op ih =>
    obtain ⟨⟨h1, h2, h3⟩, h4, h5⟩ := ih
    rw [calls_snoc]
    generalize (newCursor cap pos size).calls p file ops = b at h1 h2 h3 h4 h5
    cases op with
    | fill =>
      obtain ⟨g1, g2, g3⟩ := fill_posOffset_le p file b (by omega)
      have g4 := fill_buf_le_posOffset p file b h4
      simp only [mergeableBlock.call]
      exact ⟨⟨by omega, by omega, by omega⟩, Or.inl g4, fun _ => g4⟩
    | next =>
      simp only [mergeableBlock.call, mergeableBlock.next]
      refine ⟨⟨h1, h2, h3⟩, ?_, ?_⟩
      · rcases h4 with h | h
        · exact Or.inl h
        · exact Or.inr (by omega)
      · intro hm
        rcases List.mem_append.mp hm with h | h
        · exact h5 h
        · simp at h

/-! ## The passes of `merge` -/

theorem mergePass_returns (p : SortProcess) (infile outfile : File) (m blocks : Nat)
    (hR : 0 < p.RecordSize) (hoff : outfile.off = outfile.data.length) :
    ∃ result : File, mergePass p infile outfile m blocks = some result := by
  obtain ⟨r1, _, h1, _, _, _⟩ := mergePass_loop_bound p infile m hR (blocks / 2) 0 outfile hoff
  unfold mergePass
  rw [h1]
  simp only
  split_ifs
  · exact ⟨_, rfl⟩
  · exact ⟨_, rfl⟩

theorem ceilDiv_le_iff (size m n : Nat) (hm : 0 < m) : ceilDiv size m ≤ n ↔ size ≤ m * n := by
  unfold ceilDiv
  rw [← Nat.lt_succ_iff, Nat.div_lt_iff_lt_mul hm, Nat.succ_mul, Nat.mul_comm n m]
  omega

theorem passLog_succ (size m k : Nat) :
    (List.range (k + 1)).map (fun i =>
        PassLog.mk (ceilDiv size (m * 2 ^ i)) (m * 2 ^ i) (decide (i + 1 = k + 1))) =
      PassLog.mk (ceilDiv size m) m (decide (k = 0)) ::
        (List.range k).map (fun i =>
          PassLog.mk (ceilDiv size (m * 2 * 2 ^ i)) (m * 2 * 2 ^ i) (decide (i + 1 = k))) := by
  rw [List.range_succ_eq_map, List.map_cons, List.map_map]
  congr 1
  · simp only [pow_zero, Nat.mul_one, Nat.zero_add, PassLog.mk.injEq, true_and]
    by_cases hk : k = 0 <;> simp [hk]
  · apply List.map_congr_left
    intro i _
    have h2 : m * 2 ^ (i + 1) = m * 2 * 2 ^ i := by rw [pow_succ]; ring
    simp only [Function.comp, Nat.succ_eq_add_one, h2, PassLog.mk.injEq, true_and]
    by_cases hk : i + 1 = k <;> simp [hk]

/-- The loop of `merge` runs the `K` passes it takes for the block size to reach
`size`: the first of them on blocks of `m` bytes, each next one on blocks twice
as long, the last one and only the last one into `outfile`. -/
theorem merge_loop_passes (p : SortProcess) (size : Nat) (hR : 0 < p.RecordSize) :
    ∀ (K fuel : Nat) (infile outfile : File) (m : Nat) (log : List PassLog),
      0 < m → K + 1 ≤ fuel → size ≤ m * 2 ^ K → (∀ j < K, m * 2 ^ j < size) →
      (0 < K → outfile.off = outfile.data.length) →
      ∃ result : File, passesSpec p size K m infile outfile = some result ∧
        merge.loop p size fuel infile outfile m log =
          some (result, log ++ (List.range K).map (fun i =>
            PassLog.mk (ceilDiv size (m * 2 ^ i)) (m * 2 ^ i) (decide (i + 1 = K)))) := by
  intro K
  induction K with
  | zero =>
    intro fuel infile outfile m log _ hfuel hle _ _
    obtain ⟨f, rfl⟩ : ∃ f, fuel = f + 1 := ⟨fuel - 1, by omega⟩
    have hnot : ¬ m < size := by simpa using hle
    refine ⟨outfile, rfl, ?_⟩
    simp [merge.loop, hnot]
  | succ k ih =>
    intro fuel infile outfile m log hm hfuel hle hmin hoff
    obtain ⟨f, rfl⟩ : ∃ f, fuel = f + 1 := ⟨fuel - 1, by omega⟩
    have hlt : m < size := by simpa using hmin 0 (by omega)
    have hlast : (m * 2 ≥ size) ↔ k = 0 := by
      constructor
      · intro h
        by_contra hk
        have := hmin 1 (by omega)
        simp only [pow_one] at this
        omega
      · intro hk
        subst hk
        simpa using hle
    have htoff : (if k = 0 then outfile else File.create).off =
        (if k = 0 then outfile else File.create).data.length := by
      split_ifs
      · exact hoff (by omega)
      · rfl
    obtain ⟨t, ht⟩ := mergePass_returns p infile (if k = 0 then outfile else File.create) m
      (ceilDiv size m) hR htoff
    have hle2 : size ≤ m * 2 * 2 ^ k := by
      have : m * 2 * 2 ^ k = m * 2 ^ (k + 1) := by rw [pow_succ]; ring
      rw [this]; exact hle
    have hmin2 : ∀ j < k, m * 2 * 2 ^ j < size := by
      intro j hj
      have : m * 2 * 2 ^ j = m * 2 ^ (j + 1) := by rw [pow_succ]; ring
      rw [this]; exact hmin (j + 1) (by omega)
    have hoff2 : 0 < k → (if k = 0 then t else outfile).off =
        (if k = 0 then t else outfile).data.length := by
      intro hk
      rw [if_neg (by omega)]
      exact hoff (by omega)
    obtain ⟨result, hr1, hr2⟩ := ih f t (if k = 0 then t else outfile) (m * 2)
      (log ++ [PassLog.mk (ceilDiv size m) m (decide (k = 0))]) (by omega) (by omega)
      hle2 hmin2 hoff2
    refine ⟨result, ?_, ?_⟩
    · simp only [passesSpec, ht]
      exact hr1
    · have hdec : decide (m * 2 ≥ size) = decide (k = 0) := by
        by_cases hk : k = 0
        · simp [hk, hlast.mpr hk]
        · have : ¬ (m * 2 ≥ size) := fun h => hk (hlast.mp h)
          simp [hk, this]
      rw [merge.loop, if_pos hlt]
      simp only [← ceilDiv_eq size m hm, hdec, decide_eq_true_eq, ht]
      rw [hr2, passLog_succ, List.append_assoc, List.singleton_append]

/-- The number of passes: the least `K` with `size ≤ BlockSize * 2 ^ K`. -/
theorem passes_count (B size : Nat) (hB : 0 < B) :
    size ≤ B * 2 ^ Nat.clog 2 (ceilDiv size B) ∧
    (∀ j < Nat.clog 2 (ceilDiv size B), B * 2 ^ j < size) ∧
    Nat.clog 2 (ceilDiv size B) ≤ size := by
  have h1 : size ≤ B * 2 ^ Nat.clog 2 (ceilDiv size B) := by
    rw [← ceilDiv_le_iff _ _ _ hB]
    exact (Nat.le_pow_iff_clog_le (by omega)).mpr (le_refl _)
  have h2 : ∀ j < Nat.clog 2 (ceilDiv size B), B * 2 ^ j < size := by
    intro j hj
    by_contra hc
    have : ceilDiv size B ≤ 2 ^ j := (ceilDiv_le_iff _ _ _ hB).mpr (by omega)
    have := (Nat.le_pow_iff_clog_le (by omega : 1 < 2)).mp this
    omega
  refine ⟨h1, h2, ?_⟩
  by_contra hc
  have h3 := h2 size (by omega)
  have h4 : size < 2 ^ size := Nat.lt_two_pow size
  have h5 : 2 ^ size ≤ B * 2 ^ size := Nat.le_mul_of_pos_left _ hB
  omega

theorem merge_passes (p : SortProcess) (infile outfile : File) (size : Nat)
    (hR : 0 < p.RecordSize) (hB0 : 0 < p.BlockSize) (hlt : p.BlockSize < size)
    (hoff : outfile.off = outfile.data.length) :
    ∃ result : File,
      passesSpec p size (Nat.clog 2 (ceilDiv size p.BlockSize)) p.BlockSize infile outfile =
        some result ∧
      merge p infile outfile size =
        some (result, (List.range (Nat.clog 2 (ceilDiv size p.BlockSize))).map (fun i =>
          PassLog.mk (ceilDiv size (p.BlockSize * 2 ^ i)) (p.BlockSize * 2 ^ i)
            (decide (i + 1 = Nat.clog 2 (ceilDiv size p.BlockSize))))) := by
  obtain ⟨h1, h2, h3⟩ := passes_count p.BlockSize size hB0
  obtain ⟨result, hr1, hr2⟩ := merge_loop_passes p size hR _ (size + 1) infile outfile
    p.BlockSize [] hB0 (by omega) h1 h2 (fun _ => hoff)
  refine ⟨result, hr1, ?_⟩
  rw [merge, if_neg (by omega), hr2, List.nil_append]

/-! ## Short writes in `sortBlocks` -/

/-- With no failing read and no failing write, `sortBlocks` with errors does
what `sortBlocks` does. -/
theorem sortBlocks_loopX_ok (srt : SortProcess → List Byte → List Byte) (p : SortProcess) :
    ∀ (fuel : Nat) (infile outfile : File) (n : Nat),
      sortBlocks.loopX srt p Device.ok fuel infile outfile n =
        (sortBlocks.loop srt p fuel infile outfile n).map Except.ok := by
  intro fuel
  induction fuel with
  | zero => intro infile outfile n; rfl
  | succ fuel ih =>
    intro infile outfile n
    simp only [sortBlocks.loopX, sortBlocks.loop, Device.ok, Bool.false_eq_true, and_false,
      if_false, List.take_length, ne_eq, not_true_eq_false]
    split_ifs <;> first | rfl | exact ih _ _ _

/-- When the first read of the first block fails, `mergeBlocks` returns the
error and leaves the output file in place, whatever the configuration and the
files. -/
theorem mergeBlocksX_read_failure (p : SortProcess) (dev : Device) (infile outfile : File)
    (nthMerge m : Nat) (hR : 0 < p.RecordSize) (hin : 0 < inputSize p) (hm : 0 < m)
    (hfail : dev.readFails (nthMerge * 2 * m) = true) :
    mergeBlocksX p dev infile outfile nthMerge m =
      Outcome.returned (some GoError.other) outfile false := by
  have hR0 : p.RecordSize ≠ 0 := by omega
  have hfill : (newCursor (inputSize p) (nthMerge * 2 * m) m).fillX p dev infile (inputSize p) =
      Except.error (Abort.failed GoError.other) := by
    unfold mergeableBlock.fillX newCursor
    simp only [List.length_replicate, ge_iff_le, le_refl, if_true, Nat.zero_add, Nat.add_zero,
      Nat.sub_zero, Nat.zero_le, true_and, hfail, and_true]
    by_cases hc : inputSize p > m
    · have h1 : m ≤ inputSize p := by omega
      simp only [hc, h1, not_true_eq_false, and_false, if_false, if_true, hm]
    · simp only [hc, false_and, if_false, hin, if_true]
  have hscan : mergeBlocks.scanX p dev infile (inputSize p) (mergeBlocks.init p nthMerge m)
      [] none = Except.error (Abort.failed GoError.other) := by
    rw [init_eq_newCursor, mergeBlocks.scanX, hfill]
  have hlen : (mergeBlocks.init p nthMerge m).length > 0 := by
    rw [init_eq_newCursor]; simp
  have h2 : 2 * m + 2 = (2 * m) + 1 + 1 := rfl
  rw [mergeBlocksX, if_neg hR0, h2, mergeBlocks.loopX, if_pos hlen, hscan]

/-! ## Short writes -/

/-- What the validation of `main` does establish: for all values of the size,
offset, length and block-size flags such that `offset + length` and the
product of the block size in records with `size` do not exceed the largest
`int`, `main` reaches `Run` only if `size > 0`, `offset ≥ 0`,
`length ≥ 0` and `offset + length ≤ size`, and then the configuration handed to
`Run` has `RecordSize > 0`, `0 ≤ KeyStart ≤ KeyEnd ≤ RecordSize`, and
`BlockSize` a positive multiple of `RecordSize` of at least 4 records: the block
size in records is `max(4, given value)`, or `max(4, 1MiB / RecordSize)` when
not given, and `KeyEnd - KeyStart` is `RecordSize - offset` when the length is
not given. -/
theorem main_in_range (f : Flags) (c : Config)
    (hsum : f.offset + f.length < 2 ^ 63)
    (hprod : main.blockRecordSize f * f.size < 2 ^ 63)
    (h : main f = some c) :
    (0 < f.size ∧ 0 ≤ f.offset ∧ 0 ≤ f.length ∧ f.offset + f.length ≤ f.size) ∧
    c.RecordSize = f.size ∧ c.KeyStart = f.offset ∧
    0 < c.RecordSize ∧ 0 ≤ c.KeyStart ∧ c.KeyStart ≤ c.KeyEnd ∧ c.KeyEnd ≤ c.RecordSize ∧
    c.BlockSize = main.blockRecordSize f * c.RecordSize ∧
    0 < c.BlockSize ∧ 4 * c.RecordSize ≤ c.BlockSize ∧
    main.blockRecordSize f =
      (if f.blockSize = 0 then max 4 ((2 : Int) ^ 20 / f.size) else max 4 f.blockSize) ∧
    c.KeyEnd - c.KeyStart = (if f.length = 0 then f.size - f.offset else f.length) := by
  obtain ⟨_, hs, ho, hl, hw, hr, hks, hke, hb⟩ := main_fields f c h
  have h4 := main_blockRecordSize_ge f
  have hsz : f.size < 2 ^ 63 := by nlinarith
  rw [wrapInt_of_range _ (by omega) hsum] at hw
  have hke2 : c.KeyEnd = f.offset + (if f.length = 0 then f.size - f.offset else f.length) := by
    rw [hke]
    by_cases hl0 : f.length = 0
    · rw [if_pos hl0, if_pos hl0, wrapInt_of_range (f.size - f.offset) (by omega) (by omega),
        wrapInt_of_range _ (by omega) (by omega)]
    · rw [if_neg hl0, if_neg hl0, wrapInt_of_range _ (by omega) hsum]
  have hb2 : c.BlockSize = main.blockRecordSize f * f.size := by
    rw [hb, wrapInt_of_range _ (by nlinarith) hprod]
  have hbr : main.blockRecordSize f =
      (if f.blockSize = 0 then max 4 ((2 : Int) ^ 20 / f.size) else max 4 f.blockSize) := by
    unfold main.blockRecordSize
    have h20 : (1 <<< 20 : Int) = 2 ^ 20 := by decide
    simp only [h20]
    split_ifs <;> omega
  refine ⟨⟨hs, ho, hl, hw⟩, hr, hks, by omega, by omega, ?_, ?_, by rw [hr]; exact hb2, ?_, ?_,
    hbr, ?_⟩
  · rw [hks, hke2]; split_ifs <;> omega
  · rw [hr, hke2]; split_ifs <;> omega
  · rw [hb2]; nlinarith
  · rw [hr, hb2]; nlinarith
  · rw [hks, hke2]; split_ifs <;> omega

/-! ## Statements about the passes, the command line, failures and the buffers -/

/-- C11. Number of merge passes: for `totalSize > BlockSize > 0` (and
`RecordSize > 0`, `0 ≤ KeyStart ≤ KeyEnd ≤ RecordSize`, an input file of
`totalSize` bytes, an output file written from its end), the loop of `merge`
terminates and runs exactly `K` passes, `K` the least natural number with
`BlockSize * 2 ^ K ≥ totalSize`, which is the logarithm of
`ceil(totalSize / BlockSize)` in base 2 rounded up; the `i`-th pass
(`i = 0 .. K-1`) is run with `mergeBlockSize = BlockSize * 2 ^ i` and
`blocks = ceil(totalSize / mergeBlockSize)`. -/
theorem C11_merge_pass_count (p : SortProcess) (infile outfile : File) (size : Nat)
    (hR : 0 < p.RecordSize) (_hk1 : p.KeyStart ≤ p.KeyEnd) (_hk2 : p.KeyEnd ≤ p.RecordSize)
    (hB0 : 0 < p.BlockSize) (hlt : p.BlockSize < size)
    (_hsize : infile.data.length = size) (hoff : outfile.off = outfile.data.length) :
    ∃ (K : Nat) (result : File) (log : List PassLog),
      merge p infile outfile size = some (result, log) ∧
      (size ≤ p.BlockSize * 2 ^ K ∧ ∀ j < K, p.BlockSize * 2 ^ j < size) ∧
      K = Nat.clog 2 (ceilDiv size p.BlockSize) ∧
      log.length = K ∧
      ∀ i < K, ∃ e : PassLog, log[i]? = some e ∧
        e.mergeBlockSize = p.BlockSize * 2 ^ i ∧
        e.mergeBlocks = ceilDiv size (p.BlockSize * 2 ^ i) := by
  obtain ⟨h1, h2, _⟩ := passes_count p.BlockSize size hB0
  obtain ⟨result, _, hm⟩ := merge_passes p infile outfile size hR hB0 hlt hoff
  refine ⟨_, result, _, hm, ⟨h1, h2⟩, rfl, by simp, ?_⟩
  intro i hi
  refine ⟨PassLog.mk (ceilDiv size (p.BlockSize * 2 ^ i)) (p.BlockSize * 2 ^ i)
    (decide (i + 1 = Nat.clog 2 (ceilDiv size p.BlockSize))), ?_, rfl, rfl⟩
  rw [List.getElem?_map, List.getElem?_range hi]
  rfl

theorem C11_merge_pass_count_witness :
    ∃ (K : Nat) (result : File) (log : List PassLog),
      merge ⟨2, 0, 1, 8⟩ ⟨[5, 0, 1, 0, 4, 0, 2, 0, 3, 0, 9, 9, 1, 1, 0, 0, 7, 7], 0⟩
        File.create 18 = some (result, log) ∧
      (18 ≤ 8 * 2 ^ K ∧ ∀ j < K, 8 * 2 ^ j < 18) ∧
      K = Nat.clog 2 (ceilDiv 18 8) ∧
      log.length = K ∧
      ∀ i < K, ∃ e : PassLog, log[i]? = some e ∧
        e.mergeBlockSize = 8 * 2 ^ i ∧
        e.mergeBlocks = ceilDiv 18 (8 * 2 ^ i) :=
  C11_merge_pass_count ⟨2, 0, 1, 8⟩ ⟨[5, 0, 1, 0, 4, 0, 2, 0, 3, 0, 9, 9, 1, 1, 0, 0, 7, 7], 0⟩
    File.create 18 (by decide) (by decide) (by decide) (by decide) (by decide) (by decide)
    (by decide)

/-- C12. The final pass targets the output path: in every run of `merge` with
`totalSize > BlockSize > 0` (and `RecordSize > 0`,
`0 ≤ KeyStart ≤ KeyEnd ≤ RecordSize`, an input file of `totalSize` bytes, an
output file written from its end), at least one pass is run, `lastOne` is true on a pass if and only if
that pass is the last one the loop runs, and what `merge` leaves under the
output name is what the passes leave when every pass but the last writes to a
freshly created temporary file and the last one to the output file of the
caller. -/
theorem C12_final_pass_target (p : SortProcess) (infile outfile : File) (size : Nat)
    (hR : 0 < p.RecordSize) (_hk1 : p.KeyStart ≤ p.KeyEnd) (_hk2 : p.KeyEnd ≤ p.RecordSize)
    (hB0 : 0 < p.BlockSize) (hlt : p.BlockSize < size)
    (_hsize : infile.data.length = size) (hoff : outfile.off = outfile.data.length) :
    ∃ (K : Nat) (result : File) (log : List PassLog),
      0 < K ∧ merge p infile outfile size = some (result, log) ∧ log.length = K ∧
      (∀ (i : Nat) (e : PassLog), log[i]? = some e → (e.lastOne = true ↔ i + 1 = K)) ∧
      passesSpec p size K p.BlockSize infile outfile = some result := by
  obtain ⟨h1, _, _⟩ := passes_count p.BlockSize size hB0
  obtain ⟨result, hr, hm⟩ := merge_passes p infile outfile size hR hB0 hlt hoff
  refine ⟨_, result, _, ?_, hm, by simp, ?_, hr⟩
  · by_contra hc
    have h0 : Nat.clog 2 (ceilDiv size p.BlockSize) = 0 := by omega
    rw [h0] at h1
    simp only [pow_zero, Nat.mul_one] at h1
    omega
  · intro i e he
    rw [List.getElem?_map] at he
    cases hri : (List.range (Nat.clog 2 (ceilDiv size p.BlockSize)))[i]? with
    | none => rw [hri] at he; simp at he
    | some j =>
      rw [hri] at he
      simp only [Option.map_some', Option.some.injEq] at he
      have hj : j = i := by
        have hmem := List.getElem?_eq_some_iff.mp hri
        obtain ⟨_, h⟩ := hmem
        simpa using h.symm
      subst hj
      rw [← he]
      simp

theorem C12_final_pass_target_witness :
    ∃ (K : Nat) (result : File) (log : List PassLog),
      0 < K ∧
      merge ⟨2, 0, 1, 8⟩ ⟨[5, 0, 1, 0, 4, 0, 2, 0, 3, 0, 9, 9, 1, 1, 0, 0, 7, 7], 0⟩
        ⟨[6, 6], 2⟩ 18 = some (result, log) ∧
      log.length = K ∧
      (∀ (i : Nat) (e : PassLog), log[i]? = some e → (e.lastOne = true ↔ i + 1 = K)) ∧
      passesSpec ⟨2, 0, 1, 8⟩ 18 K 8
        ⟨[5, 0, 1, 0, 4, 0, 2, 0, 3, 0, 9, 9, 1, 1, 0, 0, 7, 7], 0⟩ ⟨[6, 6], 2⟩ = some result :=
  C12_final_pass_target ⟨2, 0, 1, 8⟩ ⟨[5, 0, 1, 0, 4, 0, 2, 0, 3, 0, 9, 9, 1, 1, 0, 0, 7, 7], 0⟩
    ⟨[6, 6], 2⟩ 18 (by decide) (by decide) (by decide) (by decide) (by decide) (by decide)
    (by decide)

/-- C13 fails on the code when the arithmetic of `main` on `int` wraps around.
With `-s 1 -o 9223372036854775807 -l 1`, the sum `offset + length` wraps to
`-9223372036854775808`, the check `offset + length > size` does not fire, and
`Run` is reached with `KeyStart = 9223372036854775807 > KeyEnd` although
`offset + length > size`.  With `-s 4 -b 4611686018427387904` the product
`blockRecordSize * RecordSize` wraps to `0`, and `Run` is reached with
`BlockSize = 0`. -/
theorem C13_cli_validation_overflow :
    main ⟨1, 9223372036854775807, 1, 0, 2⟩ =
      some ⟨1, 9223372036854775807, -9223372036854775808, 1048576⟩ ∧
    ¬ ((9223372036854775807 : Int) + 1 ≤ 1) ∧
    ¬ ((9223372036854775807 : Int) ≤ -9223372036854775808) ∧
    main ⟨4, 0, 0, 4611686018427387904, 2⟩ = some ⟨4, 0, 4, 0⟩ ∧
    ¬ ((0 : Int) < 0) := by
  decide

/-- C14 fails on the code when a read fails.  `RecordSize = 2`, `BlockSize = 8`,
two blocks of 8 bytes, the read at offset 12 of the input fails: `mergeBlocks`
returns the error with 8 bytes written to the output file and the file not
removed.  When instead the write at offset 4 of the output fails, the file is
removed before the error is returned. -/
theorem C14_cleanup_on_read_failure :
    mergeBlocksX ⟨2, 0, 1, 8⟩ (Device.readFailsAt 12)
        ⟨[1, 0, 3, 0, 5, 0, 7, 0, 2, 0, 4, 0, 6, 0, 8, 0], 0⟩ File.create 0 8 =
      Outcome.returned (some GoError.other) ⟨[1, 0, 2, 0, 3, 0, 4, 0], 8⟩ false ∧
    mergeBlocksX ⟨2, 0, 1, 8⟩ (Device.writeAt 4 0 GoError.other)
        ⟨[1, 0, 3, 0, 5, 0, 7, 0, 2, 0, 4, 0, 6, 0, 8, 0], 0⟩ File.create 0 8 =
      Outcome.returned (some GoError.other) ⟨[1, 0, 2, 0], 4⟩ true := by
  decide

/-- C16. Generation invariant of a merge pass: for an input file of whole
records in which every `mergeBlockSize`-aligned block (the last one clipped to
the end of the file) is in non-decreasing key order, `mergeBlockSize` a positive
multiple of `RecordSize`, `BlockSize` a multiple of `RecordSize` of at least 4
records and `blocks = ceil(size / mergeBlockSize)`, `mergePass` into a fresh
file returns an output as long as the input in which every
`2 * mergeBlockSize`-aligned block is in non-decreasing key order and holds the
records of the same byte range of the input, up to order. -/
theorem C16_generation_invariant (p : SortProcess) (infile : File) (m blocks : Nat)
    (hR : 0 < p.RecordSize) (hk1 : p.KeyStart ≤ p.KeyEnd) (hk2 : p.KeyEnd ≤ p.RecordSize)
    (_hB : p.RecordSize ∣ p.BlockSize) (hB4 : 4 * p.RecordSize ≤ p.BlockSize)
    (hm : p.RecordSize ∣ m) (hm0 : 0 < m) (hf : p.RecordSize ∣ infile.data.length)
    (hsorted : ∀ k : Nat, SortedRecords p (blockAt m k infile.data))
    (hblocks : blocks = ceilDiv infile.data.length m) :
    ∃ result : File, mergePass p infile File.create m blocks = some result ∧
      result.data.length = infile.data.length ∧
      ∀ k : Nat, SortedRecords p (blockAt (2 * m) k result.data) ∧
        (toRecords p.RecordSize (blockAt (2 * m) k result.data)).Perm
          (toRecords p.RecordSize (blockAt (2 * m) k infile.data)) := by
  rw [ceilDiv_eq _ _ hm0] at hblocks
  obtain ⟨result, hres, _, hdata, hle⟩ :=
    mergePass_spec p infile m blocks hR hk1 hk2 hB4 hm hm0 hf hblocks
  obtain ⟨hgen, hlen, _, _⟩ :=
    Generation.pass p hR m ((blocks + 1) / 2) infile.data hm ⟨hf, hsorted⟩ hle
  refine ⟨result, hres, by rw [hdata]; exact hlen, fun k => ⟨?_, ?_⟩⟩
  · rw [hdata]; exact hgen.2 k
  · have h2m : p.RecordSize ∣ 2 * m := Dvd.dvd.mul_left hm 2
    rw [hdata, blockAt_blockwise (mergePair p m) (2 * m) h2m
      (fun b hb => mergePair_length p m b hm hb) _ _ hf hle k]
    exact mergePair_perm p hR m _ hm (blockAt_dvd (2 * m) k infile.data h2m hf)

theorem C16_generation_invariant_witness :
    ∃ result : File,
      mergePass ⟨2, 0, 1, 8⟩ ⟨[2, 0, 5, 0, 1, 0, 4, 0, 3, 0], 0⟩ File.create 4 3 = some result ∧
      result.data.length = ([2, 0, 5, 0, 1, 0, 4, 0, 3, 0] : List Byte).length ∧
      ∀ k : Nat, SortedRecords ⟨2, 0, 1, 8⟩ (blockAt (2 * 4) k result.data) ∧
        (toRecords 2 (blockAt (2 * 4) k result.data)).Perm
          (toRecords 2 (blockAt (2 * 4) k [2, 0, 5, 0, 1, 0, 4, 0, 3, 0])) :=
  C16_generation_invariant ⟨2, 0, 1, 8⟩ ⟨[2, 0, 5, 0, 1, 0, 4, 0, 3, 0], 0⟩ 4 3
    (by decide) (by decide) (by decide) (by decide) (by decide) (by decide) (by decide)
    (by decide)
    (fun k => by
      rcases k with _ | _ | _ | k
      · unfold SortedRecords; decide
      · unfold SortedRecords; decide
      · unfold SortedRecords; decide
      · rw [blockAt_of_le 4 (k + 3) _ (by simp only [List.length_cons, List.length_nil]; omega)]
        unfold SortedRecords; decide)
    (by decide)

/-- C17, as stated, fails: the first cursor `mergeBlocks` builds for
`RecordSize = 2`, `BlockSize = 8` (buffers of 2 bytes) over a block of 8 bytes,
after four turns of `fill` and three of `next` in between, none of the four
calls of `fill` returning `io.EOF`, holds the fourth record in its buffer and
`posOffset = 8`: `posOffset + len(buf) = 10` exceeds `size = 8`. -/
theorem C17_cursor_bound_counterexample :
    (mergeBlocks.init ⟨2, 0, 1, 8⟩ 0 8)[0]? = some (newCursor 2 0 8) ∧
    (newCursor 2 0 8).calls ⟨2, 0, 1, 8⟩ ⟨[1, 0, 3, 0, 5, 0, 7, 0, 2, 0, 4, 0, 6, 0, 8, 0], 0⟩
        [CursorOp.fill, CursorOp.next, CursorOp.fill, CursorOp.next, CursorOp.fill,
          CursorOp.next, CursorOp.fill] =
      { buf := [7, 0], bufOffset := 0, pos := 0, posOffset := 8, size := 8 } ∧
    ((newCursor 2 0 8).calls ⟨2, 0, 1, 8⟩
        ⟨[1, 0, 3, 0, 5, 0, 7, 0, 2, 0, 4, 0, 6, 0, 8, 0], 0⟩
        [CursorOp.fill, CursorOp.next, CursorOp.fill, CursorOp.next, CursorOp.fill,
          CursorOp.next]).fill ⟨2, 0, 1, 8⟩
        ⟨[1, 0, 3, 0, 5, 0, 7, 0, 2, 0, 4, 0, 6, 0, 8, 0], 0⟩ =
      ({ buf := [7, 0], bufOffset := 0, pos := 0, posOffset := 8, size := 8 }, false) ∧
    ¬ ((8 : Nat) + ([7, 0] : List Byte).length ≤ 8) := by
  decide

/-- C17, amended. Cursor bound invariant: reading the cursor state as the
`mergeableBlock` fields, for every cursor built as in `mergeBlocks` (a buffer of
`cap` bytes at offset `pos` with declared length `size`) the inequality
`posOffset ≤ size` holds at all times, after construction and after every call
of `fill` and `next`, up to and including the `fill` that returns `io.EOF`;
`posOffset` counts the bytes read from the block so far, those in the buffer
included, so that `len(buf) ≤ posOffset` from the first `fill` on. -/
theorem C17_cursor_bound_amended (p : SortProcess) (file : File) (cap pos size : Nat)
    (ops : List CursorOp) :
    ((newCursor cap pos size).calls p file ops).posOffset ≤
      ((newCursor cap pos size).calls p file ops).size ∧
    ((newCursor cap pos size).calls p file ops).size = size ∧
    (CursorOp.fill ∈ ops →
      ((newCursor cap pos size).calls p file ops).buf.length ≤
        ((newCursor cap pos size).calls p file ops).posOffset) := by
  obtain ⟨⟨h1, h2, _⟩, _, h5⟩ := calls_bound p file cap pos size ops
  exact ⟨by omega, h2, h5⟩

theorem C17_cursor_bound_amended_witness :
    ((newCursor 2 0 8).calls ⟨2, 0, 1, 8⟩
        ⟨[1, 0, 3, 0, 5, 0, 7, 0, 2, 0, 4, 0, 6, 0, 8, 0], 0⟩
        [CursorOp.fill, CursorOp.next, CursorOp.fill, CursorOp.next, CursorOp.fill,
          CursorOp.next, CursorOp.fill]).posOffset ≤
      ((newCursor 2 0 8).calls ⟨2, 0, 1, 8⟩
        ⟨[1, 0, 3, 0, 5, 0, 7, 0, 2, 0, 4, 0, 6, 0, 8, 0], 0⟩
        [CursorOp.fill, CursorOp.next, CursorOp.fill, CursorOp.next, CursorOp.fill,
          CursorOp.next, CursorOp.fill]).size ∧
    ((newCursor 2 0 8).calls ⟨2, 0, 1, 8⟩
        ⟨[1, 0, 3, 0, 5, 0, 7, 0, 2, 0, 4, 0, 6, 0, 8, 0], 0⟩
        [CursorOp.fill, CursorOp.next, CursorOp.fill, CursorOp.next, CursorOp.fill,
          CursorOp.next, CursorOp.fill]).size = 8 ∧
    (CursorOp.fill ∈ [CursorOp.fill, CursorOp.next, CursorOp.fill, CursorOp.next,
        CursorOp.fill, CursorOp.next, CursorOp.fill] →
      ((newCursor 2 0 8).calls ⟨2, 0, 1, 8⟩
          ⟨[1, 0, 3, 0, 5, 0, 7, 0, 2, 0, 4, 0, 6, 0, 8, 0], 0⟩
          [CursorOp.fill, CursorOp.next, CursorOp.fill, CursorOp.next, CursorOp.fill,
            CursorOp.next, CursorOp.fill]).buf.length ≤
        ((newCursor 2 0 8).calls ⟨2, 0, 1, 8⟩
          ⟨[1, 0, 3, 0, 5, 0, 7, 0, 2, 0, 4, 0, 6, 0, 8, 0], 0⟩
          [CursorOp.fill, CursorOp.next, CursorOp.fill, CursorOp.next, CursorOp.fill,
            CursorOp.next, CursorOp.fill]).posOffset) :=
  C17_cursor_bound_amended ⟨2, 0, 1, 8⟩ ⟨[1, 0, 3, 0, 5, 0, 7, 0, 2, 0, 4, 0, 6, 0, 8, 0], 0⟩
    2 0 8 [CursorOp.fill, CursorOp.next, CursorOp.fill, CursorOp.next, CursorOp.fill,
      CursorOp.next, CursorOp.fill]

/-- C18. Merge buffer budget: for `RecordSize > 0` and any `BlockSize`, the
sizes computed by `mergeBlocks` are `inputSize = floor(BlockSize / 4)` rounded
down to a multiple of `RecordSize` and `outputSize = BlockSize - 2 * inputSize`
rounded down to a multiple of `RecordSize`; both are multiples of `RecordSize`,
`2 * inputSize + outputSize ≤ BlockSize`, and equality holds when `BlockSize` is
a multiple of `RecordSize`. -/
theorem C18_merge_buffer_budget (p : SortProcess) (_hR : 0 < p.RecordSize) :
    inputSize p = p.BlockSize / 4 / p.RecordSize * p.RecordSize ∧
    outputSize p = (p.BlockSize - 2 * inputSize p) / p.RecordSize * p.RecordSize ∧
    p.RecordSize ∣ inputSize p ∧ p.RecordSize ∣ outputSize p ∧
    2 * inputSize p + outputSize p ≤ p.BlockSize ∧
    (p.RecordSize ∣ p.BlockSize → 2 * inputSize p + outputSize p = p.BlockSize) := by
  have h1 := inputSize_le p
  have h2 := outputSize_le p
  refine ⟨inputSize_eq p, outputSize_eq p, inputSize_dvd p, outputSize_dvd p, by omega, ?_⟩
  intro hB
  rw [outputSize_of_dvd p hB]
  omega

theorem C18_merge_buffer_budget_witness :
    inputSize ⟨3, 0, 1, 48⟩ = 48 / 4 / 3 * 3 ∧
    outputSize ⟨3, 0, 1, 48⟩ = (48 - 2 * inputSize ⟨3, 0, 1, 48⟩) / 3 * 3 ∧
    3 ∣ inputSize ⟨3, 0, 1, 48⟩ ∧ 3 ∣ outputSize ⟨3, 0, 1, 48⟩ ∧
    2 * inputSize ⟨3, 0, 1, 48⟩ + outputSize ⟨3, 0, 1, 48⟩ ≤ 48 ∧
    (3 ∣ 48 → 2 * inputSize ⟨3, 0, 1, 48⟩ + outputSize ⟨3, 0, 1, 48⟩ = 48) :=
  C18_merge_buffer_budget ⟨3, 0, 1, 48⟩ (by decide)

/-- C19. No slice expression out of range in the merge loop: for
`RecordSize > 0`, `0 ≤ KeyStart ≤ KeyEnd ≤ RecordSize` and `BlockSize` of at
least 4 records, on any input file and with no failing read or write,
`mergeBlocks` with every index checked ends without a panic, returns `nil` and
leaves the output file that `mergeBlocks` leaves.  The checks are: `key()` and
`record()` are called on a cursor with `bufOffset + RecordSize ≤ len(buf)`, the
reslice of `fill` has `0 ≤ size - posOffset ≤ cap(buf)`, and the extension
`out[0 : outOffset+RecordSize]` stays within `cap(out)`. -/
theorem C19_no_index_panic (p : SortProcess) (infile outfile : File) (nthMerge m : Nat)
    (hR : 0 < p.RecordSize) (hk1 : p.KeyStart ≤ p.KeyEnd) (hk2 : p.KeyEnd ≤ p.RecordSize)
    (hB4 : 4 * p.RecordSize ≤ p.BlockSize) (hoff : outfile.off = outfile.data.length) :
    ∃ result : File,
      mergeBlocksX p Device.ok infile outfile nthMerge m = Outcome.returned none result false ∧
      mergeBlocks p infile outfile nthMerge m = some result := by
  obtain ⟨result, _, hres, _, _, _⟩ := mergeBlocks_bound p infile outfile nthMerge m hR hoff
  refine ⟨result, ?_, hres⟩
  rw [mergeBlocksX_ok p infile outfile nthMerge m hR hk1 hk2 hB4, hres]

theorem C19_no_index_panic_witness :
    ∃ result : File,
      mergeBlocksX ⟨2, 0, 1, 8⟩ Device.ok ⟨[1, 0, 3, 0, 5, 0, 7, 0, 2, 0, 4, 0, 6], 0⟩
        File.create 0 8 = Outcome.returned none result false ∧
      mergeBlocks ⟨2, 0, 1, 8⟩ ⟨[1, 0, 3, 0, 5, 0, 7, 0, 2, 0, 4, 0, 6], 0⟩ File.create 0 8 =
        some result :=
  C19_no_index_panic ⟨2, 0, 1, 8⟩ ⟨[1, 0, 3, 0, 5, 0, 7, 0, 2, 0, 4, 0, 6], 0⟩ File.create 0 8
    (by decide) (by decide) (by decide) (by decide) (by decide)

/-- C20. Zero-capacity cursors below four records: for `RecordSize > 0` and
`0 < BlockSize < 4 * RecordSize`, both input cursors of `mergeBlocks` have an
empty buffer, their first `fill` returns `io.EOF`, and `mergeBlocks` returns
`nil` with the output file as it was, nothing written, whatever the input file
holds and whatever reads and writes would do; `main` never sets a block size below 4 records, so that a `BlockSize` it
computes without overflow is at least `4 * RecordSize`. -/
theorem C20_zero_capacity_cursors (p : SortProcess) (infile outfile : File)
    (nthMerge m : Nat) (hR : 0 < p.RecordSize) (_hB0 : 0 < p.BlockSize)
    (hB : p.BlockSize < 4 * p.RecordSize) :
    (∀ b ∈ mergeBlocks.init p nthMerge m, b.buf = [] ∧ (b.fill p infile).2 = true) ∧
    mergeBlocks p infile outfile nthMerge m = some outfile ∧
    (∀ dev : Device,
      mergeBlocksX p dev infile outfile nthMerge m = Outcome.returned none outfile false) ∧
    (∀ (f : Flags) (c : Config), main f = some c →
      4 ≤ main.blockRecordSize f ∧
      c.BlockSize = wrapInt (main.blockRecordSize f * c.RecordSize) ∧
      (main.blockRecordSize f * c.RecordSize < 2 ^ 63 → 4 * c.RecordSize ≤ c.BlockSize)) := by
  have h0 := inputSize_eq_zero p hR hB
  refine ⟨?_, mergeBlocks_of_inputSize_zero p infile outfile nthMerge m h0, ?_, ?_⟩
  · intro b hb
    rw [init_eq_newCursor, h0] at hb
    simp only [List.mem_cons, List.mem_singleton, List.not_mem_nil, or_false] at hb
    rcases hb with rfl | rfl
    · exact ⟨rfl, by rw [fill_empty]⟩
    · exact ⟨rfl, by rw [fill_empty]⟩
  · exact fun dev => mergeBlocksX_of_inputSize_zero p dev infile outfile nthMerge m hR h0
  · intro f c h
    obtain ⟨_, hs, _, _, _, hr, _, _, hb⟩ := main_fields f c h
    have h4 := main_blockRecordSize_ge f
    rw [hr]
    refine ⟨h4, hb, fun hlt => ?_⟩
    rw [hb, wrapInt_of_range _ (by nlinarith) hlt]
    nlinarith

theorem C20_zero_capacity_cursors_witness :
    (∀ b ∈ mergeBlocks.init ⟨2, 0, 1, 6⟩ 0 6,
      b.buf = [] ∧ (b.fill ⟨2, 0, 1, 6⟩ ⟨[1, 0, 3, 0, 5, 0, 2, 0, 4, 0], 0⟩).2 = true) ∧
    mergeBlocks ⟨2, 0, 1, 6⟩ ⟨[1, 0, 3, 0, 5, 0, 2, 0, 4, 0], 0⟩ File.create 0 6 =
      some File.create ∧
    (∀ dev : Device,
      mergeBlocksX ⟨2, 0, 1, 6⟩ dev ⟨[1, 0, 3, 0, 5, 0, 2, 0, 4, 0], 0⟩ File.create 0 6 =
        Outcome.returned none File.create false) ∧
    (∀ (f : Flags) (c : Config), main f = some c →
      4 ≤ main.blockRecordSize f ∧
      c.BlockSize = wrapInt (main.blockRecordSize f * c.RecordSize) ∧
      (main.blockRecordSize f * c.RecordSize < 2 ^ 63 → 4 * c.RecordSize ≤ c.BlockSize)) :=
  C20_zero_capacity_cursors ⟨2, 0, 1, 6⟩ ⟨[1, 0, 3, 0, 5, 0, 2, 0, 4, 0], 0⟩ File.create 0 6
    (by decide) (by decide) (by decide)

end Binsort
